import Mathlib

/-!
# translator-go: caption parsing, chunked translation and reassembly

A shallow embedding of `pkg/translator` (`batch_translate.go`, `ass.go`,
`vtt.go`, `sanitize.go`, `informal.go`, `google_translate.go`) together with the
properties of the specification that concern it.

Modelling conventions.

* A Go `string` is a list of code points (`Str`); the sources only ever look at
  strings rune by rune or through library calls that agree with that view on
  valid UTF-8.  `len([]rune(s))` is `List.length`.
* A Go `(string, error)` result is an `Except String Str`: `.ok s` is `(s, nil)`,
  `.error e` is a non-nil error (callers never read the string next to one).
* A loop or recursion that the Go code does not obviously bound is given a fuel
  argument and returns `Option`: `none` means the fuel ran out, and the
  termination lemmas show that the fuel handed over by the callers is enough.
* Go `int` is 64 bit wide; where a product can wrap (`cs * 10` in
  `assTimeToVTT`) the wrap is explicit.
* The goroutines of `BatchTranslate` and `translateConcurrent` write disjoint
  positions of `result` under one mutex, so they are run here one after the
  other in slice order.
* The random bytes behind the separator token of the `k`-th batch attempt are
  read from an oracle `rnd k`; the properties hold for every oracle.
* A regular expression is a function that gives the length of its match at the
  start of a text; replacing all matches is a left-to-right scan with it.
* The `range` over the map `replacements` visits the entries in an order that
  Go leaves open; `FormalizeToInformal` takes that order as an argument.
* The translation service behind `GoogleTranslate` is a function `backend`
  from the request text to a result; the properties hold for every such
  function unless they say otherwise.
-/

namespace Translator

/-- A Go string, seen as its sequence of code points. -/
abbrev Str := List Char

/-! ## `batch_translate.go`: constants and chunk construction -/

def chunkSize : Nat := 80

def maxChunkChars : Nat := 1800

def maxSingleTextChars : Nat := 1400

structure indexedText where
  index : Nat
  text : Str
deriving DecidableEq, Repr

/-- Sum of the code-point counts of the items of a chunk. -/
def chunkChars (chunk : List indexedText) : Nat :=
  (chunk.map fun item => item.text.length).sum

/-- The `for _, item := range items` loop of `buildChunks`, followed by the
final `if len(current) > 0` flush.  The arguments after the remaining items
are the loop variables `chunks`, `current` and `currentChars`. -/
def buildChunksLoop :
    List indexedText → List (List indexedText) → List indexedText → Nat →
      List (List indexedText)
  | [], chunks, current, _ =>
    if current.length > 0 then chunks ++ [current] else chunks
  | item :: items, chunks, current, currentChars =>
    let itemChars := item.text.length
    let shouldFlush :=
      decide (current.length > 0) &&
        (decide (current.length ≥ chunkSize) ||
          decide (currentChars + itemChars > maxChunkChars))
    let st : List (List indexedText) × List indexedText × Nat :=
      if shouldFlush then (chunks ++ [current], [], 0)
      else (chunks, current, currentChars)
    buildChunksLoop items st.1 (st.2.1 ++ [item]) (st.2.2 + itemChars)

def buildChunks (items : List indexedText) : List (List indexedText) :=
  buildChunksLoop items [] [] 0

/-! ## Library functions used by the translator (`strings`, `unicode`, `regexp`) -/

/-- `unicode.IsSpace`: the Latin-1 white space and the code points with the
Unicode White_Space property. -/
def isSpace (c : Char) : Bool :=
  c = '\t' || c = '\n' || c.toNat = 0x0B || c.toNat = 0x0C || c = '\r' || c = ' ' ||
  c.toNat = 0x85 || c.toNat = 0xA0 || c.toNat = 0x1680 ||
  (decide (0x2000 ≤ c.toNat) && decide (c.toNat ≤ 0x200A)) ||
  c.toNat = 0x2028 || c.toNat = 0x2029 || c.toNat = 0x202F || c.toNat = 0x205F ||
  c.toNat = 0x3000

/-- `strings.TrimSpace`: leading and trailing white space removed. -/
def TrimSpace (s : Str) : Str :=
  ((s.dropWhile isSpace).reverse.dropWhile isSpace).reverse

/-- `strings.Join(elems, sep)`; also the `strings.Builder` loop of
`tryBatchTranslate`, which writes the separator before every item but the
first. -/
def stringsJoin (sep : Str) : List Str → Str
  | [] => []
  | [x] => x
  | x :: y :: rest => x ++ sep ++ stringsJoin sep (y :: rest)

/-- Prepends a character to the first piece of a split. -/
def consHead (c : Char) : List Str → List Str
  | [] => [[c]]
  | p :: ps => (c :: p) :: ps

/-- The scan of `strings.Split` for a non-empty separator: the pieces between
the leftmost non-overlapping occurrences of `sep`.  The number counts the
characters of a matched separator that are still to be skipped. -/
def splitScan (sep : Str) : Nat → Str → List Str
  | _, [] => [[]]
  | skip + 1, _ :: cs => splitScan sep skip cs
  | 0, c :: cs =>
    if sep.isPrefixOf (c :: cs) then [] :: splitScan sep (sep.length - 1) cs
    else consHead c (splitScan sep 0 cs)

/-- `strings.Split(s, sep)`.  With an empty separator Go explodes the string
into its code points. -/
def stringsSplit (s sep : Str) : List Str :=
  if sep = [] then s.map fun c => [c] else splitScan sep 0 s

/-- The scan of `strings.ReplaceAll` for a non-empty `old`. -/
def replaceScan (old new : Str) : Nat → Str → Str
  | _, [] => []
  | skip + 1, _ :: cs => replaceScan old new skip cs
  | 0, c :: cs =>
    if old.isPrefixOf (c :: cs) then new ++ replaceScan old new (old.length - 1) cs
    else c :: replaceScan old new 0 cs

/-- `strings.ReplaceAll(s, old, new)`.  With an empty `old` Go inserts `new`
in front of every code point and at the end. -/
def ReplaceAll (s old new : Str) : Str :=
  if old = [] then new ++ (s.map fun c => c :: new).flatten else replaceScan old new 0 s

/-- The character class `[ \t]` of `horizontalWhitespaceRe`. -/
def isHorizontal (c : Char) : Bool :=
  c = ' ' || c = '\t'

/-- Replaces every maximal run of `[ \t]` by one space; the flag tells that the
previous character belonged to a run. -/
def collapseScan : Bool → Str → Str
  | _, [] => []
  | inRun, c :: cs =>
    if isHorizontal c then
      if inRun then collapseScan true cs else ' ' :: collapseScan true cs
    else c :: collapseScan false cs

/-- `horizontalWhitespaceRe.ReplaceAllString(s, " ")` for the pattern
`[ \t]+`. -/
def horizontalWhitespaceRe_ReplaceAll (s : Str) : Str :=
  collapseScan false s

/-! ## `google_translate.go` -/

/-- `GoogleTranslate(text, targetLang, sourceLang)`.  The empty text is
returned at once; for any other text the answer is that of `backend`, which
stands for everything after the guard: the HTTP exchange, the decoding of the
response and the informal-style rewrite for the target language `id`. -/
def GoogleTranslate (backend : Str → Except String Str) (text : Str) : Except String Str :=
  if text = [] then .ok text else backend text

/-! ## `batch_translate.go`: dispatch -/

/-- `unicode.IsSpace(runes[i-1])` for `i` from `i` down to `lo + 1`: the first
`i` found, as the inner loop of `splitTextByLength` walks backwards. -/
def scanBack (runes : Str) (lo : Nat) : Nat → Option Nat
  | 0 => none
  | i + 1 =>
    if i + 1 > lo then
      if isSpace (runes.getD i ' ') then some (i + 1) else scanBack runes lo i
    else none

/-- Appends a part to the result unless it is empty. -/
def appendPart (result : List Str) (part : Str) : List Str :=
  if part ≠ [] then result ++ [part] else result

/-- The `for start < len(runes)` loop of `splitTextByLength`; `none` when the
fuel runs out. -/
def splitLoop (runes : Str) (maxLen : Nat) : Nat → Nat → List Str → Option (List Str)
  | 0, _, _ => none
  | fuel + 1, start, result =>
    if start < runes.length then
      let stop := start + maxLen
      if stop ≥ runes.length then
        some (appendPart result (TrimSpace (runes.drop start)))
      else
        let splitAt := (scanBack runes (start + maxLen / 2) stop).getD stop
        let part := TrimSpace ((runes.drop start).take (splitAt - start))
        splitLoop runes maxLen fuel splitAt (appendPart result part)
    else some result

/-- `splitTextByLength(text, maxLen)` for `maxLen ≥ 0`. -/
def splitTextByLength (text : Str) (maxLen : Nat) : Option (List Str) :=
  if text.length ≤ maxLen then some [text]
  else
    (splitLoop text maxLen (text.length + 1) 0 []).map fun result =>
      if result.length = 0 then [text] else result

/-- The loop of `translateLongText` over the parts: the first error ends it. -/
def translateParts (backend : Str → Except String Str) : List Str → Except String (List Str)
  | [] => .ok []
  | part :: parts =>
    match GoogleTranslate backend part with
    | .error e => .error e
    | .ok translated =>
      match translateParts backend parts with
      | .error e => .error e
      | .ok rest => .ok (translated :: rest)

def translateLongText (backend : Str → Except String Str) (text : Str) :
    Option (Except String Str) :=
  if text.length ≤ maxSingleTextChars then some (GoogleTranslate backend text)
  else
    match splitTextByLength text maxSingleTextChars with
    | none => none
    | some parts =>
      match translateParts backend parts with
      | .error e => some (.error e)
      | .ok translatedParts => some (.ok (stringsJoin " ".toList translatedParts))

/-- `translateConcurrent`; a failed item leaves its position as it is. -/
def translateConcurrent (backend : Str → Except String Str) :
    List indexedText → List Str → Option (List Str)
  | [], result => some result
  | item :: rest, result =>
    match translateLongText backend item.text with
    | none => none
    | some (.error _) => translateConcurrent backend rest result
    | some (.ok translated) =>
      translateConcurrent backend rest (result.set item.index (TrimSpace translated))

/-- The lower-case hexadecimal digit of a value below 16. -/
def hexDigit (n : Nat) : Char :=
  "0123456789abcdef".toList.getD n '0'

/-- `hex.EncodeToString` on a list of bytes. -/
def hexEncode : List Nat → Str
  | [] => []
  | b :: bs => hexDigit (b / 16 % 16) :: hexDigit (b % 16) :: hexEncode bs

/-- The eight bytes that `rand.Read` leaves in `tokenBytes`, as a function of
the entropy consumed by the call. -/
def randRead (entropy : Nat) : List Nat :=
  (List.range 8).map fun i => entropy / 256 ^ i % 256

/-- The separator token of one `tryBatchTranslate` call. -/
def sepToken (entropy : Nat) : Str :=
  "RANIMESEP".toList ++ hexEncode (randRead entropy) ++ "RANIMESEP".toList

/-- The `Store results` loop of `tryBatchTranslate`; `parts` has one entry for
each item of the chunk. -/
def storeParts : List indexedText → List Str → List Str → List Str
  | item :: chunk, part :: parts, result =>
    storeParts chunk parts
      (result.set item.index (TrimSpace (horizontalWhitespaceRe_ReplaceAll part)))
  | _, _, result => result

/-- `tryBatchTranslate`: the result container afterwards and the returned
flag. -/
def tryBatchTranslate (backend : Str → Except String Str) (entropy : Nat)
    (chunk : List indexedText) (result : List Str) : List Str × Bool :=
  let token := sepToken entropy
  let separator := " ".toList ++ token ++ " ".toList
  let combined := stringsJoin separator (chunk.map fun item => item.text)
  match GoogleTranslate backend combined with
  | .error _ => (result, false)
  | .ok translated =>
    let parts := stringsSplit translated token
    if parts.length ≠ chunk.length then (result, false)
    else (storeParts chunk parts result, true)

/-- `processChunk`.  The state is the result container and the number of
tokens drawn so far; `rnd k` is the entropy behind the `k`-th token.  `none`
when the fuel runs out. -/
def processChunk (backend : Str → Except String Str) (rnd : Nat → Nat) :
    Nat → List indexedText → List Str × Nat → Option (List Str × Nat)
  | 0, _, _ => none
  | fuel + 1, chunk, (result, k) =>
    match tryBatchTranslate backend (rnd k) chunk result with
    | (stored, true) => some (stored, k + 1)
    | (_, false) =>
      if chunk.length > 1 then
        let mid := chunk.length / 2
        match processChunk backend rnd fuel (chunk.take mid) (result, k + 1) with
        | none => none
        | some st => processChunk backend rnd fuel (chunk.drop mid) st
      else
        match translateConcurrent backend chunk result with
        | none => none
        | some written => some (written, k + 1)

/-- The `Filter non-empty texts` loop of `BatchTranslate`, from position `i`
on. -/
def collectNonEmpty : Nat → List Str → List indexedText
  | _, [] => []
  | i, t :: ts =>
    if TrimSpace t ≠ [] then ⟨i, t⟩ :: collectNonEmpty (i + 1) ts
    else collectNonEmpty (i + 1) ts

/-- The chunk goroutines of `BatchTranslate`, one after the other. -/
def runChunks (backend : Str → Except String Str) (rnd : Nat → Nat) :
    List (List indexedText) → List Str × Nat → Option (List Str × Nat)
  | [], st => some st
  | chunk :: chunks, st =>
    match processChunk backend rnd (chunk.length + 1) chunk st with
    | none => none
    | some st1 => runChunks backend rnd chunks st1

/-- `BatchTranslate(texts, targetLang, sourceLang)`: `some (.ok result)` is the
Go return `(result, nil)`. -/
def BatchTranslate (backend : Str → Except String Str) (rnd : Nat → Nat)
    (texts : List Str) : Option (Except String (List Str)) :=
  if texts.length = 0 then some (.ok texts)
  else
    let nonEmpty := collectNonEmpty 0 texts
    if nonEmpty.length = 0 then some (.ok texts)
    else
      let chunks := buildChunks nonEmpty
      match runChunks backend rnd chunks (texts, 0) with
      | none => none
      | some st => some (.ok st.1)

/-! ## `ass.go` -/

/-- The class `\s` of Go regular expressions: `[\t\n\f\r ]`. -/
def isReSpace (c : Char) : Bool :=
  c = '\t' || c = '\n' || c.toNat = 0x0C || c = '\r' || c = ' '

/-- The class `\d` of Go regular expressions: `[0-9]`. -/
def isReDigit (c : Char) : Bool :=
  decide ('0'.toNat ≤ c.toNat) && decide (c.toNat ≤ '9'.toNat)

/-- The pattern piece `[^,]*,` at the start of `s`: the field in front of the
next comma and the text behind that comma.  The greedy run stops at the first
comma, and a shorter run would not be followed by a comma, so this is the only
way the piece can match. -/
def reField (s : Str) : Option (Str × Str) :=
  match s.dropWhile fun c => c != ',' with
  | [] => none
  | _ :: rest => some (s.takeWhile fun c => c != ',', rest)

/-- The pattern piece `\d[^,]*,` at the start of `s`. -/
def reDigitField (s : Str) : Option (Str × Str) :=
  match s with
  | [] => none
  | c :: _ => if isReDigit c then reField s else none

/-- `assDialogueRe.FindStringSubmatch(s)` for the pattern
`^(Dialogue:\s*\d+,\d[^,]*,\d[^,]*,)[^,]*,[^,]*,[^,]*,[^,]*,[^,]*,(.*)$`:
the two groups of the match, or `none`.  Every repetition of the pattern is
followed by a character outside its class, so the pattern matches in at most
one way and the pieces are read off from left to right: the literal
`Dialogue:`, the run `\s*`, the run `\d+`, a comma, two fields that begin with
a digit, five further fields, and `.*` up to the end, which matches when no
line feed is left. -/
def assDialogueRe (s : Str) : Option (Str × Str) :=
  if "Dialogue:".toList.isPrefixOf s then
    let s1 := s.drop "Dialogue:".toList.length
    let ws := s1.takeWhile isReSpace
    let s2 := s1.dropWhile isReSpace
    let layer := s2.takeWhile isReDigit
    if layer = [] then none
    else
      match s2.dropWhile isReDigit with
      | [] => none
      | c :: s3 =>
        if c != ',' then none
        else
          match reDigitField s3 with
          | none => none
          | some (start, s4) =>
            match reDigitField s4 with
            | none => none
            | some (stop, s5) =>
              match reField s5 with
              | none => none
              | some (_, s6) =>
                match reField s6 with
                | none => none
                | some (_, s7) =>
                  match reField s7 with
                  | none => none
                  | some (_, s8) =>
                    match reField s8 with
                    | none => none
                    | some (_, s9) =>
                      match reField s9 with
                      | none => none
                      | some (_, text) =>
                        if text.contains '\n' then none
                        else
                          some ("Dialogue:".toList ++ ws ++ layer ++ ",".toList ++
                            start ++ ",".toList ++ stop ++ ",".toList, text)
  else none

/-- Removes the matches of `assBraceRe`, the pattern `\{[^}]*\}`: an opening
brace matches together with everything up to the next closing brace, when
there is one.  The flag tells that the scan is inside a match. -/
def braceScan : Bool → Str → Str
  | _, [] => []
  | true, c :: cs => if c = '}' then braceScan false cs else braceScan true cs
  | false, c :: cs =>
    if c = '{' ∧ cs.contains '}' then braceScan true cs else c :: braceScan false cs

/-- `assBraceRe.ReplaceAllString(text, "")`. -/
def assBraceRe_ReplaceAll (text : Str) : Str :=
  braceScan false text

structure assDialogue where
  start : Str
  stop : Str
  text : Str
deriving DecidableEq, Repr

/-- The value of a string of decimal digits, `none` when a character is not a
digit or the string is empty. -/
def digitsValue : Nat → Str → Option Nat
  | _, [] => none
  | acc, [c] => if isReDigit c then some (acc * 10 + (c.toNat - '0'.toNat)) else none
  | acc, c :: d :: cs =>
    if isReDigit c then digitsValue (acc * 10 + (c.toNat - '0'.toNat)) (d :: cs) else none

/-- `strconv.Atoi(s)` on a 64-bit platform: the returned number and whether
the error is nil.  A syntax error returns 0, a range error the nearest
bound. -/
def Atoi (s : Str) : Int × Bool :=
  let neg : Bool := s.head? = some '-'
  let body : Str := if s.head? = some '-' ∨ s.head? = some '+' then s.drop 1 else s
  match digitsValue 0 body with
  | none => (0, false)
  | some un =>
    if ¬ neg ∧ un ≥ 2 ^ 63 then (2 ^ 63 - 1, false)
    else if neg ∧ un > 2 ^ 63 then (-(2 ^ 63), false)
    else (if neg then -(un : Int) else (un : Int), true)

/-- The value a Go `int` holds after an arithmetic result `x`: `x` modulo
`2^64`, read as a signed number. -/
def wrapInt (x : Int) : Int :=
  (x + 2 ^ 63) % 2 ^ 64 - 2 ^ 63

/-- The verb `%0<width>d` of `fmt.Sprintf`: zero padding to the width, the
sign in front and counted in the width. -/
def fmtZeroPad (width : Nat) (n : Int) : Str :=
  let digits := Nat.toDigits 10 n.natAbs
  if n < 0 then '-' :: (List.replicate (width - 1 - digits.length) '0' ++ digits)
  else List.replicate (width - digits.length) '0' ++ digits

/-- `assTimeToVTT`: converts ASS time (H:MM:SS.cc) to VTT time
(HH:MM:SS.mmm). -/
def assTimeToVTT (t : Str) : Str :=
  let parts := stringsSplit t ":".toList
  if parts.length ≠ 3 then t
  else
    let h := Atoi (parts.getD 0 [])
    if ¬ h.2 then t
    else
      let m := Atoi (parts.getD 1 [])
      if ¬ m.2 then t
      else
        let secParts := stringsSplit (parts.getD 2 []) ".".toList
        let sec := Atoi (secParts.getD 0 [])
        if ¬ sec.2 then t
        else
          let cs : Int := if secParts.length > 1 then (Atoi (secParts.getD 1 [])).1 else 0
          let ms := wrapInt (cs * 10)
          fmtZeroPad 2 h.1 ++ ":".toList ++ fmtZeroPad 2 m.1 ++ ":".toList ++
            fmtZeroPad 2 sec.1 ++ ".".toList ++ fmtZeroPad 3 ms

/-- The body of the first loop of `TranslateASSToVTT` for one line: the
dialogue appended for it, if any. -/
def parseDialogueLine (line : Str) : Option assDialogue :=
  match assDialogueRe (TrimSpace line) with
  | none => none
  | some (pfx, text) =>
    let parts := stringsSplit pfx ",".toList
    if parts.length ≥ 3 then
      let start := TrimSpace (parts.getD 1 [])
      let stop := TrimSpace (parts.getD 2 [])
      let cleanText := assBraceRe_ReplaceAll text
      let cleanText := ReplaceAll cleanText "\\N".toList "\n".toList
      let cleanText := ReplaceAll cleanText "\\n".toList "\n".toList
      let cleanText := TrimSpace cleanText
      if cleanText ≠ [] then some ⟨start, stop, cleanText⟩ else none
    else none

/-- The first loop of `TranslateASSToVTT`: the slice `dialogues`. -/
def parseDialogues (content : Str) : List assDialogue :=
  (stringsSplit content "\n".toList).filterMap parseDialogueLine

/-- The four lines appended to `vttLines` for each dialogue, from the dialogue
with loop index `i` on. -/
def vttCueLines (translated : List Str) : Nat → List assDialogue → List Str
  | _, [] => []
  | i, d :: ds =>
    [Nat.toDigits 10 (i + 1),
      assTimeToVTT d.start ++ " --> ".toList ++ assTimeToVTT d.stop,
      translated.getD i [],
      []] ++ vttCueLines translated (i + 1) ds

/-- The slice `vttLines` that `TranslateASSToVTT` joins with line feeds. -/
def assVTTLines (translated : List Str) (dialogues : List assDialogue) : List Str :=
  ["WEBVTT".toList, []] ++ vttCueLines translated 0 dialogues

/-- `TranslateASSToVTT(content, targetLang, sourceLang)`. -/
def TranslateASSToVTT (backend : Str → Except String Str) (rnd : Nat → Nat)
    (content : Str) : Option (Except String Str) :=
  let dialogues := parseDialogues content
  if dialogues.length = 0 then some (.ok "WEBVTT\n\n".toList)
  else
    let texts := dialogues.map fun d => d.text
    match BatchTranslate backend rnd texts with
    | none => none
    | some (.error e) => some (.error e)
    | some (.ok translated) =>
      some (.ok (stringsJoin "\n".toList (assVTTLines translated dialogues)))

/-! ## `informal.go` -/

/-- The map literal `replacements` of `FormalizeToInformal`, in the order of
the source text.  An entry `(w, r)` stands for the key `\bw\b` and the value
`r`; no key holds a character that is special in a regular expression, and no
value holds a `$`. -/
def replacementTable : List (String × String) :=
  [("Anda semua", "kalian"), ("Anda", "kamu"), ("Ia", "dia"), ("Dia", "Dia"), ("Saya", "Aku"),
    ("saya", "aku"), ("Kami", "Kita"), ("kami", "kita"), ("mengatakan", "bilang"),
    ("memberikan", "kasih"), ("membuat", "bikin"), ("memakan", "makan"), ("meminum", "minum"),
    ("mengambil", "ambil"), ("melihat", "lihat"), ("mendengar", "denger"),
    ("mendengarkan", "dengerin"), ("membawa", "bawa"), ("menggunakan", "pake"),
    ("melakukan", "lakuin"), ("mendapatkan", "dapet"), ("menemukan", "nemuin"),
    ("mencari", "cari"), ("menunggu", "tunggu"), ("membantu", "bantu"), ("membeli", "beli"),
    ("menjual", "jual"), ("mengerti", "ngerti"), ("mengetahui", "tau"), ("memahami", "paham"),
    ("menjadi", "jadi"), ("memiliki", "punya"), ("meninggalkan", "tinggalin"),
    ("mengikuti", "ikutin"), ("menunjukkan", "tunjukin"), ("menceritakan", "ceritain"),
    ("menjelaskan", "jelasin"), ("meminta", "minta"), ("menawarkan", "nawarin"),
    ("mengirim", "kirim"), ("menghubungi", "hubungin"), ("memutuskan", "mutusin"),
    ("memperbaiki", "benerin"), ("memulai", "mulai"), ("melanjutkan", "lanjut"),
    ("menyelesaikan", "selesain"), ("menyiapkan", "siapin"), ("menyuruh", "nyuruh"),
    ("menyampaikan", "nyampein"), ("menanyakan", "nanyain"), ("tidak ada", "nggak ada"),
    ("Tidak ada", "Nggak ada"), ("apakah", ""), ("tetapi", "tapi"), ("sedang", "lagi"),
    ("akan", "mau"), ("telah", "udah"), ("sudah", "udah"), ("belum", "belom"),
    ("tidak", "nggak"), ("Tidak", "Nggak"), ("kemudian", "terus"), ("seperti", "kayak"),
    ("bagaimana", "gimana"), ("mengapa", "kenapa"), ("di mana", "dimana"), ("hanya", "cuma"),
    ("karena", "soalnya"), ("namun", "tapi"), ("agar", "biar"), ("untuk", "buat"),
    ("kepada", "ke"), ("segera", "cepet"), ("selalu", "terus"), ("terlalu", "kelewat"),
    ("benar", "bener"), ("benarkah", "beneran?"), ("terima kasih", "makasih"),
    ("Terima kasih", "Makasih"), ("permisi", "eh"), ("tersebut", "itu"), ("berkata", "bilang"),
    ("berbicara", "ngomong"), ("berjalan", "jalan"), ("berlari", "lari"), ("berusaha", "usaha"),
    ("berpikir", "mikir"), ("bertemu", "ketemu"), ("berhenti", "berhenti"),
    ("berangkat", "pergi"), ("selanjutnya", "abis ini"), ("sebelumnya", "tadi"),
    ("sebetulnya", "sebenernya"), ("sebenarnya", "sebenernya"), ("barangkali", "mungkin"),
    ("seharusnya", "harusnya"), ("sebaiknya", "mending"), ("silakan", "coba"),
    ("dipersilakan", "silakan"), ("dimohon", "tolong"), ("harap", "tolong"),
    ("apabila", "kalau"), ("jika", "kalau"), ("dikarenakan", "soalnya"), ("dapat", "bisa"),
    ("tidak dapat", "nggak bisa"), ("aku tidak tahu", "aku nggak tau"),
    ("saya tidak tahu", "aku nggak tau"), ("aku tidak mengerti", "aku nggak ngerti"),
    ("saya tidak mengerti", "aku nggak ngerti"), ("tidak mungkin", "nggak mungkin"),
    ("ini tidak mungkin", "ini nggak mungkin"), ("tidak apa-apa", "nggak apa-apa"),
    ("tidak masalah", "nggak masalah"), ("tidak peduli", "nggak peduli"),
    ("tidak usah", "nggak usah"), ("tidak perlu", "nggak perlu")]

/-- The entries of the map as code-point lists. -/
def replacements : List (Str × Str) :=
  replacementTable.map fun p => (p.1.toList, p.2.toList)

/-- The class `\w` of Go regular expressions: `[0-9A-Za-z_]`. -/
def isWordChar (c : Char) : Bool :=
  isReDigit c || (decide ('a'.toNat ≤ c.toNat) && decide (c.toNat ≤ 'z'.toNat)) ||
    (decide ('A'.toNat ≤ c.toNat) && decide (c.toNat ≤ 'Z'.toNat)) || c = '_'

/-- Whether the pattern `\bw\b` matches at the start of `s`, where `prevWord`
tells whether the character in front of `s` is a word character: `w` is a
prefix of `s`, and at both ends of it a word character meets a character that
is none (or the edge of the text). -/
def wordMatchAt (w : Str) (prevWord : Bool) (s : Str) : Bool :=
  w.isPrefixOf s &&
    (prevWord != (w.head?.map isWordChar).getD false) &&
    ((w.getLast?.map isWordChar).getD false != (((s.drop w.length).head?).map isWordChar).getD false)

/-- The scan of `ReplaceAllString` for the pattern `\bw\b`: every leftmost
non-overlapping match is replaced by `r`.  The number counts the characters of
a match that are still to be skipped. -/
def wordReplaceScan (w r : Str) : Bool → Nat → Str → Str
  | _, _, [] => []
  | _, skip + 1, c :: cs => wordReplaceScan w r (isWordChar c) skip cs
  | prevWord, 0, c :: cs =>
    if wordMatchAt w prevWord (c :: cs) then
      r ++ wordReplaceScan w r (isWordChar c) (w.length - 1) cs
    else c :: wordReplaceScan w r (isWordChar c) 0 cs

/-- `regexp.MustCompile(formal).ReplaceAllString(result, informal)` for the key
`\bw\b` with a non-empty `w`. -/
def wordReplaceAll (w r : Str) (s : Str) : Str :=
  wordReplaceScan w r false 0 s

/-- The `for formal, informal := range replacements` loop, with the entries
taken in the order `order`. -/
def applyRules : List (Str × Str) → Str → Str
  | [], result => result
  | rule :: rest, result => applyRules rest (wordReplaceAll rule.1 rule.2 result)

/-- `FormalizeToInformal(text)` when the `range` over the map visits the
entries in the order `order`.  Go leaves the iteration order of a map
unspecified and varies it from run to run, so every permutation of
`replacements` is an order the function may take. -/
def FormalizeToInformal (order : List (Str × Str)) (text : Str) : Str :=
  if text = [] then text else applyRules order text

/-- Whether the pattern `\bw\b` matches somewhere in `s`. -/
def wordMatchScan (w : Str) : Bool → Str → Bool
  | _, [] => false
  | prevWord, c :: cs => wordMatchAt w prevWord (c :: cs) || wordMatchScan w (isWordChar c) cs

/-- Whether the formal pattern `\bw\b` matches the text `s`. -/
def wordMatches (w s : Str) : Bool :=
  wordMatchScan w false s

/-! ## `sanitize.go`, `informal.go` (`SingleLine`) and `vtt.go` -/

/-- The scan of `ReplaceAllString` for a pattern whose match at a position
depends only on the text from that position on: `matchAt s` is the length of
the match at the start of `s`, if there is one.  Every leftmost
non-overlapping match is replaced by `rep`.  The number counts the characters
of a match that are still to be skipped. -/
def regexReplaceScan (matchAt : Str → Option Nat) (rep : Str) : Nat → Str → Str
  | _, [] => []
  | skip + 1, _ :: cs => regexReplaceScan matchAt rep skip cs
  | 0, c :: cs =>
    match matchAt (c :: cs) with
    | some (n + 1) => rep ++ regexReplaceScan matchAt rep n cs
    | _ => c :: regexReplaceScan matchAt rep 0 cs

/-- Whether `c` is the lower-case ASCII letter `lower` or its upper-case
form, as the flag `(?i)` lets a letter of `font` match. -/
def eqFold (c lower : Char) : Bool :=
  c = lower || c.toNat + 32 = lower.toNat

/-- The pattern piece `font\b` under `(?i)` at the start of `s`: the text
behind the word, which must not go on with a word character. -/
def fontNameRest (s : Str) : Option Str :=
  match s with
  | c1 :: c2 :: c3 :: c4 :: rest =>
    if eqFold c1 'f' && eqFold c2 'o' && eqFold c3 'n' && eqFold c4 't' &&
        !(rest.head?.map isWordChar).getD false then some rest
    else none
  | _ => none

/-- The pattern piece `[^>]*>` at the start of `s`: the number of characters
up to and including the first `>`. -/
def throughAngle (s : Str) : Option Nat :=
  if s.contains '>' then some ((s.takeWhile fun c => c != '>').length + 1) else none

/-- The length of the match of `fontTagRe`, the pattern
`(?i)</?font\b[^>]*>`, at the start of `s`. -/
def fontTagAt (s : Str) : Option Nat :=
  match s with
  | [] => none
  | c :: r =>
    if c = '<' then
      let slash : Bool := r.head? = some '/'
      match fontNameRest (if slash then r.drop 1 else r) with
      | none => none
      | some rest =>
        match throughAngle rest with
        | none => none
        | some n => some (1 + (if slash then 1 else 0) + 4 + n)
    else none

/-- The pattern piece `</font>` under `(?i)` at the start of `s`. -/
def closeFontAt (s : Str) : Bool :=
  match s with
  | a :: b :: c1 :: c2 :: c3 :: c4 :: e :: _ =>
    a = '<' && b = '/' && eqFold c1 'f' && eqFold c2 'o' && eqFold c3 'n' && eqFold c4 't' &&
      e = '>'
  | _ => false

/-- The length of the match of `emptyFontTagRe`, the pattern
`(?i)<font\b[^>]*>\s*</font>`, at the start of `s`. -/
def emptyFontTagAt (s : Str) : Option Nat :=
  match s with
  | [] => none
  | c :: r =>
    if c = '<' then
      match fontNameRest r with
      | none => none
      | some rest =>
        match throughAngle rest with
        | none => none
        | some n =>
          let after := rest.drop n
          if closeFontAt (after.dropWhile isReSpace) then
            some (1 + 4 + n + (after.takeWhile isReSpace).length + 7)
          else none
    else none

/-- `RemoveFontTags`: removes all `<font ...>` and `</font>` tags from
subtitle content. -/
def RemoveFontTags (content : Str) : Str :=
  let cleaned := regexReplaceScan emptyFontTagAt [] 0 content
  regexReplaceScan fontTagAt [] 0 cleaned

/-- The length of the match of the pattern `\s*\n+\s*` at the start of `s`:
the whole run of `\s` characters, when it holds a line feed. -/
def lineBreakRunAt (s : Str) : Option Nat :=
  if (s.takeWhile isReSpace).contains '\n' then some (s.takeWhile isReSpace).length else none

/-- `SingleLine`: ensures output is single line (for VTT). -/
def SingleLine (s : Str) : Str :=
  let s := regexReplaceScan lineBreakRunAt " ".toList 0 s
  let s := horizontalWhitespaceRe_ReplaceAll s
  TrimSpace s

/-- The length of the match of `vttTagRe`, the pattern `<[^>]+>`, at the
start of `s`. -/
def vttTagAt (s : Str) : Option Nat :=
  match s with
  | [] => none
  | c :: r =>
    if c = '<' ∧ (r.takeWhile fun x => x != '>') ≠ [] ∧
        (r.dropWhile fun x => x != '>') ≠ [] then
      some ((r.takeWhile fun x => x != '>').length + 2)
    else none

/-- `vttTagRe.ReplaceAllString(line, "")`. -/
def vttTagRe_ReplaceAll (line : Str) : Str :=
  regexReplaceScan vttTagAt [] 0 line

/-- Where a reader of consecutive tags `<[^>]+>` stands: between two tags,
behind a `<`, or inside a tag with at least one character read. -/
inductive TagState where
  | between
  | opened
  | inside
deriving DecidableEq, Repr

/-- Reads tags `<[^>]+>` one after the other from the start of a text; `pos`
counts the characters read and `done` is the position behind the last complete
tag, which is returned when the text cannot go on as a tag. -/
def tagChainScan : TagState → Nat → Nat → Str → Nat
  | _, _, done, [] => done
  | .between, pos, done, c :: cs =>
    if c = '<' then tagChainScan .opened (pos + 1) done cs else done
  | .opened, pos, done, c :: cs =>
    if c = '>' then done else tagChainScan .inside (pos + 1) done cs
  | .inside, pos, done, c :: cs =>
    if c = '>' then tagChainScan .between (pos + 1) (pos + 1) cs
    else tagChainScan .inside (pos + 1) done cs

/-- `leadingTagsRe.FindString(s)` for the pattern `^(?:<[^>]+>)+`: the longest
run of tags at the start, empty when there is none. -/
def leadingTagsRe_FindString (s : Str) : Str :=
  s.take (tagChainScan .between 0 0 s)

/-- `trailingTagsRe.FindString(s)` for the pattern `(?:<[^>]+>)+$`: the first
suffix, from the left, that consists of tags only; empty when there is
none. -/
def trailingTagsRe_FindString : Str → Str
  | [] => []
  | c :: cs =>
    if tagChainScan .between 0 0 (c :: cs) = (c :: cs).length then c :: cs
    else trailingTagsRe_FindString cs

/-- The character classes of the timestamp patterns: `\d`, `:`, `[.,]` and
`\.`. -/
inductive TimeClass where
  | digit
  | colon
  | mark
  | dot
deriving DecidableEq, Repr

def TimeClass.accepts : TimeClass → Char → Bool
  | .digit, c => isReDigit c
  | .colon, c => c = ':'
  | .mark, c => c = '.' || c = ','
  | .dot, c => c = '.'

/-- Matches a sequence of character classes at the start of `s`: the matched
text and the rest. -/
def matchShape : List TimeClass → Str → Option (Str × Str)
  | [], s => some ([], s)
  | _ :: _, [] => none
  | k :: ks, c :: cs =>
    if k.accepts c then
      match matchShape ks cs with
      | none => none
      | some p => some (c :: p.1, p.2)
    else none

/-- The shape `\d{2}:\d{2}:\d{2}[.,]\d{3}`. -/
def shapeHH : List TimeClass :=
  [.digit, .digit, .colon, .digit, .digit, .colon, .digit, .digit, .mark, .digit, .digit, .digit]

/-- The shape `\d:\d{2}:\d{2}[.,]\d{3}`. -/
def shapeH : List TimeClass :=
  [.digit, .colon, .digit, .digit, .colon, .digit, .digit, .mark, .digit, .digit, .digit]

/-- The shape `\d{2}:\d{2}[.,]\d{3}`. -/
def shapeMS : List TimeClass :=
  [.digit, .digit, .colon, .digit, .digit, .mark, .digit, .digit, .digit]

/-- The pattern piece `(?:\d{1,2}:)?\d{2}:\d{2}[.,]\d{3}` at the start of `s`:
with a two-digit hour, with a one-digit hour, or without hour.  The three
shapes exclude one another, so the order of the attempts does not matter. -/
def vttTimeAt (s : Str) : Option (Str × Str) :=
  match matchShape shapeHH s with
  | some r => some r
  | none =>
    match matchShape shapeH s with
    | some r => some r
    | none => matchShape shapeMS s

/-- `vttTimestampRe.FindStringSubmatch(s)`: the groups `s`, `e` and `rest` of
the pattern
`^(?P<s>(?:\d{1,2}:)?\d{2}:\d{2}[.,]\d{3})\s*-->\s*(?P<e>(?:\d{1,2}:)?\d{2}:\d{2}[.,]\d{3})(?P<rest>.*)$`,
or `none`. -/
def vttTimestampRe (s : Str) : Option (Str × Str × Str) :=
  match vttTimeAt s with
  | none => none
  | some (start, r1) =>
    let r2 := r1.dropWhile isReSpace
    if "-->".toList.isPrefixOf r2 then
      match vttTimeAt ((r2.drop 3).dropWhile isReSpace) with
      | none => none
      | some (stop, rest) => if rest.contains '\n' then none else some (start, stop, rest)
    else none

/-- Whether the whole of `t` has the given shape, as for a pattern between `^`
and `$`. -/
def fullShape (shape : List TimeClass) (t : Str) : Bool :=
  match matchShape shape t with
  | some (_, []) => true
  | _ => false

/-- `toVTTTime`. -/
def toVTTTime (t : Str) : Str :=
  let t := TrimSpace (ReplaceAll t ",".toList ".".toList)
  let t :=
    if fullShape [.digit, .digit, .colon, .digit, .digit, .dot, .digit, .digit, .digit] t then
      "00:".toList ++ t
    else t
  let t :=
    if fullShape
        [.digit, .colon, .digit, .digit, .colon, .digit, .digit, .dot, .digit, .digit, .digit]
        t then
      "0".toList ++ t
    else t
  t

/-- `normalizeTimestampLine`. -/
def normalizeTimestampLine (line : Str) : Str :=
  match vttTimestampRe (TrimSpace line) with
  | none => line
  | some (s, e, rest) => toVTTTime s ++ " --> ".toList ++ toVTTTime e ++ rest

/-- `isDigitOnly`. -/
def isDigitOnly (s : Str) : Bool :=
  !s.isEmpty && s.all isReDigit

/-- The body of the first loop of `TranslateVTT` for one line: the line as it
is stored back into `lines`, and the clean text appended to `textValues` when
the line is submitted for translation. -/
def vttScanLine (line : Str) : Str × Option Str :=
  let line := RemoveFontTags line
  if (vttTimestampRe (TrimSpace line)).isSome then (normalizeTimestampLine line, none)
  else if "WEBVTT".toList.isPrefixOf line || "NOTE".toList.isPrefixOf line ||
      "STYLE".toList.isPrefixOf line || TrimSpace line = [] ||
      isDigitOnly (TrimSpace line) then (line, none)
  else
    let clean := TrimSpace (vttTagRe_ReplaceAll line)
    if clean ≠ [] then (line, some clean) else (line, none)

/-- The slices `textIndices` and `textValues` of `TranslateVTT`, as pairs,
collected from the scanned lines from line `i` on. -/
def vttTextLines : Nat → List (Str × Option Str) → List (Nat × Str)
  | _, [] => []
  | i, (_, none) :: rest => vttTextLines (i + 1) rest
  | i, (_, some clean) :: rest => (i, clean) :: vttTextLines (i + 1) rest

/-- The body of the second loop of `TranslateVTT`: the line written for the
stored line `original` and its translation `trans`. -/
def vttRebuildLine (original trans : Str) : Str :=
  let leadingMatch := leadingTagsRe_FindString original
  let trailingMatch := trailingTagsRe_FindString original
  let leadingTags := if leadingMatch ≠ [] then RemoveFontTags leadingMatch else []
  let trailingTags := if trailingMatch ≠ [] then RemoveFontTags trailingMatch else []
  let transFixed := TrimSpace (RemoveFontTags (SingleLine trans))
  let transFixed :=
    if transFixed = [] then TrimSpace (vttTagRe_ReplaceAll original) else transFixed
  RemoveFontTags (leadingTags ++ transFixed ++ trailingTags)

/-- The second loop of `TranslateVTT`, `for idx, trans := range translated`,
over the remaining entries of `textIndices` and `translated`. -/
def vttWriteBack : List Nat → List Str → List Str → List Str
  | lineIdx :: textIndices, tr :: translated, lines =>
    vttWriteBack textIndices translated
      (lines.set lineIdx (vttRebuildLine (lines.getD lineIdx []) tr))
  | _, _, lines => lines

/-- The slice `lines` after the first loop of `TranslateVTT`. -/
def vttScannedLines (content : Str) : List (Str × Option Str) :=
  (stringsSplit content "\n".toList).map vttScanLine

/-- `TranslateVTT(content, targetLang, sourceLang)`. -/
def TranslateVTT (backend : Str → Except String Str) (rnd : Nat → Nat)
    (content : Str) : Option (Except String Str) :=
  let scanned := vttScannedLines content
  let lines := scanned.map fun p => p.1
  let texts := vttTextLines 0 scanned
  if texts.length = 0 then some (.ok (stringsJoin "\n".toList lines))
  else
    match BatchTranslate backend rnd (texts.map fun p => p.2) with
    | none => none
    | some (.error e) => some (.error e)
    | some (.ok translated) =>
      some (.ok (stringsJoin "\n".toList
        (vttWriteBack (texts.map fun p => p.1) translated lines)))

/-- What the size claim says of one chunk. -/
def chunkWithinBudget (chunk : List indexedText) : Prop :=
  chunk ≠ [] ∧ (1 < chunk.length → chunkChars chunk ≤ maxChunkChars)

/-- A result of `GoogleTranslate` is an error. -/
def rejected (r : Except String Str) : Bool :=
  match r with
  | .error _ => true
  | .ok _ => false

/-- The batch attempt on `chunk` with the token of `entropy` obtains no
translation: the request for the joined texts is rejected, or the response
splits on the token into a number of parts other than the number of items. -/
def batchAttemptFails (backend : Str → Except String Str) (entropy : Nat)
    (chunk : List indexedText) : Bool :=
  match GoogleTranslate backend
      (stringsJoin (" ".toList ++ sepToken entropy ++ " ".toList)
        (chunk.map fun item => item.text)) with
  | .error _ => true
  | .ok translated =>
    decide ((stringsSplit translated (sepToken entropy)).length ≠ chunk.length)

/-- The individual dispatch of `text` obtains no translation: the request for
the text is rejected or, for a text above the single-text ceiling, the request
for one of its length-split segments is rejected. -/
def dispatchFails (backend : Str → Except String Str) (text : Str) : Bool :=
  if text.length ≤ maxSingleTextChars then rejected (GoogleTranslate backend text)
  else
    match splitTextByLength text maxSingleTextChars with
    | none => false
    | some parts => parts.any fun part => rejected (GoogleTranslate backend part)

/-- No item of the chunk has the position `i`. -/
def holdsNo (chunk : List indexedText) (i : Nat) : Bool :=
  chunk.all fun item => item.index != i

/-- In the run of `processChunk` on `chunk` from the state `(result, k)`, the
translation of position `i` is obtained at no fallback level: the batch attempt
on the chunk fails; for a chunk of more than one item the same is true of the
run on each half that holds the position, the second half starting from the
state that the first half leaves; and for a chunk of at most one item the
individual dispatch of an item at the position fails. -/
def notObtained (backend : Str → Except String Str) (rnd : Nat → Nat) :
    Nat → List indexedText → List Str × Nat → Nat → Bool
  | 0, _, _, _ => false
  | fuel + 1, chunk, (result, k), i =>
    batchAttemptFails backend (rnd k) chunk &&
      (if chunk.length > 1 then
        let mid := chunk.length / 2
        match processChunk backend rnd fuel (chunk.take mid) (result, k + 1) with
        | none => false
        | some st =>
          (holdsNo (chunk.take mid) i ||
              notObtained backend rnd fuel (chunk.take mid) (result, k + 1) i) &&
            (holdsNo (chunk.drop mid) i || notObtained backend rnd fuel (chunk.drop mid) st i)
      else chunk.all fun item => item.index != i || dispatchFails backend item.text)

/-- In the run of the chunks one after the other from the state `st`, the
translation of position `i` is obtained at no fallback level of any chunk that
holds the position. -/
def notObtainedIn (backend : Str → Except String Str) (rnd : Nat → Nat) :
    List (List indexedText) → List Str × Nat → Nat → Bool
  | [], _, _ => true
  | chunk :: chunks, st, i =>
    (holdsNo chunk i || notObtained backend rnd (chunk.length + 1) chunk st i) &&
      match processChunk backend rnd (chunk.length + 1) chunk st with
      | none => false
      | some st1 => notObtainedIn backend rnd chunks st1 i

/-- In the run of `BatchTranslate` on `texts`, the translation of position `i`
could not be obtained at any fallback level: every batch attempt made on a
chunk holding the position failed, down to the chunk of the item alone, and so
did the individual dispatch of the item. -/
def translationMissed (backend : Str → Except String Str) (rnd : Nat → Nat)
    (texts : List Str) (i : Nat) : Bool :=
  notObtainedIn backend rnd (buildChunks (collectNonEmpty 0 texts)) (texts, 0) i

/-- What a dispatch that translates every item of `chunk` by `val` does to the
result container: the length stays, positions outside the chunk stay, and the
position of each item holds `val` of its text. -/
def Writes (val : Str → Str) (chunk : List indexedText) (r r1 : List Str) : Prop :=
  r1.length = r.length ∧
  (∀ i, (∀ item ∈ chunk, item.index ≠ i) → r1[i]? = r[i]?) ∧
  (∀ item ∈ chunk, r1[item.index]? = some (val item.text))

/-! ## The specification's words for the dialogue-table output -/

/-- The decimal digits. -/
def decimalDigits : List Char := "0123456789".toList

/-- The canonical timestamp form `HH:MM:SS.mmm`: two digits, two digits, two
digits, a dot, three digits. -/
def isCanonicalTime (t : Str) : Bool :=
  match t with
  | [h1, h2, c1, m1, m2, c2, s1, s2, dot, f1, f2, f3] =>
    isReDigit h1 && isReDigit h2 && c1 = ':' && isReDigit m1 && isReDigit m2 && c2 = ':' &&
      isReDigit s1 && isReDigit s2 && dot = '.' && isReDigit f1 && isReDigit f2 && isReDigit f3
  | _ => false

/-- The dialogue-table timestamp form `H:MM:SS.cc`: hours of one or two
digits, two-digit minutes and seconds, two-digit centiseconds. -/
def isAssTime (t : Str) : Bool :=
  match t with
  | [h, c1, m1, m2, c2, s1, s2, dot, f1, f2] =>
    isReDigit h && c1 = ':' && isReDigit m1 && isReDigit m2 && c2 = ':' &&
      isReDigit s1 && isReDigit s2 && dot = '.' && isReDigit f1 && isReDigit f2
  | [h1, h2, c1, m1, m2, c2, s1, s2, dot, f1, f2] =>
    isReDigit h1 && isReDigit h2 && c1 = ':' && isReDigit m1 && isReDigit m2 && c2 = ':' &&
      isReDigit s1 && isReDigit s2 && dot = '.' && isReDigit f1 && isReDigit f2
  | _ => false

/-- The output blocks as the specification words them: for the cue with loop
index `i` the index line, the timing line, the text and a blank separator
line, that is `"<i+1>\n<start> --> <end>\n<text>\n\n"`. -/
def specCueBlocks (translated : List Str) : Nat → List assDialogue → Str
  | _, [] => []
  | i, d :: ds =>
    Nat.toDigits 10 (i + 1) ++ "\n".toList ++
      (assTimeToVTT d.start ++ " --> ".toList ++ assTimeToVTT d.stop) ++ "\n".toList ++
      translated.getD i [] ++ "\n\n".toList ++ specCueBlocks translated (i + 1) ds

/-- The clean-up of the text field in `TranslateASSToVTT`: override codes
removed, the escapes `\N` and `\n` turned into line feeds, the result
trimmed. -/
def cleanAssText (text : Str) : Str :=
  TrimSpace (ReplaceAll (ReplaceAll (assBraceRe_ReplaceAll text) "\\N".toList "\n".toList)
    "\\n".toList "\n".toList)

/-- What the greedy rule says of two consecutive chunks `c` and `d`: the flush
between them was forced, by the item ceiling or by the character budget that
the first item of `d` would have exceeded. -/
def boundaryForced (c d : List indexedText) : Prop :=
  c.length = chunkSize ∨
    ∃ item, d.head? = some item ∧ maxChunkChars < chunkChars c + item.text.length

/-- A numeric component in the specification's sense: decimal digits, at least
one, possibly after one sign. -/
def isNumeric (s : Str) : Bool :=
  let body : Str := if s.head? = some '-' ∨ s.head? = some '+' then s.drop 1 else s
  !body.isEmpty && body.all isReDigit

/-- The cut `splitAt` that one pass of the loop of `splitTextByLength` chooses
when it starts at `start` and the window ends before the end of the text. -/
def splitPoint (runes : Str) (maxLen start : Nat) : Nat :=
  (scanBack runes (start + maxLen / 2) (start + maxLen)).getD (start + maxLen)

/-- The slices `runes[start:splitAt]` that the loop of `splitTextByLength`
takes, as pairs `(start, splitAt)`; the last slice ends at the end of the
text.  Same control flow as `splitLoop`. -/
def splitTrace (runes : Str) (maxLen : Nat) : Nat → Nat → Option (List (Nat × Nat))
  | 0, _ => none
  | fuel + 1, start =>
    if start < runes.length then
      if start + maxLen ≥ runes.length then some [(start, runes.length)]
      else
        match splitTrace runes maxLen fuel (splitPoint runes maxLen start) with
        | none => none
        | some rest => some ((start, splitPoint runes maxLen start) :: rest)
    else some []

/-- The trimmed text of the slice `runes[a:b]`. -/
def slicePart (runes : Str) (p : Nat × Nat) : Str :=
  TrimSpace ((runes.drop p.1).take (p.2 - p.1))

/-- There is a white-space character at position `j` of the text. -/
def spaceAt (runes : Str) (j : Nat) : Prop :=
  ∃ c, runes[j]? = some c ∧ isSpace c = true

/-- Whether the text holds font markup: a match of `fontTagRe` starts at some
position of it. -/
def hasFontTag : Str → Bool
  | [] => false
  | c :: cs => (fontTagAt (c :: cs)).isSome || hasFontTag cs

/-- The timestamp normalisation as the specification words it: a comma becomes a
dot, a time of two colon-separated fields gets `00:` in front, and a time of
three fields whose hour is a single character gets `0`. -/
def canonTime (s : Str) : Str :=
  let t := s.map fun c => if c = ',' then '.' else c
  if t.count ':' = 1 then "00:".toList ++ t
  else if t.count ':' = 2 ∧ (t.takeWhile fun c => c != ':').length = 1 then "0".toList ++ t
  else t

/-- The text made of segments and the gaps around them: a gap in front of
every segment and one behind the last, `g₀ ++ s₁ ++ g₁ ++ … ++ sₙ ++ gₙ`. -/
def weave : List Str → List Str → Str
  | g :: gaps, s :: segs => g ++ s ++ weave gaps segs
  | g :: _, [] => g
  | [], _ => []

/-- A text with every white-space character deleted. -/
def deleteSpace (s : Str) : Str :=
  s.filter fun c => !isSpace c

/-! # Properties -/

/-! ## Chunk construction: size invariant -/

theorem chunkChars_append (a b : List indexedText) :
    chunkChars (a ++ b) = chunkChars a + chunkChars b := by
  simp [chunkChars]

theorem chunkChars_singleton (item : indexedText) :
    chunkChars [item] = item.text.length := by
  simp [chunkChars]

theorem buildChunksLoop_withinBudget (items : List indexedText) :
    ∀ (chunks : List (List indexedText)) (current : List indexedText) (currentChars : Nat),
      (∀ c ∈ chunks, chunkWithinBudget c) →
      currentChars = chunkChars current →
      (1 < current.length → currentChars ≤ maxChunkChars) →
      ∀ c ∈ buildChunksLoop items chunks current currentChars, chunkWithinBudget c := by
  induction items with
  | nil =>
    intro chunks current currentChars hch hsum hcur c hc
    simp only [buildChunksLoop] at hc
    split at hc
    · rename_i hpos
      rcases List.mem_append.mp hc with h | h
      · exact hch c h
      · have hcc : c = current := by simpa using h
        subst hcc
        refine ⟨?_, ?_⟩
        · intro h0
          simp [h0] at hpos
        · intro h1
          rw [← hsum]
          exact hcur h1
    · exact hch c hc
  | cons item items ih =>
    intro chunks current currentChars hch hsum hcur c hc
    simp only [buildChunksLoop] at hc
    by_cases hflush :
        (decide (current.length > 0) &&
          (decide (current.length ≥ chunkSize) ||
            decide (currentChars + item.text.length > maxChunkChars))) = true
    · rw [if_pos hflush] at hc
      refine ih _ _ _ ?_ ?_ ?_ c hc
      · intro c' hc'
        rcases List.mem_append.mp hc' with h | h
        · exact hch c' h
        · have hcc : c' = current := by simpa using h
          subst hcc
          have hpos : 0 < c'.length := by
            simp only [Bool.and_eq_true, decide_eq_true_eq] at hflush
            exact hflush.1
          refine ⟨?_, ?_⟩
          · intro h0
            simp [h0] at hpos
          · intro h1
            rw [← hsum]
            exact hcur h1
      · simp [chunkChars]
      · intro h1
        simp at h1
    · rw [if_neg hflush] at hc
      refine ih _ _ _ hch ?_ ?_ c hc
      · simp only [chunkChars_append, chunkChars_singleton, hsum]
      · intro h1
        simp only [List.length_append, List.length_singleton] at h1
        have hpos : 0 < current.length := by omega
        simp only [Bool.and_eq_true, Bool.or_eq_true, decide_eq_true_eq, not_and, not_or,
          not_lt] at hflush
        have := (hflush hpos).2
        simpa using this

/-- **C5.** For every list of items, `buildChunks` produces no empty chunk, and
every chunk holding more than one item has a total code-point count of at most
1800; so a chunk whose count exceeds 1800 consists of a single item. -/
theorem buildChunks_nonempty_within_budget (items : List indexedText) :
    ∀ chunk ∈ buildChunks items,
      chunk ≠ [] ∧
      (1 < chunk.length → chunkChars chunk ≤ 1800) ∧
      (1800 < chunkChars chunk → chunk.length = 1) := by
  intro chunk hc
  have h := buildChunksLoop_withinBudget items [] [] 0
    (by intro c hc'; simp at hc') (by simp [chunkChars]) (by intro h1; simp at h1) chunk hc
  obtain ⟨hne, hb⟩ := h
  refine ⟨hne, hb, ?_⟩
  intro hbig
  have hlen : 0 < chunk.length := List.length_pos.mpr hne
  by_contra hne1
  have h1 : 1 < chunk.length := by omega
  have := hb h1
  simp only [maxChunkChars] at this
  omega

set_option maxRecDepth 20000 in
/-- The size invariant at a concrete input: two items of 1000 code points and
one short item give the chunks `[item 0]` and `[item 1, item 2]`. -/
theorem buildChunks_nonempty_within_budget_witness :
    [⟨1, List.replicate 1000 'b'⟩, ⟨2, "c".toList⟩] ∈
        buildChunks [⟨0, List.replicate 1000 'a'⟩, ⟨1, List.replicate 1000 'b'⟩,
          ⟨2, "c".toList⟩] ∧
      (([⟨1, List.replicate 1000 'b'⟩, ⟨2, "c".toList⟩] : List indexedText) ≠ [] ∧
        (1 < ([⟨1, List.replicate 1000 'b'⟩, ⟨2, "c".toList⟩] : List indexedText).length →
          chunkChars [⟨1, List.replicate 1000 'b'⟩, ⟨2, "c".toList⟩] ≤ 1800) ∧
        (1800 < chunkChars [⟨1, List.replicate 1000 'b'⟩, ⟨2, "c".toList⟩] →
          ([⟨1, List.replicate 1000 'b'⟩, ⟨2, "c".toList⟩] : List indexedText).length = 1)) :=
  have hmem : [⟨1, List.replicate 1000 'b'⟩, ⟨2, "c".toList⟩] ∈
      buildChunks [⟨0, List.replicate 1000 'a'⟩, ⟨1, List.replicate 1000 'b'⟩,
        ⟨2, "c".toList⟩] := by
    have h : buildChunks [⟨0, List.replicate 1000 'a'⟩, ⟨1, List.replicate 1000 'b'⟩,
        ⟨2, "c".toList⟩] =
        [[⟨0, List.replicate 1000 'a'⟩], [⟨1, List.replicate 1000 'b'⟩, ⟨2, "c".toList⟩]] := by
      rfl
    rw [h]
    exact List.mem_cons_of_mem _ (List.mem_singleton_self _)
  ⟨hmem, buildChunks_nonempty_within_budget _ _ hmem⟩

/-! ## White space and length splitting -/


theorem dropWhile_reverse_ne_nil (p : Char → Bool) (d : Str) (c : Char) (hc : c ∈ d) (hp : p c = false) :
    (d.reverse.dropWhile p) ≠ [] := by
  intro h
  rw [List.dropWhile_eq_nil_iff] at h
  have := h c (List.mem_reverse.mpr hc)
  simp [hp] at this

theorem TrimSpace_eq_nil_iff (s : Str) : TrimSpace s = [] ↔ ∀ c ∈ s, isSpace c = true := by
  unfold TrimSpace
  rw [List.reverse_eq_nil_iff]
  constructor
  · intro h
    by_cases hd : s.dropWhile isSpace = []
    · exact List.dropWhile_eq_nil_iff.mp hd
    · exfalso
      obtain ⟨c, d, hcd⟩ := List.exists_cons_of_ne_nil hd
      have hc : isSpace c = false := by
        have := List.head_dropWhile_not isSpace s hd
        simp only [hcd, List.head_cons] at this
        simpa using this
      exact dropWhile_reverse_ne_nil isSpace _ c (by rw [hcd]; simp) hc h
  · intro h
    rw [List.dropWhile_eq_nil_iff.mpr h]
    rfl

theorem scanBack_spec (runes : Str) (lo : Nat) :
    ∀ i j, scanBack runes lo i = some j → lo < j ∧ j ≤ i ∧ isSpace (runes.getD (j - 1) ' ') = true := by
  intro i
  induction i with
  | zero => intro j h; simp [scanBack] at h
  | succ i ih =>
    intro j h
    simp only [scanBack] at h
    split at h
    · rename_i hlo
      split at h
      · rename_i hsp
        have hj : i + 1 = j := by simpa using h
        subst hj
        exact ⟨hlo, le_refl _, by simpa using hsp⟩
      · obtain ⟨h1, h2, h3⟩ := ih j h
        exact ⟨h1, by omega, h3⟩
    · simp at h

theorem splitAt_gt_start (runes : Str) (start maxLen : Nat) (hmax : 1 ≤ maxLen) :
    start < (scanBack runes (start + maxLen / 2) (start + maxLen)).getD (start + maxLen) ∧
    (scanBack runes (start + maxLen / 2) (start + maxLen)).getD (start + maxLen) ≤ start + maxLen := by
  cases h : scanBack runes (start + maxLen / 2) (start + maxLen) with
  | none => simp; omega
  | some j =>
    obtain ⟨h1, h2, _⟩ := scanBack_spec runes _ _ j h
    simp only [Option.getD_some]
    omega

theorem splitLoop_terminates (runes : Str) (maxLen : Nat) (hmax : 1 ≤ maxLen) :
    ∀ fuel start result, start ≤ runes.length → runes.length < fuel + start →
      ∃ parts, splitLoop runes maxLen fuel start result = some parts := by
  intro fuel
  induction fuel with
  | zero =>
    intro start result h1 h2
    omega
  | succ fuel ih =>
    intro start result h1 h2
    simp only [splitLoop]
    split
    · split
      · exact ⟨_, rfl⟩
      · rename_i hlt hstop
        have h3 := splitAt_gt_start runes start maxLen hmax
        apply ih
        · omega
        · omega
    · exact ⟨_, rfl⟩

theorem splitTextByLength_terminates (text : Str) (maxLen : Nat) (hmax : 1 ≤ maxLen) :
    ∃ parts, splitTextByLength text maxLen = some parts := by
  unfold splitTextByLength
  split
  · exact ⟨_, rfl⟩
  · obtain ⟨parts, h⟩ := splitLoop_terminates text maxLen hmax (text.length + 1) 0 []
      (Nat.zero_le _) (by omega)
    rw [h]
    exact ⟨_, rfl⟩

theorem appendPart_nonempty (result : List Str) (part : Str)
    (h : ∀ p ∈ result, p ≠ []) : ∀ p ∈ appendPart result part, p ≠ [] := by
  intro p hp
  unfold appendPart at hp
  split at hp
  · rename_i hne
    rcases List.mem_append.mp hp with h1 | h1
    · exact h p h1
    · have : p = part := by simpa using h1
      rw [this]; exact hne
  · exact h p hp

theorem splitLoop_parts_nonempty (runes : Str) (maxLen : Nat) :
    ∀ fuel start result parts, (∀ p ∈ result, p ≠ []) →
      splitLoop runes maxLen fuel start result = some parts → ∀ p ∈ parts, p ≠ [] := by
  intro fuel
  induction fuel with
  | zero => intro start result parts _ h; simp [splitLoop] at h
  | succ fuel ih =>
    intro start result parts hres h
    simp only [splitLoop] at h
    split at h
    · split at h
      · have : appendPart result (TrimSpace (List.drop start runes)) = parts := by simpa using h
        rw [← this]
        exact appendPart_nonempty _ _ hres
      · exact ih _ _ _ (appendPart_nonempty _ _ hres) h
    · have : result = parts := by simpa using h
      rw [← this]; exact hres

/-- The segments of a text longer than the ceiling: at least one, none empty. -/
theorem splitTextByLength_parts (text : Str) (maxLen : Nat) (parts : List Str)
    (hlong : maxLen < text.length) (h : splitTextByLength text maxLen = some parts) :
    parts ≠ [] ∧ ∀ p ∈ parts, p ≠ [] := by
  unfold splitTextByLength at h
  rw [if_neg (by omega)] at h
  cases hl : splitLoop text maxLen (text.length + 1) 0 [] with
  | none => simp [hl] at h
  | some res =>
    simp only [hl, Option.map_some', Option.some.injEq] at h
    have hres := splitLoop_parts_nonempty text maxLen _ _ _ _ (by simp) hl
    have htext : text ≠ [] := by
      intro h0; simp [h0] at hlong
    split at h
    · rw [← h]
      simp [htext]
    · rename_i hlen
      rw [← h]
      refine ⟨?_, hres⟩
      intro h0
      simp [h0] at hlen

theorem translateLongText_terminates (backend : Str → Except String Str) (text : Str) :
    ∃ r, translateLongText backend text = some r := by
  unfold translateLongText
  split
  · exact ⟨_, rfl⟩
  · obtain ⟨parts, h⟩ := splitTextByLength_terminates text maxSingleTextChars (by decide)
    rw [h]
    simp only
    split <;> exact ⟨_, rfl⟩

/-! ## Dispatch: what is left untouched -/

theorem storeParts_length (chunk : List indexedText) :
    ∀ (parts : List Str) (r : List Str), (storeParts chunk parts r).length = r.length := by
  induction chunk with
  | nil => intro parts r; simp [storeParts]
  | cons item chunk ih =>
    intro parts r
    cases parts with
    | nil => simp [storeParts]
    | cons part parts =>
      simp only [storeParts]
      rw [ih]
      simp

theorem storeParts_frame (chunk : List indexedText) (i : Nat) :
    ∀ (parts : List Str) (r : List Str), (∀ item ∈ chunk, item.index ≠ i) →
      (storeParts chunk parts r)[i]? = r[i]? := by
  induction chunk with
  | nil => intro parts r _; simp [storeParts]
  | cons item chunk ih =>
    intro parts r h
    cases parts with
    | nil => simp [storeParts]
    | cons part parts =>
      simp only [storeParts]
      rw [ih _ _ (fun it hit => h it (List.mem_cons_of_mem _ hit))]
      exact List.getElem?_set_ne (h item (List.mem_cons_self _ _))

theorem tryBatchTranslate_false (backend : Str → Except String Str) (entropy : Nat)
    (chunk : List indexedText) (r : List Str)
    (h : (tryBatchTranslate backend entropy chunk r).2 = false) :
    (tryBatchTranslate backend entropy chunk r).1 = r := by
  unfold tryBatchTranslate at h ⊢
  simp only at h ⊢
  split
  · rfl
  · rename_i translated heq
    rw [heq] at h
    simp only at h
    split
    · rfl
    · rename_i hlen
      rw [if_neg hlen] at h
      simp at h

theorem tryBatchTranslate_length (backend : Str → Except String Str) (entropy : Nat)
    (chunk : List indexedText) (r : List Str) :
    (tryBatchTranslate backend entropy chunk r).1.length = r.length := by
  unfold tryBatchTranslate
  simp only
  split
  · rfl
  · split
    · rfl
    · exact storeParts_length _ _ _

theorem tryBatchTranslate_frame (backend : Str → Except String Str) (entropy : Nat)
    (chunk : List indexedText) (r : List Str) (i : Nat)
    (h : ∀ item ∈ chunk, item.index ≠ i) :
    (tryBatchTranslate backend entropy chunk r).1[i]? = r[i]? := by
  unfold tryBatchTranslate
  simp only
  split
  · rfl
  · split
    · rfl
    · exact storeParts_frame _ _ _ _ h

theorem infix_stringsJoin (sep : Str) (x : Str) :
    ∀ xs : List Str, x ∈ xs → x <:+: stringsJoin sep xs := by
  intro xs
  induction xs with
  | nil => intro h; simp at h
  | cons y ys ih =>
    intro h
    cases ys with
    | nil =>
      have : x = y := by simpa using h
      subst this
      simp only [stringsJoin]
      exact List.infix_refl _
    | cons z zs =>
      simp only [stringsJoin]
      rcases List.mem_cons.mp h with h1 | h1
      · subst h1
        exact ⟨[], sep ++ stringsJoin sep (z :: zs), by simp⟩
      · obtain ⟨a, b, hab⟩ := ih h1
        exact ⟨y ++ sep ++ a, b, by simp [← hab]⟩

/-- The flag of a batch attempt is `false` exactly when the request is
rejected or the part count differs from the item count. -/
theorem tryBatchTranslate_flag (backend : Str → Except String Str) (entropy : Nat)
    (chunk : List indexedText) (r : List Str) :
    (tryBatchTranslate backend entropy chunk r).2 = !batchAttemptFails backend entropy chunk := by
  unfold tryBatchTranslate batchAttemptFails
  simp only
  split
  · rfl
  · split
    · rename_i hlen
      simp [hlen]
    · rename_i hlen
      simp only [ne_eq, Decidable.not_not] at hlen
      simp [hlen]

theorem translateParts_rejected (backend : Str → Except String Str) :
    ∀ parts : List Str,
      (parts.any fun part => rejected (GoogleTranslate backend part)) = true →
      ∃ e, translateParts backend parts = .error e := by
  intro parts
  induction parts with
  | nil => intro h; simp at h
  | cons p ps ih =>
    intro h
    simp only [translateParts]
    cases hp : GoogleTranslate backend p with
    | error e => exact ⟨e, rfl⟩
    | ok translated =>
      simp only [List.any_cons, hp, rejected, Bool.false_or] at h
      obtain ⟨e, he⟩ := ih h
      exact ⟨e, by simp only [he]⟩

/-- An individual dispatch that fails returns an error. -/
theorem translateLongText_fails (backend : Str → Except String Str) (text : Str)
    (hfail : dispatchFails backend text = true) :
    ∃ e, translateLongText backend text = some (.error e) := by
  unfold dispatchFails at hfail
  unfold translateLongText
  split
  · rename_i hlen
    rw [if_pos hlen] at hfail
    cases hg : GoogleTranslate backend text with
    | error e => exact ⟨e, rfl⟩
    | ok translated => simp [hg, rejected] at hfail
  · rename_i hlen
    rw [if_neg hlen] at hfail
    cases hs : splitTextByLength text maxSingleTextChars with
    | none => simp [hs] at hfail
    | some parts =>
      simp only [hs] at hfail
      obtain ⟨e, he⟩ := translateParts_rejected backend parts hfail
      exact ⟨e, by simp only [he]⟩

theorem translateConcurrent_frame (backend : Str → Except String Str) (chunk : List indexedText) :
    ∀ r : List Str, ∃ r1, translateConcurrent backend chunk r = some r1 ∧ r1.length = r.length ∧
      ∀ i, (∀ item ∈ chunk, item.index = i → dispatchFails backend item.text = true) →
        r1[i]? = r[i]? := by
  induction chunk with
  | nil => intro r; exact ⟨r, rfl, rfl, fun _ _ => rfl⟩
  | cons item chunk ih =>
    intro r
    obtain ⟨res, hres⟩ := translateLongText_terminates backend item.text
    simp only [translateConcurrent, hres]
    cases res with
    | error e =>
      obtain ⟨r1, h1, h2, h3⟩ := ih r
      refine ⟨r1, h1, h2, ?_⟩
      intro i hi
      exact h3 i (fun it hit => hi it (List.mem_cons_of_mem _ hit))
    | ok translated =>
      obtain ⟨r1, h1, h2, h3⟩ := ih (r.set item.index (TrimSpace translated))
      refine ⟨r1, h1, by rw [h2]; simp, ?_⟩
      intro i hi
      rw [h3 i (fun it hit => hi it (List.mem_cons_of_mem _ hit))]
      have hidx : item.index ≠ i := by
        intro heq
        obtain ⟨e, he⟩ := translateLongText_fails backend item.text
          (hi item (List.mem_cons_self _ _) heq)
        rw [he] at hres
        simp at hres
      exact List.getElem?_set_ne hidx

theorem holdsNo_iff (chunk : List indexedText) (i : Nat) :
    holdsNo chunk i = true ↔ ∀ item ∈ chunk, item.index ≠ i := by
  simp [holdsNo]

/-- `processChunk` returns when the fuel exceeds the chunk length; it keeps the
length of the result container and every position that belongs to no item of
the chunk or whose translation is obtained at no fallback level. -/
theorem processChunk_frame (backend : Str → Except String Str) (rnd : Nat → Nat) :
    ∀ (fuel : Nat) (chunk : List indexedText) (r : List Str) (k : Nat), chunk.length < fuel →
      ∃ r1 k1, processChunk backend rnd fuel chunk (r, k) = some (r1, k1) ∧
        r1.length = r.length ∧
        ∀ i, (holdsNo chunk i = true ∨ notObtained backend rnd fuel chunk (r, k) i = true) →
          r1[i]? = r[i]? := by
  intro fuel
  induction fuel with
  | zero => intro chunk r k h; omega
  | succ fuel ih =>
    intro chunk r k hfuel
    have hflag := tryBatchTranslate_flag backend (rnd k) chunk r
    simp only [processChunk]
    split
    · rename_i stored heq
      rw [heq] at hflag
      refine ⟨stored, k + 1, rfl, ?_, ?_⟩
      · have := tryBatchTranslate_length backend (rnd k) chunk r
        rw [heq] at this
        exact this
      · intro i hi
        have hno : ∀ item ∈ chunk, item.index ≠ i := by
          rcases hi with hi | hi
          · exact (holdsNo_iff chunk i).mp hi
          · exfalso
            simp only [notObtained, Bool.and_eq_true] at hi
            simp [hi.1] at hflag
        have := tryBatchTranslate_frame backend (rnd k) chunk r i hno
        rw [heq] at this
        exact this
    · split
      · rename_i hlen
        obtain ⟨r1, k1, h1, hl1, hf1⟩ := ih (chunk.take (chunk.length / 2)) r (k + 1)
          (by rw [List.length_take]; omega)
        obtain ⟨r2, k2, h2, hl2, hf2⟩ := ih (chunk.drop (chunk.length / 2)) r1 k1
          (by rw [List.length_drop]; omega)
        rw [h1]
        simp only
        refine ⟨r2, k2, h2, by rw [hl2, hl1], ?_⟩
        intro i hi
        have hboth : (holdsNo (chunk.take (chunk.length / 2)) i = true ∨
              notObtained backend rnd fuel (chunk.take (chunk.length / 2)) (r, k + 1) i = true) ∧
            (holdsNo (chunk.drop (chunk.length / 2)) i = true ∨
              notObtained backend rnd fuel (chunk.drop (chunk.length / 2)) (r1, k1) i = true) := by
          rcases hi with hi | hi
          · rw [holdsNo_iff] at hi
            exact ⟨Or.inl ((holdsNo_iff _ i).mpr fun it hit => hi it (List.mem_of_mem_take hit)),
              Or.inl ((holdsNo_iff _ i).mpr fun it hit => hi it (List.mem_of_mem_drop hit))⟩
          · simp only [notObtained, hlen, if_true, h1, Bool.and_eq_true, Bool.or_eq_true] at hi
            exact hi.2
        rw [hf2 i hboth.2, hf1 i hboth.1]
      · rename_i hlen
        obtain ⟨r1, h1, hl1, hf1⟩ := translateConcurrent_frame backend chunk r
        rw [h1]
        refine ⟨r1, k + 1, rfl, hl1, ?_⟩
        intro i hi
        apply hf1 i
        intro item hmem hidx
        rcases hi with hi | hi
        · exact absurd hidx ((holdsNo_iff chunk i).mp hi item hmem)
        · simp only [notObtained, hlen, if_false, Bool.and_eq_true, List.all_eq_true,
            Bool.or_eq_true, bne_iff_ne, ne_eq] at hi
          rcases hi.2 item hmem with h | h
          · exact absurd hidx h
          · exact h

theorem runChunks_frame (backend : Str → Except String Str) (rnd : Nat → Nat)
    (chunks : List (List indexedText)) :
    ∀ (r : List Str) (k : Nat),
      ∃ r1 k1, runChunks backend rnd chunks (r, k) = some (r1, k1) ∧
        r1.length = r.length ∧
        ∀ i, notObtainedIn backend rnd chunks (r, k) i = true → r1[i]? = r[i]? := by
  induction chunks with
  | nil => intro r k; exact ⟨r, k, rfl, rfl, fun _ _ => rfl⟩
  | cons chunk chunks ih =>
    intro r k
    obtain ⟨r1, k1, h1, hl1, hf1⟩ :=
      processChunk_frame backend rnd (chunk.length + 1) chunk r k (Nat.lt_succ_self _)
    obtain ⟨r2, k2, h2, hl2, hf2⟩ := ih r1 k1
    simp only [runChunks, h1]
    refine ⟨r2, k2, h2, by rw [hl2, hl1], ?_⟩
    intro i hi
    simp only [notObtainedIn, h1, Bool.and_eq_true, Bool.or_eq_true] at hi
    rw [hf2 i hi.2, hf1 i hi.1]

/-- A position that no chunk holds is obtained nowhere. -/
theorem notObtainedIn_of_holdsNo (backend : Str → Except String Str) (rnd : Nat → Nat)
    (i : Nat) (chunks : List (List indexedText)) :
    ∀ st : List Str × Nat, (∀ c ∈ chunks, holdsNo c i = true) →
      notObtainedIn backend rnd chunks st i = true := by
  induction chunks with
  | nil => intro st _; rfl
  | cons chunk chunks ih =>
    intro st h
    obtain ⟨r, k⟩ := st
    obtain ⟨r1, k1, h1, _, _⟩ :=
      processChunk_frame backend rnd (chunk.length + 1) chunk r k (Nat.lt_succ_self _)
    simp only [notObtainedIn, h1, h chunk (List.mem_cons_self _ _), Bool.true_or, Bool.true_and]
    exact ih (r1, k1) (fun c hc => h c (List.mem_cons_of_mem _ hc))

/-! ## Chunk construction: the chunks are the items, in order -/

theorem buildChunksLoop_flatten (items : List indexedText) :
    ∀ (chunks : List (List indexedText)) (current : List indexedText) (currentChars : Nat),
      (buildChunksLoop items chunks current currentChars).flatten =
        chunks.flatten ++ current ++ items := by
  induction items with
  | nil =>
    intro chunks current currentChars
    simp only [buildChunksLoop]
    split
    · simp
    · rename_i h
      have : current = [] := by
        cases current with
        | nil => rfl
        | cons a l => simp at h
      simp [this]
  | cons item items ih =>
    intro chunks current currentChars
    simp only [buildChunksLoop]
    rw [ih]
    split <;> simp

theorem buildChunks_flatten (items : List indexedText) :
    (buildChunks items).flatten = items := by
  unfold buildChunks
  rw [buildChunksLoop_flatten]
  simp

/-! ## The non-blank items and their positions -/

theorem collectNonEmpty_mem (texts : List Str) :
    ∀ (k : Nat) (item : indexedText), item ∈ collectNonEmpty k texts →
      k ≤ item.index ∧ texts[item.index - k]? = some item.text ∧ TrimSpace item.text ≠ [] := by
  induction texts with
  | nil => intro k item h; simp [collectNonEmpty] at h
  | cons t ts ih =>
    intro k item h
    simp only [collectNonEmpty] at h
    have hrec : item ∈ collectNonEmpty (k + 1) ts →
        k ≤ item.index ∧ (t :: ts)[item.index - k]? = some item.text ∧
          TrimSpace item.text ≠ [] := by
      intro h1
      obtain ⟨h2, h3, h4⟩ := ih (k + 1) item h1
      refine ⟨by omega, ?_, h4⟩
      have : item.index - k = (item.index - (k + 1)) + 1 := by omega
      rw [this, List.getElem?_cons_succ]
      exact h3
    split at h
    · rename_i hne
      rcases List.mem_cons.mp h with h1 | h1
      · subst h1
        simp [hne]
      · exact hrec h1
    · exact hrec h

/-! ## `BatchTranslate`: length, blanks and failed positions -/

/-- `BatchTranslate` returns a result without error, of the length of the
input, and keeps every position that belongs to no non-blank item and every
position whose translation is obtained at no fallback level. -/
theorem BatchTranslate_frame (backend : Str → Except String Str) (rnd : Nat → Nat)
    (texts : List Str) :
    ∃ out, BatchTranslate backend rnd texts = some (.ok out) ∧ out.length = texts.length ∧
      (∀ i, (∀ item ∈ collectNonEmpty 0 texts, item.index ≠ i) → out[i]? = texts[i]?) ∧
      (∀ i, translationMissed backend rnd texts i = true → out[i]? = texts[i]?) := by
  unfold BatchTranslate
  split
  · exact ⟨texts, rfl, rfl, fun _ _ => rfl, fun _ _ => rfl⟩
  · simp only
    split
    · exact ⟨texts, rfl, rfl, fun _ _ => rfl, fun _ _ => rfl⟩
    · obtain ⟨r1, k1, h1, hl1, hf1⟩ :=
        runChunks_frame backend rnd (buildChunks (collectNonEmpty 0 texts)) texts 0
      rw [h1]
      refine ⟨r1, rfl, hl1, ?_, ?_⟩
      · intro i hi
        apply hf1 i
        apply notObtainedIn_of_holdsNo
        intro c hc
        rw [holdsNo_iff]
        intro item hmem
        apply hi item
        rw [← buildChunks_flatten (collectNonEmpty 0 texts)]
        exact List.mem_flatten.mpr ⟨c, hc, hmem⟩
      · intro i hi
        exact hf1 i hi

/-- **C1.** For every list of texts and every backend, `BatchTranslate`
returns a list of the same length as its input, and at every position whose
input is empty or consists of white space only the output string equals the
input string. -/
theorem BatchTranslate_same_length_blanks_unchanged (backend : Str → Except String Str)
    (rnd : Nat → Nat) (texts : List Str) :
    ∃ out, BatchTranslate backend rnd texts = some (.ok out) ∧ out.length = texts.length ∧
      ∀ (i : Nat) (hi : i < texts.length),
        (∀ c ∈ texts[i], isSpace c = true) → out[i]? = some texts[i] := by
  obtain ⟨out, h1, h2, h3, _⟩ := BatchTranslate_frame backend rnd texts
  refine ⟨out, h1, h2, ?_⟩
  intro i hi hblank
  rw [h3 i, List.getElem?_eq_getElem hi]
  intro item hmem hidx
  exfalso
  obtain ⟨_, hget, hne⟩ := collectNonEmpty_mem texts 0 item hmem
  rw [hidx, Nat.sub_zero, List.getElem?_eq_getElem hi] at hget
  have heq : texts[i] = item.text := by simpa using hget
  exact hne ((TrimSpace_eq_nil_iff _).mpr (heq ▸ hblank))

theorem stringsJoin_cons_ne_nil (sep x : Str) (xs : List Str) (hx : x ≠ []) :
    stringsJoin sep (x :: xs) ≠ [] := by
  cases xs with
  | nil => exact hx
  | cons y ys =>
    simp only [stringsJoin]
    intro h
    exact hx (List.append_eq_nil.mp (List.append_eq_nil.mp h).1).1

theorem batchAttemptFails_all_rejected (backend : Str → Except String Str)
    (hall : ∀ s, ∃ e, backend s = .error e) (entropy : Nat) (chunk : List indexedText)
    (hne : chunk ≠ []) (htext : ∀ item ∈ chunk, item.text ≠ []) :
    batchAttemptFails backend entropy chunk = true := by
  obtain ⟨item, rest, rfl⟩ := List.exists_cons_of_ne_nil hne
  have hjoin : stringsJoin (" ".toList ++ sepToken entropy ++ " ".toList)
      ((item :: rest).map fun it => it.text) ≠ [] :=
    stringsJoin_cons_ne_nil _ _ _ (htext item (List.mem_cons_self _ _))
  obtain ⟨e, he⟩ := hall (stringsJoin (" ".toList ++ sepToken entropy ++ " ".toList)
    ((item :: rest).map fun it => it.text))
  unfold batchAttemptFails
  simp only [GoogleTranslate, if_neg hjoin, he]

theorem dispatchFails_all_rejected (backend : Str → Except String Str)
    (hall : ∀ s, ∃ e, backend s = .error e) (text : Str) (hne : text ≠ []) :
    dispatchFails backend text = true := by
  unfold dispatchFails
  split
  · obtain ⟨e, he⟩ := hall text
    simp only [GoogleTranslate, if_neg hne, he, rejected]
  · rename_i hlen
    obtain ⟨parts, hparts⟩ := splitTextByLength_terminates text maxSingleTextChars (by decide)
    obtain ⟨hpne, hpall⟩ := splitTextByLength_parts text _ parts (by omega) hparts
    obtain ⟨p, ps, rfl⟩ := List.exists_cons_of_ne_nil hpne
    obtain ⟨e, he⟩ := hall p
    have hp : p ≠ [] := hpall p (List.mem_cons_self _ _)
    simp only [hparts, List.any_cons, GoogleTranslate, if_neg hp, he, rejected, Bool.true_or]

theorem notObtained_all_rejected (backend : Str → Except String Str) (rnd : Nat → Nat)
    (hall : ∀ s, ∃ e, backend s = .error e) (i : Nat) :
    ∀ (fuel : Nat) (chunk : List indexedText) (st : List Str × Nat), chunk.length < fuel →
      chunk ≠ [] → (∀ item ∈ chunk, item.text ≠ []) →
      notObtained backend rnd fuel chunk st i = true := by
  intro fuel
  induction fuel with
  | zero => intro chunk st h; omega
  | succ fuel ih =>
    intro chunk st hfuel hne htext
    obtain ⟨r, k⟩ := st
    have hbatch := batchAttemptFails_all_rejected backend hall (rnd k) chunk hne htext
    simp only [notObtained, hbatch, Bool.true_and]
    split
    · rename_i hlen
      have hlen1 : (chunk.take (chunk.length / 2)).length = chunk.length / 2 := by
        rw [List.length_take]; omega
      have hlen2 : (chunk.drop (chunk.length / 2)).length = chunk.length - chunk.length / 2 := by
        rw [List.length_drop]
      obtain ⟨r1, k1, h1, _, _⟩ := processChunk_frame backend rnd fuel
        (chunk.take (chunk.length / 2)) r (k + 1) (by rw [hlen1]; omega)
      simp only [h1]
      rw [ih (chunk.take (chunk.length / 2)) (r, k + 1) (by rw [hlen1]; omega)
          (by intro h0; rw [h0] at hlen1; simp at hlen1; omega)
          (fun it hit => htext it (List.mem_of_mem_take hit)),
        ih (chunk.drop (chunk.length / 2)) (r1, k1) (by rw [hlen2]; omega)
          (by intro h0; rw [h0] at hlen2; simp at hlen2; omega)
          (fun it hit => htext it (List.mem_of_mem_drop hit))]
      simp
    · rw [List.all_eq_true]
      intro item hmem
      rw [dispatchFails_all_rejected backend hall item.text (htext item hmem)]
      simp

theorem notObtainedIn_all_rejected (backend : Str → Except String Str) (rnd : Nat → Nat)
    (hall : ∀ s, ∃ e, backend s = .error e) (i : Nat) (chunks : List (List indexedText)) :
    ∀ st : List Str × Nat, (∀ c ∈ chunks, c ≠ [] ∧ ∀ item ∈ c, item.text ≠ []) →
      notObtainedIn backend rnd chunks st i = true := by
  induction chunks with
  | nil => intro st _; rfl
  | cons chunk chunks ih =>
    intro st h
    obtain ⟨r, k⟩ := st
    obtain ⟨hne, htext⟩ := h chunk (List.mem_cons_self _ _)
    obtain ⟨r1, k1, h1, _, _⟩ :=
      processChunk_frame backend rnd (chunk.length + 1) chunk r k (Nat.lt_succ_self _)
    simp only [notObtainedIn, h1,
      notObtained_all_rejected backend rnd hall i _ chunk (r, k) (Nat.lt_succ_self _) hne htext,
      Bool.or_true, Bool.true_and]
    exact ih (r1, k1) (fun c hc => h c (List.mem_cons_of_mem _ hc))

/-- **C4.** For every list of texts and every backend, `BatchTranslate`
returns a result of the length of the input and no error.  Every position
whose translation could not be obtained at any fallback level of the run holds
the original input text: every batch attempt made on a chunk holding the
position failed, by a rejected request or by a part count other than the item
count, down to the chunk of the item alone, and the individual dispatch failed,
the text or one of its length-split segments being rejected.  With a backend
that fails on every call the result equals the input list. -/
theorem BatchTranslate_partial_success (backend : Str → Except String Str)
    (rnd : Nat → Nat) (texts : List Str) :
    ∃ out, BatchTranslate backend rnd texts = some (.ok out) ∧ out.length = texts.length ∧
      (∀ (i : Nat) (hi : i < texts.length),
        translationMissed backend rnd texts i = true → out[i]? = some texts[i]) ∧
      ((∀ s, ∃ e, backend s = .error e) → out = texts) := by
  obtain ⟨out, h1, h2, _, h4⟩ := BatchTranslate_frame backend rnd texts
  refine ⟨out, h1, h2, ?_, ?_⟩
  · intro i hi hmiss
    rw [h4 i hmiss, List.getElem?_eq_getElem hi]
  · intro hall
    apply List.ext_getElem?
    intro i
    apply h4 i
    unfold translationMissed
    apply notObtainedIn_all_rejected backend rnd hall
    intro c hc
    refine ⟨(buildChunksLoop_withinBudget (collectNonEmpty 0 texts) [] [] 0
      (by intro c1 hc1; simp at hc1) (by simp [chunkChars]) (by intro h1; simp at h1) c hc).1, ?_⟩
    intro item hmem
    have hin : item ∈ collectNonEmpty 0 texts := by
      rw [← buildChunks_flatten (collectNonEmpty 0 texts)]
      exact List.mem_flatten.mpr ⟨c, hc, hmem⟩
    have := (collectNonEmpty_mem texts 0 item hin).2.2
    intro h0
    rw [h0] at this
    exact this (by decide)

/-! ## `strings.Split` on a separator that occurs where expected -/

theorem splitScan_skip (sep : Str) (t : Str) :
    ∀ u : Str, splitScan sep u.length (u ++ t) = splitScan sep 0 t := by
  intro u
  induction u with
  | nil => rfl
  | cons c u ih => simpa [splitScan] using ih

theorem splitScan_cons (sep : Str) (c : Char) (cs : Str) :
    splitScan sep 0 (c :: cs) =
      if sep.isPrefixOf (c :: cs) then [] :: splitScan sep (sep.length - 1) cs
      else consHead c (splitScan sep 0 cs) := by
  rw [splitScan]

theorem splitScan_sep (sep t : Str) (hsep : sep ≠ []) :
    splitScan sep 0 (sep ++ t) = [] :: splitScan sep 0 t := by
  obtain ⟨c, s, hs⟩ := List.exists_cons_of_ne_nil hsep
  subst hs
  have hpre : (c :: s).isPrefixOf (c :: (s ++ t)) = true := by
    rw [List.isPrefixOf_iff_prefix]
    exact ⟨t, rfl⟩
  have hskip := splitScan_skip (c :: s) t s
  rw [List.cons_append, splitScan_cons, if_pos hpre]
  rw [show (c :: s).length - 1 = s.length from rfl, hskip]

/-- A piece `a` in front of a separator is split off when the separator does
not begin earlier. -/
theorem splitScan_append_sep (sep t : Str) (hsep : sep ≠ []) :
    ∀ a : Str, (∀ w, w <:+ a → w ≠ [] → ¬ sep <+: w ++ (sep ++ t)) →
      splitScan sep 0 (a ++ (sep ++ t)) = a :: splitScan sep 0 t := by
  intro a
  induction a with
  | nil => intro _; exact splitScan_sep sep t hsep
  | cons c a ih =>
    intro h
    have hnot : ¬ (sep.isPrefixOf (c :: (a ++ (sep ++ t)))) = true := by
      intro hp
      rw [List.isPrefixOf_iff_prefix] at hp
      exact h (c :: a) (List.suffix_refl _) (by simp) hp
    have ih1 := ih (fun w hw hne => h w (hw.trans (List.suffix_cons c a)) hne)
    rw [List.cons_append, splitScan_cons, if_neg hnot, ih1]
    rfl

theorem splitScan_no_sep (sep : Str) :
    ∀ a : Str, ¬ sep <:+: a → splitScan sep 0 a = [a] := by
  intro a
  induction a with
  | nil => intro _; rfl
  | cons c a ih =>
    intro h
    have hnot : ¬ (sep.isPrefixOf (c :: a)) = true := by
      intro hp
      rw [List.isPrefixOf_iff_prefix] at hp
      exact h hp.isInfix
    have ih1 := ih (fun hin => h (List.infix_cons hin))
    rw [splitScan_cons, if_neg hnot, ih1]
    rfl

/-- A token without a space cannot begin inside `b ++ " "` when `b` does not
contain it. -/
theorem no_early_token (tk b t : Str) (hsp : ' ' ∉ tk) (hb : ¬ tk <:+: b) :
    ∀ w, w <:+ b ++ [' '] → w ≠ [] → ¬ tk <+: w ++ (tk ++ t) := by
  intro w hw hne hpre
  obtain ⟨u, hu⟩ := hw
  rcases List.eq_nil_or_concat w with h0 | ⟨w1, x, hx⟩
  · exact hne h0
  · subst hx
    rw [List.concat_eq_append, ← List.append_assoc] at hu
    have hinj := List.append_inj' hu rfl
    have hx : x = ' ' := by simpa using hinj.2
    subst hx
    have hb1 : ¬ tk <+: w1 := by
      intro hp
      apply hb
      rw [← hinj.1]
      exact (hp.isInfix).trans (List.infix_append' u w1 [] |> fun h => by simpa using h)
    rw [List.concat_eq_append, List.append_assoc] at hpre
    have hw1 : w1 <+: w1 ++ ([' '] ++ (tk ++ t)) := List.prefix_append _ _
    rcases List.prefix_or_prefix_of_prefix hpre hw1 with h1 | h1
    · exact hb1 h1
    · obtain ⟨r, hr⟩ := h1
      rw [← hr, List.prefix_append_right_inj] at hpre
      simp only [List.singleton_append] at hpre
      rcases List.prefix_cons_iff.mp hpre with h2 | ⟨r1, h2, _⟩
      · apply hb1
        rw [← hr, h2]
        simp
      · apply hsp
        rw [← hr, h2]
        simp

theorem hexDigit_mem (n : Nat) : hexDigit n ∈ "0123456789abcdef".toList := by
  unfold hexDigit
  by_cases h : n < 16
  · interval_cases n <;> decide
  · have : "0123456789abcdef".toList.length ≤ n := by
      have : "0123456789abcdef".toList.length = 16 := by decide
      omega
    rw [List.getD_eq_default _ _ this]
    decide

theorem hexEncode_no_space : ∀ bs : List Nat, ' ' ∉ hexEncode bs := by
  intro bs
  induction bs with
  | nil => simp [hexEncode]
  | cons b bs ih =>
    have hd : ∀ n, ' ' ≠ hexDigit n := by
      intro n h
      have := hexDigit_mem n
      rw [← h] at this
      revert this
      decide
    simp only [hexEncode, List.mem_cons, not_or]
    exact ⟨hd _, hd _, ih⟩

theorem sepToken_no_space (entropy : Nat) : ' ' ∉ sepToken entropy := by
  unfold sepToken
  simp only [List.mem_append, not_or]
  exact ⟨⟨by decide, hexEncode_no_space _⟩, by decide⟩

theorem sepToken_ne_nil (entropy : Nat) : sepToken entropy ≠ [] := by
  unfold sepToken
  simp

/-! ## Collapsing and trimming ignore padding spaces -/

theorem TrimSpace_cons_space (c : Char) (x : Str) (hc : isSpace c = true) :
    TrimSpace (c :: x) = TrimSpace x := by
  unfold TrimSpace
  rw [List.dropWhile_cons_of_pos hc]

theorem TrimSpace_concat_space (c : Char) (x : Str) (hc : isSpace c = true) :
    TrimSpace (x ++ [c]) = TrimSpace x := by
  by_cases hall : ∀ a ∈ x, isSpace a = true
  · rw [(TrimSpace_eq_nil_iff x).mpr hall]
    apply (TrimSpace_eq_nil_iff _).mpr
    intro a ha
    rcases List.mem_append.mp ha with h | h
    · exact hall a h
    · have : a = c := by simpa using h
      rw [this]; exact hc
  · have hd : x.dropWhile isSpace ≠ [] := by
      intro h
      exact hall (List.dropWhile_eq_nil_iff.mp h)
    unfold TrimSpace
    rw [List.dropWhile_append]
    have : (List.dropWhile isSpace x).isEmpty = false := by
      cases h : List.dropWhile isSpace x with
      | nil => exact absurd h hd
      | cons _ _ => rfl
    rw [this]
    simp only [Bool.false_eq_true, if_false, List.reverse_append, List.reverse_cons,
      List.reverse_nil, List.nil_append, List.singleton_append]
    rw [List.dropWhile_cons_of_pos hc]

theorem TrimSpace_pad (e1 e2 x : Str) (h1 : ∀ c ∈ e1, c = ' ') (h2 : ∀ c ∈ e2, c = ' ') :
    TrimSpace (e1 ++ x ++ e2) = TrimSpace x := by
  have hright : ∀ (e : Str) (y : Str), (∀ c ∈ e, c = ' ') → TrimSpace (y ++ e) = TrimSpace y := by
    intro e
    induction e with
    | nil => intro y _; simp
    | cons c e ih =>
      intro y h
      have hc : c = ' ' := h c (List.mem_cons_self _ _)
      have := ih (y ++ [c]) (fun a ha => h a (List.mem_cons_of_mem _ ha))
      rw [List.append_assoc, List.singleton_append] at this
      rw [this, TrimSpace_concat_space c y (by rw [hc]; decide)]
  have hleft : ∀ (e : Str) (y : Str), (∀ c ∈ e, c = ' ') → TrimSpace (e ++ y) = TrimSpace y := by
    intro e
    induction e with
    | nil => intro y _; simp
    | cons c e ih =>
      intro y h
      have hc : c = ' ' := h c (List.mem_cons_self _ _)
      rw [List.cons_append, TrimSpace_cons_space c _ (by rw [hc]; decide)]
      exact ih y (fun a ha => h a (List.mem_cons_of_mem _ ha))
  rw [hright e2 _ h2, hleft e1 _ h1]

theorem collapseScan_flag (s : Str) :
    ∃ e : Str, (∀ c ∈ e, c = ' ') ∧ collapseScan false s = e ++ collapseScan true s := by
  cases s with
  | nil => exact ⟨[], by simp, rfl⟩
  | cons c cs =>
    by_cases hc : isHorizontal c = true
    · exact ⟨[' '], by simp, by simp [collapseScan, hc]⟩
    · exact ⟨[], by simp, by simp [collapseScan, hc]⟩

theorem collapseScan_spaces (f : Bool) :
    ∀ b : Str, (∀ c ∈ b, c = ' ') → ∀ c ∈ collapseScan f b, c = ' ' := by
  intro b
  induction b generalizing f with
  | nil => intro _ c hc; simp [collapseScan] at hc
  | cons x b ih =>
    intro h c hc
    have hx : x = ' ' := h x (List.mem_cons_self _ _)
    have hb : ∀ c ∈ b, c = ' ' := fun a ha => h a (List.mem_cons_of_mem _ ha)
    subst hx
    have hh : isHorizontal ' ' = true := by decide
    cases f with
    | true =>
      simp only [collapseScan, hh, if_true] at hc
      exact ih true hb c hc
    | false =>
      simp only [collapseScan, hh, if_true, Bool.false_eq_true, if_false, List.mem_cons] at hc
      rcases hc with h1 | h1
      · exact h1
      · exact ih true hb c h1

theorem collapseScan_append_spaces (b : Str) (hb : ∀ c ∈ b, c = ' ') :
    ∀ (s : Str) (f : Bool), ∃ e : Str, (∀ c ∈ e, c = ' ') ∧
      collapseScan f (s ++ b) = collapseScan f s ++ e := by
  intro s
  induction s with
  | nil =>
    intro f
    exact ⟨collapseScan f b, collapseScan_spaces f b hb, by simp [collapseScan]⟩
  | cons x s ih =>
    intro f
    by_cases hx : isHorizontal x = true
    · obtain ⟨e, he, heq⟩ := ih true
      refine ⟨e, he, ?_⟩
      cases f <;> simp [collapseScan, hx, heq]
    · obtain ⟨e, he, heq⟩ := ih false
      refine ⟨e, he, ?_⟩
      simp [collapseScan, hx, heq]

theorem collapseScan_spaces_append (a : Str) (ha : ∀ c ∈ a, c = ' ') (s : Str) :
    ∀ f : Bool, ∃ (e : Str) (f1 : Bool), (∀ c ∈ e, c = ' ') ∧
      collapseScan f (a ++ s) = e ++ collapseScan f1 s := by
  induction a with
  | nil => intro f; exact ⟨[], f, by simp, rfl⟩
  | cons x a ih =>
    intro f
    have hx : x = ' ' := ha x (List.mem_cons_self _ _)
    subst hx
    have hh : isHorizontal ' ' = true := by decide
    obtain ⟨e, f1, he, heq⟩ := ih (fun c hc => ha c (List.mem_cons_of_mem _ hc)) true
    cases f with
    | true => exact ⟨e, f1, he, by simp [collapseScan, hh, heq]⟩
    | false =>
      refine ⟨' ' :: e, f1, ?_, by simp [collapseScan, hh, heq]⟩
      intro c hc
      rcases List.mem_cons.mp hc with h1 | h1
      · exact h1
      · exact he c h1

theorem TrimSpace_collapseScan_flag (f : Bool) (s : Str) :
    TrimSpace (collapseScan f s) = TrimSpace (collapseScan false s) := by
  cases f with
  | false => rfl
  | true =>
    obtain ⟨e, he, heq⟩ := collapseScan_flag s
    rw [heq]
    have := TrimSpace_pad e [] (collapseScan true s) he (by simp)
    simp only [List.append_nil] at this
    exact this.symm

/-- A part that is `y` between padding spaces is cleaned to what `y` is
cleaned to. -/
theorem clean_pad (a b y : Str) (ha : ∀ c ∈ a, c = ' ') (hb : ∀ c ∈ b, c = ' ') :
    TrimSpace (horizontalWhitespaceRe_ReplaceAll (a ++ y ++ b)) =
      TrimSpace (horizontalWhitespaceRe_ReplaceAll y) := by
  unfold horizontalWhitespaceRe_ReplaceAll
  rw [List.append_assoc]
  obtain ⟨e1, f1, he1, h1⟩ := collapseScan_spaces_append a ha (y ++ b) false
  obtain ⟨e2, he2, h2⟩ := collapseScan_append_spaces b hb y f1
  rw [h1, h2, ← List.append_assoc, TrimSpace_pad e1 e2 _ he1 he2]
  exact TrimSpace_collapseScan_flag f1 y

/-! ## Dispatch: what is written -/

theorem storeParts_writes (val : Str → Str) (chunk : List indexedText) :
    ∀ (parts : List Str) (r : List Str),
      List.Forall₂ (fun item part =>
        TrimSpace (horizontalWhitespaceRe_ReplaceAll part) = val item.text) chunk parts →
      (chunk.map fun item => item.index).Nodup →
      (∀ item ∈ chunk, item.index < r.length) →
      Writes val chunk r (storeParts chunk parts r) := by
  induction chunk with
  | nil =>
    intro parts r _ _ _
    exact ⟨by simp [storeParts], fun _ _ => by simp [storeParts], fun _ h => by simp at h⟩
  | cons item chunk ih =>
    intro parts r hall hnd hin
    cases hall with
    | cons hhead htail =>
      rename_i part parts
      rw [List.map_cons, List.nodup_cons] at hnd
      have hin1 : ∀ it ∈ chunk, it.index < (r.set item.index
          (TrimSpace (horizontalWhitespaceRe_ReplaceAll part))).length := by
        intro it hit
        rw [List.length_set]
        exact hin it (List.mem_cons_of_mem _ hit)
      obtain ⟨hl, hf, hw⟩ := ih parts _ htail hnd.2 hin1
      simp only [storeParts]
      refine ⟨by rw [hl, List.length_set], ?_, ?_⟩
      · intro i hi
        rw [hf i (fun it hit => hi it (List.mem_cons_of_mem _ hit))]
        exact List.getElem?_set_ne (hi item (List.mem_cons_self _ _))
      · intro it hit
        rcases List.mem_cons.mp hit with h1 | h1
        · subst h1
          rw [hf it.index]
          · rw [List.getElem?_set_eq_of_lt _ (hin it (List.mem_cons_self _ _)), hhead]
          · intro it2 hit2 heq
            exact hnd.1 (List.mem_map.mpr ⟨it2, hit2, heq⟩)
        · exact hw it h1

theorem Writes_append (val : Str → Str) (c1 c2 : List indexedText) (r r1 r2 : List Str)
    (h1 : Writes val c1 r r1) (h2 : Writes val c2 r1 r2)
    (hdisj : ∀ a ∈ c1, ∀ b ∈ c2, b.index ≠ a.index) : Writes val (c1 ++ c2) r r2 := by
  obtain ⟨hl1, hf1, hw1⟩ := h1
  obtain ⟨hl2, hf2, hw2⟩ := h2
  refine ⟨by rw [hl2, hl1], ?_, ?_⟩
  · intro i hi
    rw [hf2 i (fun it hit => hi it (List.mem_append_right _ hit)),
      hf1 i (fun it hit => hi it (List.mem_append_left _ hit))]
  · intro it hit
    rcases List.mem_append.mp hit with h | h
    · rw [hf2 it.index (fun b hb => hdisj it h b hb)]
      exact hw1 it h
    · exact hw2 it h

theorem nodup_index_append (c1 c2 : List indexedText)
    (h : ((c1 ++ c2).map fun item => item.index).Nodup) :
    (c1.map fun item => item.index).Nodup ∧ (c2.map fun item => item.index).Nodup ∧
      ∀ a ∈ c1, ∀ b ∈ c2, b.index ≠ a.index := by
  rw [List.map_append, List.nodup_append] at h
  refine ⟨h.1, h.2.1, ?_⟩
  intro a ha b hb heq
  exact h.2.2 (List.mem_map.mpr ⟨a, ha, rfl⟩) (List.mem_map.mpr ⟨b, hb, heq⟩)

/-- If on every admissible chunk the batch attempt either stores `val` of
every item or fails on a chunk of more than one item, then `processChunk`
stores `val` of every item of the chunk it is given. -/
theorem processChunk_writes (backend : Str → Except String Str) (rnd : Nat → Nat)
    (val : Str → Str) (Q : Str → Prop)
    (hTry : ∀ (c : List indexedText) (k : Nat) (r : List Str), c ≠ [] →
      (∀ item ∈ c, Q item.text) → (c.map fun item => item.index).Nodup →
      (∀ item ∈ c, item.index < r.length) →
      (∃ r1, tryBatchTranslate backend (rnd k) c r = (r1, true) ∧ Writes val c r r1) ∨
        (tryBatchTranslate backend (rnd k) c r = (r, false) ∧ 1 < c.length)) :
    ∀ (fuel : Nat) (c : List indexedText) (r : List Str) (k : Nat), c.length < fuel →
      c ≠ [] → (∀ item ∈ c, Q item.text) → (c.map fun item => item.index).Nodup →
      (∀ item ∈ c, item.index < r.length) →
      ∃ r1 k1, processChunk backend rnd fuel c (r, k) = some (r1, k1) ∧ Writes val c r r1 := by
  intro fuel
  induction fuel with
  | zero => intro c r k h; omega
  | succ fuel ih =>
    intro c r k hfuel hne hQ hnd hin
    simp only [processChunk]
    rcases hTry c k r hne hQ hnd hin with ⟨r1, htry, hw⟩ | ⟨htry, hlen⟩
    · rw [htry]
      exact ⟨r1, k + 1, rfl, hw⟩
    · rw [htry]
      simp only [if_pos hlen]
      have hsplit : c.take (c.length / 2) ++ c.drop (c.length / 2) = c := List.take_append_drop _ _
      have hnd2 := hnd
      rw [← hsplit] at hnd2
      obtain ⟨hndl, hndr, hdisj⟩ := nodup_index_append _ _ hnd2
      obtain ⟨r1, k1, h1, hw1⟩ := ih (c.take (c.length / 2)) r (k + 1)
        (by rw [List.length_take]; omega)
        (List.ne_nil_of_length_pos (by rw [List.length_take]; omega))
        (fun it hit => hQ it (List.mem_of_mem_take hit)) hndl
        (fun it hit => hin it (List.mem_of_mem_take hit))
      obtain ⟨r2, k2, h2, hw2⟩ := ih (c.drop (c.length / 2)) r1 k1
        (by rw [List.length_drop]; omega)
        (List.ne_nil_of_length_pos (by rw [List.length_drop]; omega))
        (fun it hit => hQ it (List.mem_of_mem_drop hit)) hndr
        (fun it hit => by rw [hw1.1]; exact hin it (List.mem_of_mem_drop hit))
      rw [h1]
      refine ⟨r2, k2, h2, ?_⟩
      have := Writes_append val _ _ r r1 r2 hw1 hw2 hdisj
      rw [hsplit] at this
      exact this

theorem runChunks_writes (backend : Str → Except String Str) (rnd : Nat → Nat)
    (val : Str → Str) (Q : Str → Prop)
    (hTry : ∀ (c : List indexedText) (k : Nat) (r : List Str), c ≠ [] →
      (∀ item ∈ c, Q item.text) → (c.map fun item => item.index).Nodup →
      (∀ item ∈ c, item.index < r.length) →
      (∃ r1, tryBatchTranslate backend (rnd k) c r = (r1, true) ∧ Writes val c r r1) ∨
        (tryBatchTranslate backend (rnd k) c r = (r, false) ∧ 1 < c.length))
    (chunks : List (List indexedText)) :
    ∀ (r : List Str) (k : Nat), (∀ c ∈ chunks, c ≠ []) →
      (∀ item ∈ chunks.flatten, Q item.text) →
      (chunks.flatten.map fun item => item.index).Nodup →
      (∀ item ∈ chunks.flatten, item.index < r.length) →
      ∃ r1 k1, runChunks backend rnd chunks (r, k) = some (r1, k1) ∧
        Writes val chunks.flatten r r1 := by
  induction chunks with
  | nil =>
    intro r k _ _ _ _
    exact ⟨r, k, rfl, rfl, fun _ _ => rfl, fun _ h => by simp at h⟩
  | cons c chunks ih =>
    intro r k hne hQ hnd hin
    rw [List.flatten_cons] at hQ hnd hin ⊢
    obtain ⟨hndl, hndr, hdisj⟩ := nodup_index_append _ _ hnd
    obtain ⟨r1, k1, h1, hw1⟩ := processChunk_writes backend rnd val Q hTry (c.length + 1) c r k
      (Nat.lt_succ_self _) (hne c (List.mem_cons_self _ _))
      (fun it hit => hQ it (List.mem_append_left _ hit)) hndl
      (fun it hit => hin it (List.mem_append_left _ hit))
    obtain ⟨r2, k2, h2, hw2⟩ := ih r1 k1 (fun c1 hc1 => hne c1 (List.mem_cons_of_mem _ hc1))
      (fun it hit => hQ it (List.mem_append_right _ hit)) hndr
      (fun it hit => by rw [hw1.1]; exact hin it (List.mem_append_right _ hit))
    simp only [runChunks, h1]
    exact ⟨r2, k2, h2, Writes_append val _ _ r r1 r2 hw1 hw2 hdisj⟩

theorem collectNonEmpty_sorted (texts : List Str) :
    ∀ k : Nat, ((collectNonEmpty k texts).map fun item => item.index).Pairwise (· < ·) := by
  induction texts with
  | nil => intro k; simp [collectNonEmpty]
  | cons t ts ih =>
    intro k
    simp only [collectNonEmpty]
    split
    · rw [List.map_cons, List.pairwise_cons]
      refine ⟨?_, ih (k + 1)⟩
      intro j hj
      obtain ⟨it, hit, hidx⟩ := List.mem_map.mp hj
      have := (collectNonEmpty_mem ts (k + 1) it hit).1
      simp only at hidx ⊢
      omega
    · exact ih (k + 1)

theorem collectNonEmpty_complete (texts : List Str) :
    ∀ (k i : Nat) (hi : i < texts.length), TrimSpace texts[i] ≠ [] →
      (⟨k + i, texts[i]⟩ : indexedText) ∈ collectNonEmpty k texts := by
  induction texts with
  | nil => intro k i hi; simp at hi
  | cons t ts ih =>
    intro k i hi hne
    cases i with
    | zero =>
      simp only [List.getElem_cons_zero] at hne ⊢
      simp [collectNonEmpty, hne]
    | succ i =>
      simp only [List.getElem_cons_succ] at hne ⊢
      have hi1 : i < ts.length := by simpa using hi
      have := ih (k + 1) i hi1 hne
      rw [show k + 1 + i = k + (i + 1) by omega] at this
      simp only [collectNonEmpty]
      split
      · exact List.mem_cons_of_mem _ this
      · exact this

theorem buildChunks_ne_nil (items : List indexedText) : ∀ c ∈ buildChunks items, c ≠ [] := by
  intro c hc
  exact (buildChunksLoop_withinBudget items [] [] 0 (by intro c hc1; simp at hc1)
    (by simp [chunkChars]) (by intro h1; simp at h1) c hc).1

/-- If on every admissible chunk the batch attempt either stores `val` of
every item or fails on a chunk of more than one item, then the result of
`BatchTranslate` holds `val` of the input at every non-blank position. -/
theorem BatchTranslate_writes (backend : Str → Except String Str) (rnd : Nat → Nat)
    (val : Str → Str) (texts : List Str)
    (hTry : ∀ (c : List indexedText) (k : Nat) (r : List Str), c ≠ [] →
      (∀ item ∈ c, item.text ∈ texts ∧ TrimSpace item.text ≠ []) →
      (c.map fun item => item.index).Nodup →
      (∀ item ∈ c, item.index < r.length) →
      (∃ r1, tryBatchTranslate backend (rnd k) c r = (r1, true) ∧ Writes val c r r1) ∨
        (tryBatchTranslate backend (rnd k) c r = (r, false) ∧ 1 < c.length)) :
    ∃ out, BatchTranslate backend rnd texts = some (.ok out) ∧ out.length = texts.length ∧
      ∀ (i : Nat) (hi : i < texts.length), TrimSpace texts[i] ≠ [] →
        out[i]? = some (val texts[i]) := by
  unfold BatchTranslate
  split
  · rename_i h0
    exact ⟨texts, rfl, rfl, fun i hi => by omega⟩
  · simp only
    split
    · rename_i hlen
      refine ⟨texts, rfl, rfl, ?_⟩
      intro i hi hne
      have := collectNonEmpty_complete texts 0 i hi hne
      rw [List.length_eq_zero] at hlen
      rw [hlen] at this
      simp at this
    · have hmem := collectNonEmpty_mem texts 0
      obtain ⟨r1, k1, h1, hl, _, hw⟩ := runChunks_writes backend rnd val
        (fun t => t ∈ texts ∧ TrimSpace t ≠ []) hTry
        (buildChunks (collectNonEmpty 0 texts)) texts 0 (buildChunks_ne_nil _)
        (by
          rw [buildChunks_flatten]
          intro it hit
          obtain ⟨_, hget, hne⟩ := hmem it hit
          exact ⟨List.getElem?_mem hget, hne⟩)
        (by
          rw [buildChunks_flatten]
          exact (collectNonEmpty_sorted texts 0).imp (fun h => Nat.ne_of_lt h))
        (by
          rw [buildChunks_flatten]
          intro it hit
          obtain ⟨_, hget, _⟩ := hmem it hit
          rw [Nat.sub_zero] at hget
          exact (List.getElem?_eq_some_iff.mp hget).1)
      rw [h1]
      refine ⟨r1, rfl, hl, ?_⟩
      intro i hi hne
      have hin := collectNonEmpty_complete texts 0 i hi hne
      rw [Nat.zero_add] at hin
      rw [buildChunks_flatten] at hw
      exact hw _ hin

/-! ## A backend that translates a joined request item by item -/

theorem token_free_pad (tk y : Str) (htk : tk ≠ []) (hsp : ' ' ∉ tk) (hy : ¬ tk <:+: y) :
    ∀ pre : Str, (∀ ch ∈ pre, ch = ' ') → ¬ tk <:+: pre ++ y := by
  intro pre
  induction pre with
  | nil => intro _; exact hy
  | cons x pre ih =>
    intro h hin
    have hx : x = ' ' := h x (List.mem_cons_self _ _)
    subst hx
    rw [List.cons_append, List.infix_cons_iff] at hin
    rcases hin with h1 | h1
    · rcases List.prefix_cons_iff.mp h1 with h2 | ⟨r, h2, _⟩
      · exact htk h2
      · apply hsp
        rw [h2]
        simp
    · exact ih (fun c hc => h c (List.mem_cons_of_mem _ hc)) h1

/-- Splitting `y₁ ++ " tk " ++ y₂ ++ " tk " ++ …` on the token `tk` gives one
part for each `y`, which is that `y` between padding spaces, when no `y`
contains the token and the token has no space. -/
theorem splitScan_joined (tk : Str) (htk : tk ≠ []) (hsp : ' ' ∉ tk) :
    ∀ ys : List Str, ys ≠ [] → (∀ y ∈ ys, ¬ tk <:+: y) →
      ∀ pre : Str, (∀ ch ∈ pre, ch = ' ') →
        List.Forall₂
          (fun y part => ∃ a b : Str, (∀ ch ∈ a, ch = ' ') ∧ (∀ ch ∈ b, ch = ' ') ∧
            part = a ++ y ++ b)
          ys (splitScan tk 0 (pre ++ stringsJoin (" ".toList ++ tk ++ " ".toList) ys)) := by
  intro ys
  induction ys with
  | nil => intro h; exact absurd rfl h
  | cons y ys ih =>
    intro _ hfree pre hpre
    have hy : ¬ tk <:+: pre ++ y :=
      token_free_pad tk y htk hsp (hfree y (List.mem_cons_self _ _)) pre hpre
    cases ys with
    | nil =>
      simp only [stringsJoin]
      rw [splitScan_no_sep tk _ hy]
      exact List.Forall₂.cons ⟨pre, [], hpre, by simp, by simp⟩ List.Forall₂.nil
    | cons y1 rest =>
      have hshape : pre ++ stringsJoin (" ".toList ++ tk ++ " ".toList) (y :: y1 :: rest) =
          (pre ++ y ++ [' ']) ++
            (tk ++ ([' '] ++ stringsJoin (" ".toList ++ tk ++ " ".toList) (y1 :: rest))) := by
        simp [stringsJoin]
      rw [hshape, splitScan_append_sep tk _ htk _ (no_early_token tk (pre ++ y) _ hsp hy)]
      refine List.Forall₂.cons ⟨pre, [' '], hpre, by simp, rfl⟩ ?_
      exact ih (by simp) (fun z hz => hfree z (List.mem_cons_of_mem _ hz)) [' '] (by simp)

theorem stringsJoin_ne_nil (sep : Str) (xs : List Str) (x : Str) (hx : x ∈ xs) (hne : x ≠ []) :
    stringsJoin sep xs ≠ [] := by
  intro h0
  have := infix_stringsJoin sep x xs hx
  rw [h0] at this
  exact hne (List.eq_nil_of_infix_nil this)

/-- Under a backend that answers the joined request of a chunk with the joined
translations `g`, the batch attempt succeeds and stores the cleaned
translations. -/
theorem tryBatchTranslate_itemwise (backend : Str → Except String Str) (entropy : Nat)
    (g : Str → Str) (c : List indexedText) (r : List Str) (hne : c ≠ [])
    (htext : ∀ item ∈ c, item.text ≠ [])
    (hback : backend (stringsJoin (" ".toList ++ sepToken entropy ++ " ".toList)
        (c.map fun item => item.text)) =
      .ok (stringsJoin (" ".toList ++ sepToken entropy ++ " ".toList)
        ((c.map fun item => item.text).map g)))
    (hfree : ∀ item ∈ c, ¬ sepToken entropy <:+: g item.text)
    (hnd : (c.map fun item => item.index).Nodup) (hin : ∀ item ∈ c, item.index < r.length) :
    ∃ r1, tryBatchTranslate backend entropy c r = (r1, true) ∧
      Writes (fun x => TrimSpace (horizontalWhitespaceRe_ReplaceAll (g x))) c r r1 := by
  obtain ⟨it0, c1, hc⟩ := List.exists_cons_of_ne_nil hne
  have hcomb : stringsJoin (" ".toList ++ sepToken entropy ++ " ".toList)
      (c.map fun item => item.text) ≠ [] := by
    apply stringsJoin_ne_nil _ _ it0.text
    · rw [hc]; simp
    · exact htext it0 (by rw [hc]; simp)
  have hsplit := splitScan_joined (sepToken entropy) (sepToken_ne_nil entropy)
    (sepToken_no_space entropy) ((c.map fun item => item.text).map g)
    (by rw [hc]; simp)
    (by
      intro y hy
      simp only [List.map_map, List.mem_map, Function.comp] at hy
      obtain ⟨it, hit, rfl⟩ := hy
      exact hfree it hit)
    [] (by simp)
  rw [List.nil_append, List.map_map, List.forall₂_map_left_iff] at hsplit
  have hparts : List.Forall₂ (fun item part =>
      TrimSpace (horizontalWhitespaceRe_ReplaceAll part) =
        (fun x => TrimSpace (horizontalWhitespaceRe_ReplaceAll (g x))) item.text) c
      (splitScan (sepToken entropy) 0
        (stringsJoin (" ".toList ++ sepToken entropy ++ " ".toList)
          (c.map (g ∘ fun item => item.text)))) := by
    refine hsplit.imp ?_
    rintro item part ⟨a, b, ha, hb, rfl⟩
    exact clean_pad a b _ ha hb
  have hlen := hparts.length_eq
  refine ⟨_, ?_, storeParts_writes _ c _ r hparts hnd hin⟩
  unfold tryBatchTranslate
  simp only [GoogleTranslate, if_neg hcomb, hback, stringsSplit, if_neg (sepToken_ne_nil entropy),
    List.map_map]
  rw [if_neg (by rw [← hlen]; simp)]

/-- **C2.** Position preservation.  Let the backend translate a
separator-joined request item by item: for every token the run may draw and
every non-empty list of non-blank input texts, it answers the texts joined by
`" " + token + " "` with their translations `g` joined in the same way, and no
`g` of a non-blank input text contains a token.  Then `BatchTranslate` returns a list
of the input's length whose entry at every non-blank position `i` is
`g(texts[i])` with runs of spaces and tabs collapsed to one space and trimmed,
whatever chunks the texts were grouped into. -/
theorem BatchTranslate_position_preserved (backend : Str → Except String Str)
    (rnd : Nat → Nat) (g : Str → Str) (texts : List Str)
    (hbackend : ∀ (k : Nat) (xs : List Str), xs ≠ [] →
      (∀ x ∈ xs, x ∈ texts ∧ TrimSpace x ≠ []) →
      backend (stringsJoin (" ".toList ++ sepToken (rnd k) ++ " ".toList) xs) =
        .ok (stringsJoin (" ".toList ++ sepToken (rnd k) ++ " ".toList) (xs.map g)))
    (hg : ∀ (k : Nat), ∀ x ∈ texts, TrimSpace x ≠ [] → ¬ sepToken (rnd k) <:+: g x) :
    ∃ out, BatchTranslate backend rnd texts = some (.ok out) ∧ out.length = texts.length ∧
      ∀ (i : Nat) (hi : i < texts.length), TrimSpace texts[i] ≠ [] →
        out[i]? = some (TrimSpace (horizontalWhitespaceRe_ReplaceAll (g texts[i]))) := by
  apply BatchTranslate_writes backend rnd
    (fun x => TrimSpace (horizontalWhitespaceRe_ReplaceAll (g x))) texts
  intro c k r hne hQ hnd hin
  left
  apply tryBatchTranslate_itemwise backend (rnd k) g c r hne _ _ _ hnd hin
  · intro item hit h0
    have := (hQ item hit).2
    rw [h0] at this
    exact this (by decide)
  · apply hbackend k
    · intro h0
      exact hne (List.map_eq_nil_iff.mp h0)
    · intro x hx
      obtain ⟨it, hit, rfl⟩ := List.mem_map.mp hx
      exact hQ it hit
  · intro item hit
    exact hg k _ (hQ item hit).1 (hQ item hit).2

theorem map_stringsJoin (f : Char → Char) (sep : Str) :
    ∀ xs : List Str, (stringsJoin sep xs).map f = stringsJoin (sep.map f) (xs.map (List.map f)) := by
  intro xs
  induction xs with
  | nil => rfl
  | cons x xs ih =>
    cases xs with
    | nil => rfl
    | cons y rest =>
      simp only [stringsJoin, List.map_append, List.map_cons] at ih ⊢
      rw [ih]

/-- Position preservation at a concrete request: three texts, the second one
blank, and a backend that answers every request in upper case. -/
theorem BatchTranslate_position_preserved_witness :
    ∃ out, BatchTranslate (fun s => .ok (s.map Char.toUpper)) (fun _ => 0)
        ["hello".toList, "  ".toList, "wo  rld".toList] = some (.ok out) ∧
      out.length = 3 ∧ out[0]? = some "HELLO".toList ∧ out[2]? = some "WO RLD".toList := by
  obtain ⟨out, h1, h2, h3⟩ := BatchTranslate_position_preserved
    (fun s => .ok (s.map Char.toUpper)) (fun _ => 0) (List.map Char.toUpper)
    ["hello".toList, "  ".toList, "wo  rld".toList]
    (by
      intro k xs _ _
      have hsep : (" ".toList ++ sepToken 0 ++ " ".toList).map Char.toUpper =
          " ".toList ++ sepToken 0 ++ " ".toList := by decide
      show Except.ok ((stringsJoin (" ".toList ++ sepToken 0 ++ " ".toList) xs).map
        Char.toUpper) = _
      rw [map_stringsJoin, hsep])
    (by
      intro k x hx _
      simp only [List.mem_cons, List.mem_singleton, List.not_mem_nil, or_false] at hx
      show ¬ sepToken 0 <:+: List.map Char.toUpper x
      rcases hx with rfl | rfl | rfl <;> decide)
  exact ⟨out, h1, h2, h3 0 (by decide) (by decide), h3 2 (by decide) (by decide)⟩

/-! ## A backend that rejects every multiplexed request -/

theorem sep_infix_stringsJoin (sep x y : Str) (rest : List Str) :
    sep <:+: stringsJoin sep (x :: y :: rest) :=
  ⟨x, stringsJoin sep (y :: rest), by simp [stringsJoin]⟩

/-- **C3 (as amended).** Graceful degradation.  Let the backend fail on every
request that contains a separator token of the run and answer every non-blank
input text `x`, sent alone, with `g x`, where no such `g x` contains a
separator token.  Then `BatchTranslate` returns a list of the input's length whose entry
at every non-blank position `i` is `g(texts[i])` with runs of spaces and tabs
collapsed to one space and trimmed: the single-item chunk reached by halving
is translated by the batch attempt itself, with the batch clean-up. -/
theorem BatchTranslate_degrades_gracefully (backend : Str → Except String Str)
    (rnd : Nat → Nat) (g : Str → Str) (texts : List Str)
    (hmulti : ∀ (k : Nat) (s : Str), sepToken (rnd k) <:+: s → ∃ e, backend s = .error e)
    (hsingle : ∀ x ∈ texts, TrimSpace x ≠ [] → backend x = .ok (g x))
    (hg : ∀ (k : Nat), ∀ x ∈ texts, TrimSpace x ≠ [] → ¬ sepToken (rnd k) <:+: g x) :
    ∃ out, BatchTranslate backend rnd texts = some (.ok out) ∧ out.length = texts.length ∧
      ∀ (i : Nat) (hi : i < texts.length), TrimSpace texts[i] ≠ [] →
        out[i]? = some (TrimSpace (horizontalWhitespaceRe_ReplaceAll (g texts[i]))) := by
  apply BatchTranslate_writes backend rnd
    (fun x => TrimSpace (horizontalWhitespaceRe_ReplaceAll (g x))) texts
  intro c k r hne hQ hnd hin
  have htext : ∀ item ∈ c, item.text ≠ [] := by
    intro item hit h0
    have := (hQ item hit).2
    rw [h0] at this
    exact this (by decide)
  match c, hne with
  | [item], _ =>
    left
    apply tryBatchTranslate_itemwise backend (rnd k) g [item] r (by simp) htext _ _ hnd hin
    · have := hQ item (List.mem_singleton_self _)
      simpa [stringsJoin] using hsingle item.text this.1 this.2
    · intro it hit
      exact hg k _ (hQ it hit).1 (hQ it hit).2
  | item :: item1 :: rest, _ =>
    right
    refine ⟨?_, by simp⟩
    have htok : sepToken (rnd k) <:+:
        stringsJoin (" ".toList ++ sepToken (rnd k) ++ " ".toList)
          ((item :: item1 :: rest).map fun it => it.text) :=
      (show sepToken (rnd k) <:+: " ".toList ++ sepToken (rnd k) ++ " ".toList from
        ⟨" ".toList, " ".toList, rfl⟩).trans (sep_infix_stringsJoin _ _ _ _)
    obtain ⟨e, he⟩ := hmulti k _ htok
    have hcomb : stringsJoin (" ".toList ++ sepToken (rnd k) ++ " ".toList)
        ((item :: item1 :: rest).map fun it => it.text) ≠ [] := by
      intro h0
      rw [h0] at htok
      exact sepToken_ne_nil _ (List.eq_nil_of_infix_nil htok)
    unfold tryBatchTranslate
    simp only [GoogleTranslate, if_neg hcomb, he]

/-- Graceful degradation at a concrete request: a backend that rejects every
request holding the token and answers any other request in upper case. -/
theorem BatchTranslate_degrades_gracefully_witness :
    ∃ out, BatchTranslate
        (fun s => if sepToken 0 <:+: s then .error "multiplexed" else .ok (s.map Char.toUpper))
        (fun _ => 0) ["hello".toList, "  ".toList, "wo  rld".toList] = some (.ok out) ∧
      out.length = 3 ∧ out[0]? = some "HELLO".toList ∧ out[2]? = some "WO RLD".toList := by
  obtain ⟨out, h1, h2, h3⟩ := BatchTranslate_degrades_gracefully
    (fun s => if sepToken 0 <:+: s then .error "multiplexed" else .ok (s.map Char.toUpper))
    (fun _ => 0) (List.map Char.toUpper)
    ["hello".toList, "  ".toList, "wo  rld".toList]
    (by
      intro k s hs
      have hs0 : sepToken 0 <:+: s := hs
      exact ⟨"multiplexed", by simp only [if_pos hs0]⟩)
    (by
      intro x hx _
      simp only [List.mem_cons, List.mem_singleton, List.not_mem_nil, or_false] at hx
      rcases hx with rfl | rfl | rfl <;> rfl)
    (by
      intro k x hx _
      simp only [List.mem_cons, List.mem_singleton, List.not_mem_nil, or_false] at hx
      show ¬ sepToken 0 <:+: List.map Char.toUpper x
      rcases hx with rfl | rfl | rfl <;> decide)
  exact ⟨out, h1, h2, h3 0 (by decide) (by decide), h3 2 (by decide) (by decide)⟩

/-- **C3, counterexample.** The backend below fails on every request that
contains the separator token and answers every other request `x` with
`g x = "b  c"`.  For the single text `"a"` the result of `BatchTranslate` is
`"b c"`, the answer with its run of spaces collapsed, and not the trimmed
answer `"b  c"`. -/
theorem BatchTranslate_degraded_result_is_collapsed :
    (∀ (k : Nat) (s : Str), sepToken ((fun _ => 0) k) <:+: s →
      ∃ e, (fun s : Str => if sepToken 0 <:+: s then Except.error "multiplexed"
        else Except.ok "b  c".toList) s = .error e) ∧
    (∀ x ∈ ["a".toList], TrimSpace x ≠ [] →
      (fun s : Str => if sepToken 0 <:+: s then Except.error "multiplexed"
        else Except.ok "b  c".toList) x = .ok ((fun _ => "b  c".toList) x)) ∧
    BatchTranslate
      (fun s => if sepToken 0 <:+: s then .error "multiplexed" else .ok "b  c".toList)
      (fun _ => 0) ["a".toList] = some (.ok ["b c".toList]) ∧
    TrimSpace ((fun _ => "b  c".toList) "a".toList) = "b  c".toList ∧
    "b c".toList ≠ "b  c".toList := by
  refine ⟨?_, ?_, ?_, ?_, ?_⟩
  · intro k s hs
    have hs0 : sepToken 0 <:+: s := hs
    exact ⟨"multiplexed", by simp only [if_pos hs0]⟩
  · intro x hx _
    have : x = "a".toList := by simpa using hx
    subst this
    rfl
  · rfl
  · rfl
  · decide

/-! ## Timestamps of the dialogue-table dialect -/

theorem isReDigit_mem (c : Char) (h : isReDigit c = true) : c ∈ decimalDigits := by
  unfold isReDigit at h
  simp only [Bool.and_eq_true, decide_eq_true_eq] at h
  have h1 : 48 ≤ c.toNat := h.1
  have h2 : c.toNat ≤ 57 := h.2
  have hc := Char.ofNat_toNat c
  rw [← hc]
  interval_cases c.toNat <;> decide

theorem digit_ne_colon (c : Char) (h : isReDigit c = true) : c ≠ ':' ∧ c ≠ '.' := by
  have key : ∀ d ∈ decimalDigits, d ≠ ':' ∧ d ≠ '.' := by decide
  exact key c (isReDigit_mem c h)

theorem Atoi_one_digit : ∀ a ∈ decimalDigits,
    (Atoi [a]).2 = true ∧ fmtZeroPad 2 (Atoi [a]).1 = ['0', a] := by
  decide

theorem Atoi_two_digits : ∀ a ∈ decimalDigits, ∀ b ∈ decimalDigits,
    (Atoi [a, b]).2 = true ∧ fmtZeroPad 2 (Atoi [a, b]).1 = [a, b] ∧
      fmtZeroPad 3 (wrapInt ((Atoi [a, b]).1 * 10)) = [a, b, '0'] := by
  decide

theorem splitScan_char_field (c : Char) (t : Str) :
    ∀ a : Str, c ∉ a → splitScan [c] 0 (a ++ c :: t) = a :: splitScan [c] 0 t := by
  intro a ha
  have := splitScan_append_sep [c] t (by simp) a (by
    intro w hw hne hpre
    obtain ⟨x, w1, rfl⟩ := List.exists_cons_of_ne_nil hne
    rw [List.cons_append, List.cons_prefix_cons] at hpre
    apply ha
    rw [hpre.1]
    exact hw.subset (List.mem_cons_self _ _))
  simpa using this

theorem splitScan_char_last (c : Char) (a : Str) (ha : c ∉ a) : splitScan [c] 0 a = [a] := by
  apply splitScan_no_sep
  intro hin
  exact ha (hin.subset (List.mem_singleton_self c))

/-- The conversion of a timestamp `hh:MM:SS.cc` whose hour part `hh` is
parsed to a number that `%02d` prints as `hp`. -/
theorem assTimeToVTT_fields (hh hp : Str) (m1 m2 s1 s2 c1 c2 : Char)
    (hcolon : ':' ∉ hh) (hh2 : (Atoi hh).2 = true) (hhp : fmtZeroPad 2 (Atoi hh).1 = hp)
    (hm1 : isReDigit m1 = true) (hm2 : isReDigit m2 = true)
    (hs1 : isReDigit s1 = true) (hs2 : isReDigit s2 = true)
    (hc1 : isReDigit c1 = true) (hc2 : isReDigit c2 = true) :
    assTimeToVTT (hh ++ [':', m1, m2, ':', s1, s2, '.', c1, c2]) =
      hp ++ [':', m1, m2, ':', s1, s2, '.', c1, c2, '0'] := by
  have hparts : stringsSplit (hh ++ [':', m1, m2, ':', s1, s2, '.', c1, c2]) ":".toList =
      [hh, [m1, m2], [s1, s2, '.', c1, c2]] := by
    have e1 := splitScan_char_field ':' [m1, m2, ':', s1, s2, '.', c1, c2] hh hcolon
    have e2 := splitScan_char_field ':' [s1, s2, '.', c1, c2] [m1, m2]
      (by simp [(digit_ne_colon m1 hm1).1.symm, (digit_ne_colon m2 hm2).1.symm])
    have e3 := splitScan_char_last ':' [s1, s2, '.', c1, c2]
      (by simp [(digit_ne_colon s1 hs1).1.symm, (digit_ne_colon s2 hs2).1.symm,
        (digit_ne_colon c1 hc1).1.symm, (digit_ne_colon c2 hc2).1.symm])
    have hsep : (":".toList = []) = False := by simp
    simp only [stringsSplit, hsep, if_false]
    rw [show ":".toList = [':'] from rfl, e1]
    rw [show [m1, m2, ':', s1, s2, '.', c1, c2] = [m1, m2] ++ ':' :: [s1, s2, '.', c1, c2] from rfl,
      e2, e3]
  have hsec : stringsSplit [s1, s2, '.', c1, c2] ".".toList = [[s1, s2], [c1, c2]] := by
    have e1 := splitScan_char_field '.' [c1, c2] [s1, s2]
      (by simp [(digit_ne_colon s1 hs1).2.symm, (digit_ne_colon s2 hs2).2.symm])
    have e2 := splitScan_char_last '.' [c1, c2]
      (by simp [(digit_ne_colon c1 hc1).2.symm, (digit_ne_colon c2 hc2).2.symm])
    have hsep : (".".toList = []) = False := by simp
    simp only [stringsSplit, hsep, if_false]
    rw [show ".".toList = ['.'] from rfl,
      show [s1, s2, '.', c1, c2] = [s1, s2] ++ '.' :: [c1, c2] from rfl, e1, e2]
  obtain ⟨hmok, hmfmt, _⟩ := Atoi_two_digits m1 (isReDigit_mem m1 hm1) m2 (isReDigit_mem m2 hm2)
  obtain ⟨hsok, hsfmt, _⟩ := Atoi_two_digits s1 (isReDigit_mem s1 hs1) s2 (isReDigit_mem s2 hs2)
  obtain ⟨_, _, hcfmt⟩ := Atoi_two_digits c1 (isReDigit_mem c1 hc1) c2 (isReDigit_mem c2 hc2)
  unfold assTimeToVTT
  simp only [hparts, hsec, List.length_cons, List.length_nil, List.getD_cons_zero,
    List.getD_cons_succ, hh2, hmok, hsok, hhp, hmfmt, hsfmt]
  simp
  exact hcfmt

/-- The conversion of `H:MM:SS.cc` and of `HH:MM:SS.cc`. -/
theorem assTimeToVTT_hour_forms (h1 h2 m1 m2 s1 s2 c1 c2 : Char)
    (hh1 : isReDigit h1 = true) (hh2 : isReDigit h2 = true)
    (hm1 : isReDigit m1 = true) (hm2 : isReDigit m2 = true)
    (hs1 : isReDigit s1 = true) (hs2 : isReDigit s2 = true)
    (hc1 : isReDigit c1 = true) (hc2 : isReDigit c2 = true) :
    assTimeToVTT [h2, ':', m1, m2, ':', s1, s2, '.', c1, c2] =
        ['0', h2, ':', m1, m2, ':', s1, s2, '.', c1, c2, '0'] ∧
      assTimeToVTT [h1, h2, ':', m1, m2, ':', s1, s2, '.', c1, c2] =
        [h1, h2, ':', m1, m2, ':', s1, s2, '.', c1, c2, '0'] := by
  obtain ⟨ha, hb⟩ := Atoi_one_digit h2 (isReDigit_mem h2 hh2)
  obtain ⟨hc, hd, _⟩ := Atoi_two_digits h1 (isReDigit_mem h1 hh1) h2 (isReDigit_mem h2 hh2)
  refine ⟨?_, ?_⟩
  · exact assTimeToVTT_fields [h2] ['0', h2] m1 m2 s1 s2 c1 c2
      (by simp [(digit_ne_colon h2 hh2).1.symm]) ha hb hm1 hm2 hs1 hs2 hc1 hc2
  · exact assTimeToVTT_fields [h1, h2] [h1, h2] m1 m2 s1 s2 c1 c2
      (by simp [(digit_ne_colon h1 hh1).1.symm, (digit_ne_colon h2 hh2).1.symm])
      hc hd hm1 hm2 hs1 hs2 hc1 hc2

/-- **C10.** Centisecond conversion: for every dialogue-table timestamp
`H:MM:SS.cc` or `HH:MM:SS.cc` (decimal digits throughout), `assTimeToVTT`
returns `HH:MM:SS.mmm` with the hour padded with a zero to two digits, minutes
and seconds unchanged, and `mmm` the centiseconds times ten on three digits,
which is the two centisecond digits followed by `0`; `1:02:03.45` becomes
`01:02:03.450`. -/
theorem assTimeToVTT_centiseconds (h1 h2 m1 m2 s1 s2 c1 c2 : Char)
    (hh1 : isReDigit h1 = true) (hh2 : isReDigit h2 = true)
    (hm1 : isReDigit m1 = true) (hm2 : isReDigit m2 = true)
    (hs1 : isReDigit s1 = true) (hs2 : isReDigit s2 = true)
    (hc1 : isReDigit c1 = true) (hc2 : isReDigit c2 = true) :
    assTimeToVTT [h2, ':', m1, m2, ':', s1, s2, '.', c1, c2] =
        ['0', h2, ':', m1, m2, ':', s1, s2, '.', c1, c2, '0'] ∧
      assTimeToVTT [h1, h2, ':', m1, m2, ':', s1, s2, '.', c1, c2] =
        [h1, h2, ':', m1, m2, ':', s1, s2, '.', c1, c2, '0'] ∧
      assTimeToVTT "1:02:03.45".toList = "01:02:03.450".toList :=
  ⟨(assTimeToVTT_hour_forms h1 h2 m1 m2 s1 s2 c1 c2 hh1 hh2 hm1 hm2 hs1 hs2 hc1 hc2).1,
    (assTimeToVTT_hour_forms h1 h2 m1 m2 s1 s2 c1 c2 hh1 hh2 hm1 hm2 hs1 hs2 hc1 hc2).2,
    by decide⟩

/-- The centisecond conversion at the digits of `2:02:03.45` and `12:02:03.45`. -/
theorem assTimeToVTT_centiseconds_witness :
    assTimeToVTT "2:02:03.45".toList = "02:02:03.450".toList ∧
      assTimeToVTT "12:02:03.45".toList = "12:02:03.450".toList ∧
      assTimeToVTT "1:02:03.45".toList = "01:02:03.450".toList :=
  assTimeToVTT_centiseconds '1' '2' '0' '2' '0' '3' '4' '5'
    (by decide) (by decide) (by decide) (by decide) (by decide) (by decide) (by decide)
    (by decide)

/-- A dialogue-table timestamp is converted to a canonical one. -/
theorem assTimeToVTT_canonical (t : Str) (h : isAssTime t = true) :
    isCanonicalTime (assTimeToVTT t) = true := by
  unfold isAssTime at h
  split at h
  · rename_i h2 c1 m1 m2 c2 s1 s2 dot f1 f2
    simp only [Bool.and_eq_true, decide_eq_true_eq] at h
    obtain ⟨⟨⟨⟨⟨⟨⟨⟨⟨a1, a2⟩, a3⟩, a4⟩, a5⟩, a6⟩, a7⟩, a8⟩, a9⟩, a10⟩ := h
    subst a2 a5 a8
    rw [(assTimeToVTT_hour_forms h2 h2 m1 m2 s1 s2 f1 f2 a1 a1 a3 a4 a6 a7 a9 a10).1]
    simp [isCanonicalTime, a1, a3, a4, a6, a7, a9, a10]
    decide
  · rename_i h1 h2 c1 m1 m2 c2 s1 s2 dot f1 f2
    simp only [Bool.and_eq_true, decide_eq_true_eq] at h
    obtain ⟨⟨⟨⟨⟨⟨⟨⟨⟨⟨a0, a1⟩, a2⟩, a3⟩, a4⟩, a5⟩, a6⟩, a7⟩, a8⟩, a9⟩, a10⟩ := h
    subst a2 a5 a8
    rw [(assTimeToVTT_hour_forms h1 h2 m1 m2 s1 s2 f1 f2 a0 a1 a3 a4 a6 a7 a9 a10).2]
    simp [isCanonicalTime, a0, a1, a3, a4, a6, a7, a9, a10]
    decide
  · simp at h

/-! ## The record pattern of the dialogue-table dialect -/

theorem reField_spec (s f rest : Str) (h : reField s = some (f, rest)) :
    s = f ++ ',' :: rest ∧ ',' ∉ f := by
  unfold reField at h
  split at h
  · simp at h
  · rename_i x tail heq
    simp only [Option.some.injEq, Prod.mk.injEq] at h
    obtain ⟨hf, hr⟩ := h
    subst hr
    have hx : x = ',' := by
      have := List.head_dropWhile_not (fun c => c != ',') s (by rw [heq]; simp)
      simp only [heq, List.head_cons] at this
      simpa using this
    subst hx
    refine ⟨?_, ?_⟩
    · rw [← hf, ← heq]
      exact (List.takeWhile_append_dropWhile _ s).symm
    · rw [← hf]
      intro hmem
      have := List.mem_takeWhile_imp hmem
      simp at this

theorem reDigitField_spec (s f rest : Str) (h : reDigitField s = some (f, rest)) :
    s = f ++ ',' :: rest ∧ ',' ∉ f := by
  unfold reDigitField at h
  split at h
  · simp at h
  · split at h
    · exact reField_spec _ f rest h
    · simp at h

/-- What a match of the record pattern looks like: the first group is three
comma-free fields, each followed by a comma, at the start of the line, and the
second group is the end of the line. -/
theorem assDialogueRe_shape (s pfx text : Str) (h : assDialogueRe s = some (pfx, text)) :
    ∃ a f2 f3 mid : Str, ',' ∉ a ∧ ',' ∉ f2 ∧ ',' ∉ f3 ∧
      pfx = a ++ ',' :: (f2 ++ ',' :: (f3 ++ [','])) ∧ s = pfx ++ (mid ++ text) := by
  unfold assDialogueRe at h
  split at h
  · rename_i hpre
    simp only at h
    split at h
    · simp at h
    · rename_i hlayer
      split at h
      · simp at h
      · rename_i c s3 hs3
        split at h
        · simp at h
        · rename_i hc
          have hc1 : c = ',' := by simpa using hc
          subst hc1
          split at h
          · simp at h
          · rename_i f2 s4 h2
            split at h
            · simp at h
            · rename_i f3 s5 h3
              split at h
              · simp at h
              · rename_i f4 s6 h4
                split at h
                · simp at h
                · rename_i f5 s7 h5
                  split at h
                  · simp at h
                  · rename_i f6 s8 h6
                    split at h
                    · simp at h
                    · rename_i f7 s9 h7
                      split at h
                      · simp at h
                      · rename_i f8 txt h8
                        split at h
                        · simp at h
                        · simp only [Option.some.injEq, Prod.mk.injEq] at h
                          obtain ⟨hp, ht⟩ := h
                          subst ht
                          obtain ⟨e2, n2⟩ := reDigitField_spec _ _ _ h2
                          obtain ⟨e3, n3⟩ := reDigitField_spec _ _ _ h3
                          obtain ⟨e4, _⟩ := reField_spec _ _ _ h4
                          obtain ⟨e5, _⟩ := reField_spec _ _ _ h5
                          obtain ⟨e6, _⟩ := reField_spec _ _ _ h6
                          obtain ⟨e7, _⟩ := reField_spec _ _ _ h7
                          obtain ⟨e8, _⟩ := reField_spec _ _ _ h8
                          rw [List.isPrefixOf_iff_prefix] at hpre
                          obtain ⟨s1, hs1⟩ := hpre
                          have hdrop : s.drop "Dialogue:".toList.length = s1 := by
                            rw [← hs1]
                            exact List.drop_left _ _
                          rw [hdrop] at hs3 hp
                          refine ⟨"Dialogue:".toList ++ s1.takeWhile isReSpace ++
                            (s1.dropWhile isReSpace).takeWhile isReDigit, f2, f3,
                            f4 ++ ',' :: (f5 ++ ',' :: (f6 ++ ',' :: (f7 ++ ',' :: (f8 ++ [','])))),
                            ?_, n2, n3, ?_, ?_⟩
                          · intro hmem
                            rcases List.mem_append.mp hmem with hm | hm
                            · rcases List.mem_append.mp hm with hm1 | hm1
                              · revert hm1; decide
                              · have := List.mem_takeWhile_imp hm1
                                revert this; decide
                            · have := List.mem_takeWhile_imp hm
                              revert this; decide
                          · rw [← hp]
                            simp
                          · have hs2 : s1 = s1.takeWhile isReSpace ++
                                ((s1.dropWhile isReSpace).takeWhile isReDigit ++ ',' :: s3) := by
                              rw [← hs3, List.takeWhile_append_dropWhile,
                                List.takeWhile_append_dropWhile]
                            rw [← hs1, ← hp]
                            conv_lhs => rw [hs2, e2, e3, e4, e5, e6, e7, e8]
                            simp
  · simp at h

/-! ## Dialogue-table parsing -/

/-- The fields read by `parseDialogueLine` from the first group are the second
and third comma-separated fields of the whole line. -/
theorem prefix_fields (s pfx text : Str) (h : assDialogueRe s = some (pfx, text)) :
    3 ≤ (stringsSplit pfx ",".toList).length ∧
      (stringsSplit pfx ",".toList).getD 1 [] = (stringsSplit s ",".toList).getD 1 [] ∧
      (stringsSplit pfx ",".toList).getD 2 [] = (stringsSplit s ",".toList).getD 2 [] ∧
      text <:+ s := by
  obtain ⟨a, f2, f3, mid, ha, h2, h3, hp, hs⟩ := assDialogueRe_shape s pfx text h
  have hsep : (",".toList = []) = False := by simp
  have e1 : stringsSplit pfx ",".toList = [a, f2, f3, []] := by
    simp only [stringsSplit, hsep, if_false]
    rw [show ",".toList = [','] from rfl, hp, splitScan_char_field ',' _ a ha,
      splitScan_char_field ',' _ f2 h2, splitScan_char_field ',' _ f3 h3]
    rfl
  have e2 : stringsSplit s ",".toList =
      a :: f2 :: f3 :: splitScan [','] 0 (mid ++ text) := by
    simp only [stringsSplit, hsep, if_false]
    rw [show ",".toList = [','] from rfl, hs, hp]
    simp only [List.append_assoc, List.cons_append, List.nil_append]
    rw [splitScan_char_field ',' _ a ha, splitScan_char_field ',' _ f2 h2,
      splitScan_char_field ',' _ f3 h3]
  rw [e1, e2]
  refine ⟨by simp, rfl, rfl, ?_⟩
  rw [hs, ← List.append_assoc]
  exact List.suffix_append _ _

/-- **C6 (as amended).** Dialogue-table field extraction: for every line that
the record pattern accepts (after trimming), the parser takes start and end
from the second and third comma-separated fields of the line, trimmed, and
takes as text the trailing text captured by the pattern, which is the end of
the line, with brace-delimited override codes removed, the escapes `\N` and
`\n` turned into line breaks (the spaces next to them are kept) and the result
trimmed; the record yields a cue exactly when that text is not empty.  For the
scenario line this yields exactly one cue, whose start and end are written as
`00:00:01.000` and `00:00:03.000` and whose text ends in `"Hello\n world"`. -/
theorem parseDialogueLine_extracts (line pfx text : Str)
    (hm : assDialogueRe (TrimSpace line) = some (pfx, text)) :
    parseDialogueLine line =
        (if cleanAssText text ≠ [] then
          some ⟨TrimSpace ((stringsSplit (TrimSpace line) ",".toList).getD 1 []),
            TrimSpace ((stringsSplit (TrimSpace line) ",".toList).getD 2 []),
            cleanAssText text⟩
        else none) ∧
      text <:+ TrimSpace line ∧
      ∃ d, parseDialogues
          "Dialogue: 0,0:00:01.00,0:00:03.00,Default,,0,0,0,,\x7b\\i1\x7dHello\\N world\x7b\\i0\x7d".toList =
            [d] ∧
        assTimeToVTT d.start = "00:00:01.000".toList ∧
        assTimeToVTT d.stop = "00:00:03.000".toList ∧
        "Hello\n world".toList <:+ d.text := by
  obtain ⟨hlen, h1, h2, hsuf⟩ := prefix_fields _ pfx text hm
  refine ⟨?_, hsuf, ⟨"0:00:01.00".toList, "0:00:03.00".toList, ",Hello\n world".toList⟩,
    by rfl, by rfl, by rfl, ⟨",".toList, rfl⟩⟩
  unfold parseDialogueLine
  rw [hm]
  simp only [ge_iff_le, hlen, if_true, h1, h2, cleanAssText]

/-- The field extraction at the scenario line. -/
theorem parseDialogueLine_extracts_witness :
    parseDialogueLine
        "Dialogue: 0,0:00:01.00,0:00:03.00,Default,,0,0,0,,\x7b\\i1\x7dHello\\N world\x7b\\i0\x7d".toList =
      some ⟨"0:00:01.00".toList, "0:00:03.00".toList, ",Hello\n world".toList⟩ := by
  have h := (parseDialogueLine_extracts
    "Dialogue: 0,0:00:01.00,0:00:03.00,Default,,0,0,0,,\x7b\\i1\x7dHello\\N world\x7b\\i0\x7d".toList
    "Dialogue: 0,0:00:01.00,0:00:03.00,".toList ",\x7b\\i1\x7dHello\\N world\x7b\\i0\x7d".toList
    (by rfl)).1
  rw [h]
  rfl

/-- **C6, counterexample.** For the scenario line the parser yields one cue
whose text is `",Hello\n world"`: the pattern has eight comma-terminated
fields in front of the captured text, so the capture begins with the comma
that ends the ninth field, and the space after `\N` is kept.  The text is not
`"Hello\nworld"`. -/
theorem parseDialogues_scenario_text :
    parseDialogues
        "Dialogue: 0,0:00:01.00,0:00:03.00,Default,,0,0,0,,\x7b\\i1\x7dHello\\N world\x7b\\i0\x7d".toList =
      [⟨"0:00:01.00".toList, "0:00:03.00".toList, ",Hello\n world".toList⟩] ∧
    ",Hello\n world".toList ≠ "Hello\nworld".toList ∧
    cleanAssText "\x7b\\i1\x7dHello\\N world\x7b\\i0\x7d".toList = "Hello\n world".toList ∧
    "Hello\n world".toList ≠ "Hello\nworld".toList := by
  refine ⟨by rfl, by decide, by rfl, by decide⟩

/-! ## Dialogue-table output -/

theorem stringsJoin_terminated (sep : Str) :
    ∀ lines : List Str, lines ≠ [] →
      stringsJoin sep lines ++ sep = (lines.map fun l => l ++ sep).flatten := by
  intro lines
  induction lines with
  | nil => intro h; exact absurd rfl h
  | cons l rest ih =>
    intro _
    cases rest with
    | nil => simp [stringsJoin]
    | cons l1 rest1 =>
      have := ih (by simp)
      simp only [stringsJoin, List.map_cons, List.flatten_cons, List.append_assoc] at this ⊢
      rw [this]

theorem vttCueLines_blocks (translated : List Str) (ds : List assDialogue) :
    ∀ i : Nat, ((vttCueLines translated i ds).map fun l => l ++ "\n".toList).flatten =
      specCueBlocks translated i ds := by
  induction ds with
  | nil => intro i; rfl
  | cons d ds ih =>
    intro i
    simp only [vttCueLines, specCueBlocks, List.map_append, List.map_cons, List.map_nil,
      List.flatten_append, List.flatten_cons, List.flatten_nil, ih]
    simp

theorem vttCueLines_timing (translated : List Str) (ds : List assDialogue) :
    ∀ (k i : Nat) (hi : i < ds.length),
      (vttCueLines translated k ds)[4 * i + 1]? =
        some (assTimeToVTT ds[i].start ++ " --> ".toList ++ assTimeToVTT ds[i].stop) := by
  induction ds with
  | nil => intro k i hi; simp at hi
  | cons d ds ih =>
    intro k i hi
    cases i with
    | zero => simp [vttCueLines]
    | succ i =>
      have hi1 : i < ds.length := by simpa using hi
      have := ih (k + 1) i hi1
      simp only [vttCueLines, List.getElem_cons_succ]
      rw [show 4 * (i + 1) + 1 = (4 * i + 1) + 4 by ring]
      rw [List.getElem?_append_right (by simp)]
      simpa using this

/-- `TranslateASSToVTT` with at least one retained cue returns the joined
`vttLines` built from the result of `BatchTranslate` on the cue texts. -/
theorem TranslateASSToVTT_retained (backend : Str → Except String Str) (rnd : Nat → Nat)
    (content : Str) (hne : parseDialogues content ≠ []) :
    ∃ translated,
      BatchTranslate backend rnd ((parseDialogues content).map fun d => d.text) =
        some (.ok translated) ∧
      translated.length = (parseDialogues content).length ∧
      TranslateASSToVTT backend rnd content =
        some (.ok (stringsJoin "\n".toList (assVTTLines translated (parseDialogues content)))) := by
  obtain ⟨out, h1, h2, _⟩ := BatchTranslate_frame backend rnd
    ((parseDialogues content).map fun d => d.text)
  refine ⟨out, h1, by simpa using h2, ?_⟩
  unfold TranslateASSToVTT
  have hlen : ¬ (parseDialogues content).length = 0 := by
    intro h0
    exact hne (List.length_eq_zero.mp h0)
  simp only [hlen, if_false, h1]

/-- **C7 (as amended).** Dialogue-table output structure: for every input
with at least one retained cue and every backend, `TranslateASSToVTT` returns
a text which, followed by one more line feed, is `"WEBVTT\n\n"` followed, for
the cues in their order of appearance and numbered from 1, by the block
`"<i>\n<start_i> --> <end_i>\n<text_i>\n\n"`, where `text_i` is the entry of
the result of `BatchTranslate` for cue `i`.  So the blocks are separated by a
blank line and the output ends with the single line feed after the last text;
for a one-record input it is `"WEBVTT\n\n1\n<start> --> <end>\n<text>\n"`. -/
theorem TranslateASSToVTT_output_structure (backend : Str → Except String Str)
    (rnd : Nat → Nat) (content : Str) (hne : parseDialogues content ≠ []) :
    ∃ translated out,
      BatchTranslate backend rnd ((parseDialogues content).map fun d => d.text) =
        some (.ok translated) ∧
      translated.length = (parseDialogues content).length ∧
      TranslateASSToVTT backend rnd content = some (.ok out) ∧
      out ++ "\n".toList =
        "WEBVTT\n\n".toList ++ specCueBlocks translated 0 (parseDialogues content) := by
  obtain ⟨translated, h1, h2, h3⟩ := TranslateASSToVTT_retained backend rnd content hne
  refine ⟨translated, _, h1, h2, h3, ?_⟩
  rw [stringsJoin_terminated _ _ (by simp [assVTTLines])]
  simp only [assVTTLines, List.map_append, List.flatten_append, vttCueLines_blocks]
  rfl

/-- The output structure at the scenario input with a backend that answers in
upper case. -/
theorem TranslateASSToVTT_output_structure_witness :
    ∃ translated out,
      BatchTranslate (fun s => .ok (s.map Char.toUpper)) (fun _ => 0)
        ((parseDialogues
          "Dialogue: 0,0:00:01.00,0:00:03.00,Default,,0,0,0,,\x7b\\i1\x7dHello\\N world\x7b\\i0\x7d".toList).map
            fun d => d.text) = some (.ok translated) ∧
      translated.length = (parseDialogues
        "Dialogue: 0,0:00:01.00,0:00:03.00,Default,,0,0,0,,\x7b\\i1\x7dHello\\N world\x7b\\i0\x7d".toList).length ∧
      TranslateASSToVTT (fun s => .ok (s.map Char.toUpper)) (fun _ => 0)
        "Dialogue: 0,0:00:01.00,0:00:03.00,Default,,0,0,0,,\x7b\\i1\x7dHello\\N world\x7b\\i0\x7d".toList =
          some (.ok out) ∧
      out ++ "\n".toList =
        "WEBVTT\n\n".toList ++ specCueBlocks translated 0 (parseDialogues
          "Dialogue: 0,0:00:01.00,0:00:03.00,Default,,0,0,0,,\x7b\\i1\x7dHello\\N world\x7b\\i0\x7d".toList) :=
  TranslateASSToVTT_output_structure (fun s => .ok (s.map Char.toUpper)) (fun _ => 0)
    "Dialogue: 0,0:00:01.00,0:00:03.00,Default,,0,0,0,,\x7b\\i1\x7dHello\\N world\x7b\\i0\x7d".toList
    (by decide)

set_option maxRecDepth 100000 in
/-- **C7, counterexample.** For the scenario input and a backend that answers
`"Halo dunia"` the output is the header and one block that ends with a single
line feed; it does not begin with (and is shorter than) the header followed by
the block `"1\n00:00:01.000 --> 00:00:03.000\nHalo dunia\n\n"`. -/
theorem TranslateASSToVTT_scenario_output :
    TranslateASSToVTT (fun _ => .ok "Halo dunia".toList) (fun _ => 0)
        "Dialogue: 0,0:00:01.00,0:00:03.00,Default,,0,0,0,,\x7b\\i1\x7dHello\\N world\x7b\\i0\x7d".toList =
      some (.ok "WEBVTT\n\n1\n00:00:01.000 --> 00:00:03.000\nHalo dunia\n".toList) ∧
    "WEBVTT\n\n".toList ++ specCueBlocks ["Halo dunia".toList] 0 (parseDialogues
        "Dialogue: 0,0:00:01.00,0:00:03.00,Default,,0,0,0,,\x7b\\i1\x7dHello\\N world\x7b\\i0\x7d".toList) =
      "WEBVTT\n\n1\n00:00:01.000 --> 00:00:03.000\nHalo dunia\n\n".toList ∧
    ¬ "WEBVTT\n\n1\n00:00:01.000 --> 00:00:03.000\nHalo dunia\n\n".toList <+:
      "WEBVTT\n\n1\n00:00:01.000 --> 00:00:03.000\nHalo dunia\n".toList := by
  refine ⟨by rfl, by rfl, ?_⟩
  intro h
  have := h.length_le
  revert this
  decide

set_option maxRecDepth 100000 in
/-- **C8, the code at the failing input.** The record
`Dialogue: 0,0:00:01.00,0:00:03.00,Default,,0,0,0,,{\an8}` has an empty text
field after clean-up, yet the parser retains a cue for it, with the text `","`:
the pattern captures the text from the comma that ends the ninth field.  The
output is not `"WEBVTT\n\n"`, and it changes with the backend, which is
therefore called. -/
theorem TranslateASSToVTT_empty_record_retained :
    cleanAssText "\x7b\\an8\x7d".toList = [] ∧
    parseDialogues "Dialogue: 0,0:00:01.00,0:00:03.00,Default,,0,0,0,,\x7b\\an8\x7d".toList =
      [⟨"0:00:01.00".toList, "0:00:03.00".toList, ",".toList⟩] ∧
    TranslateASSToVTT (fun _ => .error "unavailable") (fun _ => 0)
        "Dialogue: 0,0:00:01.00,0:00:03.00,Default,,0,0,0,,\x7b\\an8\x7d".toList =
      some (.ok "WEBVTT\n\n1\n00:00:01.000 --> 00:00:03.000\n,\n".toList) ∧
    TranslateASSToVTT (fun _ => .ok "X".toList) (fun _ => 0)
        "Dialogue: 0,0:00:01.00,0:00:03.00,Default,,0,0,0,,\x7b\\an8\x7d".toList =
      some (.ok "WEBVTT\n\n1\n00:00:01.000 --> 00:00:03.000\nX\n".toList) := by
  refine ⟨by rfl, by rfl, by rfl, by rfl⟩

/-- **C9 (as amended).** Canonical timestamps in dialogue-table output: for
every input, every backend and every retained dialogue record whose start and
end fields are dialogue-table timestamps `H:MM:SS.cc` (hours of one or two
digits, two-digit minutes, seconds and centiseconds), the timing line of the
record in the output of `TranslateASSToVTT` (line `4 i + 3` of the joined
lines for the record with index `i`) is `a --> b` with both `a` and `b` of the
canonical form `HH:MM:SS.mmm`. -/
theorem TranslateASSToVTT_canonical_timing (backend : Str → Except String Str)
    (rnd : Nat → Nat) (content : Str) (i : Nat) (hi : i < (parseDialogues content).length)
    (hstart : isAssTime (parseDialogues content)[i].start = true)
    (hstop : isAssTime (parseDialogues content)[i].stop = true) :
    ∃ translated a b,
      TranslateASSToVTT backend rnd content =
        some (.ok (stringsJoin "\n".toList (assVTTLines translated (parseDialogues content)))) ∧
      (assVTTLines translated (parseDialogues content))[4 * i + 3]? =
        some (a ++ " --> ".toList ++ b) ∧
      isCanonicalTime a = true ∧ isCanonicalTime b = true := by
  have hne : parseDialogues content ≠ [] := by
    intro h0
    rw [h0] at hi
    simp at hi
  obtain ⟨translated, _, _, h3⟩ := TranslateASSToVTT_retained backend rnd content hne
  refine ⟨translated, assTimeToVTT (parseDialogues content)[i].start,
    assTimeToVTT (parseDialogues content)[i].stop, h3, ?_,
    assTimeToVTT_canonical _ hstart, assTimeToVTT_canonical _ hstop⟩
  have := vttCueLines_timing translated (parseDialogues content) 0 i hi
  unfold assVTTLines
  rw [show 4 * i + 3 = (4 * i + 1) + 2 by ring, List.getElem?_append_right (by simp)]
  simpa using this

set_option maxRecDepth 100000 in
/-- The canonical timing line at the scenario input. -/
theorem TranslateASSToVTT_canonical_timing_witness :
    ∃ translated a b,
      TranslateASSToVTT (fun _ => .error "unavailable") (fun _ => 0)
          "Dialogue: 0,0:00:01.00,0:00:03.00,Default,,0,0,0,,\x7b\\i1\x7dHello\\N world\x7b\\i0\x7d".toList =
        some (.ok (stringsJoin "\n".toList (assVTTLines translated (parseDialogues
          "Dialogue: 0,0:00:01.00,0:00:03.00,Default,,0,0,0,,\x7b\\i1\x7dHello\\N world\x7b\\i0\x7d".toList)))) ∧
      (assVTTLines translated (parseDialogues
        "Dialogue: 0,0:00:01.00,0:00:03.00,Default,,0,0,0,,\x7b\\i1\x7dHello\\N world\x7b\\i0\x7d".toList))[4 * 0 + 3]? =
          some (a ++ " --> ".toList ++ b) ∧
      isCanonicalTime a = true ∧ isCanonicalTime b = true :=
  TranslateASSToVTT_canonical_timing (fun _ => .error "unavailable") (fun _ => 0)
    "Dialogue: 0,0:00:01.00,0:00:03.00,Default,,0,0,0,,\x7b\\i1\x7dHello\\N world\x7b\\i0\x7d".toList 0
    (by decide) (by rfl) (by rfl)

set_option maxRecDepth 100000 in
/-- **C9, counterexample.** The record pattern accepts a record whose start
field has millisecond precision and whose end field has two colon-separated
parts.  Its timing line in the output is `00:00:01.1230 --> 1:00`: the start
is printed with four fractional digits, the end is returned unchanged, and
neither is of the form `HH:MM:SS.mmm`. -/
theorem TranslateASSToVTT_noncanonical_timing :
    parseDialogues "Dialogue: 0,0:00:01.123,1:00,Default,,0,0,0,,Hi".toList =
      [⟨"0:00:01.123".toList, "1:00".toList, ",Hi".toList⟩] ∧
    TranslateASSToVTT (fun _ => .error "unavailable") (fun _ => 0)
        "Dialogue: 0,0:00:01.123,1:00,Default,,0,0,0,,Hi".toList =
      some (.ok "WEBVTT\n\n1\n00:00:01.1230 --> 1:00\n,Hi\n".toList) ∧
    isCanonicalTime "00:00:01.1230".toList = false ∧
    isCanonicalTime "1:00".toList = false := by
  refine ⟨by rfl, by rfl, by rfl, by rfl⟩

/-! ## Chunk construction: greedy boundaries -/

theorem buildChunksLoop_greedy (items : List indexedText) :
    ∀ (chunks : List (List indexedText)) (current : List indexedText) (currentChars : Nat),
      List.Chain' boundaryForced chunks →
      (∀ x ∈ chunks.getLast?, boundaryForced x current) →
      (∀ c ∈ chunks, c.length ≤ chunkSize) →
      current.length ≤ chunkSize →
      currentChars = chunkChars current →
      (current = [] → chunks = []) →
      List.Chain' boundaryForced (buildChunksLoop items chunks current currentChars) ∧
        ∀ c ∈ buildChunksLoop items chunks current currentChars, c.length ≤ chunkSize := by
  induction items with
  | nil =>
    intro chunks current currentChars hchain hlast hlen hcur _ _
    simp only [buildChunksLoop]
    split
    · refine ⟨?_, ?_⟩
      · rw [List.chain'_append]
        refine ⟨hchain, List.chain'_singleton _, ?_⟩
        intro x hx y hy
        have : y = current := by simpa using hy.symm
        rw [this]
        exact hlast x hx
      · intro c hc
        rcases List.mem_append.mp hc with h | h
        · exact hlen c h
        · have : c = current := by simpa using h
          rw [this]; exact hcur
    · exact ⟨hchain, hlen⟩
  | cons item items ih =>
    intro chunks current currentChars hchain hlast hlen hcur hsum hnil
    simp only [buildChunksLoop]
    by_cases hflush :
        (decide (current.length > 0) &&
          (decide (current.length ≥ chunkSize) ||
            decide (currentChars + item.text.length > maxChunkChars))) = true
    · rw [if_pos hflush]
      dsimp only
      simp only [Bool.and_eq_true, Bool.or_eq_true, decide_eq_true_eq] at hflush
      obtain ⟨hpos, hwhy⟩ := hflush
      apply ih
      · rw [List.chain'_append]
        refine ⟨hchain, List.chain'_singleton _, ?_⟩
        intro x hx y hy
        have : y = current := by simpa using hy.symm
        rw [this]
        exact hlast x hx
      · intro x hx
        rw [List.getLast?_concat] at hx
        have hx1 : x = current := by simpa using hx.symm
        rw [hx1]
        rcases hwhy with h | h
        · left
          omega
        · right
          refine ⟨item, by simp, ?_⟩
          rw [← hsum]
          exact h
      · intro c hc
        rcases List.mem_append.mp hc with h | h
        · exact hlen c h
        · have : c = current := by simpa using h
          rw [this]; exact hcur
      · simp [chunkSize]
      · simp [chunkChars]
      · intro h
        simp at h
    · rw [if_neg hflush]
      dsimp only
      simp only [Bool.and_eq_true, Bool.or_eq_true, decide_eq_true_eq, not_and, not_or,
        not_le, not_lt] at hflush
      apply ih _ _ _ hchain
      · intro x hx
        have hne : chunks ≠ [] := by
          intro h0
          rw [h0] at hx
          simp at hx
        have hcne : current ≠ [] := fun h0 => hne (hnil h0)
        rcases hlast x hx with h | ⟨it, hit, hgt⟩
        · left; exact h
        · right
          refine ⟨it, ?_, hgt⟩
          rw [List.head?_append_of_ne_nil _ hcne]
          exact hit
      · exact hlen
      · rw [List.length_append, List.length_singleton]
        by_cases h0 : current.length > 0
        · have := (hflush h0).1
          omega
        · have : current.length = 0 := by omega
          rw [this]
          simp [chunkSize]
      · simp only [chunkChars_append, chunkChars_singleton, hsum]
      · intro h
        simp at h

/-- **C19.** Greedy chunking: for every list of items, every chunk produced
by `buildChunks` has at most 80 items, and for each pair of consecutive chunks
either the earlier chunk has exactly 80 items or its total code-point count
plus the code-point count of the first item of the next chunk exceeds 1800. -/
theorem buildChunks_greedy (items : List indexedText) :
    (∀ chunk ∈ buildChunks items, chunk.length ≤ 80) ∧
      List.Chain'
        (fun c d : List indexedText =>
          c.length = 80 ∨ ∃ item, d.head? = some item ∧ 1800 < chunkChars c + item.text.length)
        (buildChunks items) := by
  have h := buildChunksLoop_greedy items [] [] 0 List.chain'_nil (by simp) (by simp)
    (by simp) (by simp [chunkChars]) (fun _ => rfl)
  exact ⟨h.2, h.1⟩

/-! ## Malformed timestamps of the dialogue-table dialect -/

theorem digitsValue_none (body : Str) :
    ∀ acc : Nat, (!body.isEmpty && body.all isReDigit) = false → digitsValue acc body = none := by
  induction body with
  | nil => intro acc _; rfl
  | cons c cs ih =>
    intro acc h
    cases cs with
    | nil =>
      simp only [digitsValue]
      split
      · rename_i hc
        simp [hc] at h
      · rfl
    | cons d ds =>
      simp only [digitsValue]
      split
      · rename_i hc
        apply ih
        simpa [hc] using h
      · rfl

theorem Atoi_not_numeric (s : Str) (h : isNumeric s = false) : (Atoi s).2 = false := by
  unfold isNumeric at h
  unfold Atoi
  simp only at h ⊢
  rw [digitsValue_none _ 0 h]

/-- **C11 (as amended).** Malformed timestamps are returned unchanged: for
every input string that does not have exactly three colon-separated fields, or
whose hours, minutes or seconds component (the third field up to its first
dot) is not numeric, `assTimeToVTT` returns the input string itself.  A
fractional part that is not numeric is read as zero instead. -/
theorem assTimeToVTT_malformed (t : Str) :
    ((stringsSplit t ":".toList).length ≠ 3 → assTimeToVTT t = t) ∧
      (∀ h m sec : Str, stringsSplit t ":".toList = [h, m, sec] →
        (isNumeric h = false ∨ isNumeric m = false ∨
          isNumeric ((stringsSplit sec ".".toList).getD 0 []) = false) →
        assTimeToVTT t = t) ∧
      (∀ h m sec frac : Str, stringsSplit t ":".toList = [h, m, sec ++ '.' :: frac] →
        '.' ∉ sec → '.' ∉ frac →
        (Atoi h).2 = true → (Atoi m).2 = true → (Atoi sec).2 = true → isNumeric frac = false →
        assTimeToVTT t =
          fmtZeroPad 2 (Atoi h).1 ++ ":".toList ++ fmtZeroPad 2 (Atoi m).1 ++ ":".toList ++
            fmtZeroPad 2 (Atoi sec).1 ++ ".000".toList) := by
  refine ⟨?_, ?_, ?_⟩
  · intro hlen
    unfold assTimeToVTT
    simp only [hlen, ne_eq, not_false_eq_true, if_true]
  · intro h m sec hparts hbad
    unfold assTimeToVTT
    simp only [hparts, List.length_cons, List.length_nil, List.getD_cons_zero,
      List.getD_cons_succ]
    rcases hbad with hb | hb | hb
    · simp [Atoi_not_numeric h hb]
    · simp [Atoi_not_numeric m hb]
    · have hA := Atoi_not_numeric _ hb
      simp only [hA]
      simp
  · intro h m sec frac hparts hsec hfrac hh hm hs hf
    have hsplit : stringsSplit (sec ++ '.' :: frac) ".".toList = [sec, frac] := by
      have hsep : (".".toList = []) = False := by simp
      simp only [stringsSplit, hsep, if_false]
      rw [show ".".toList = ['.'] from rfl, splitScan_char_field '.' frac sec hsec,
        splitScan_char_last '.' frac hfrac]
    have hcs : (Atoi frac).1 = 0 := by
      unfold isNumeric at hf
      unfold Atoi
      simp only at hf ⊢
      rw [digitsValue_none _ 0 hf]
    unfold assTimeToVTT
    simp only [hparts, hsplit, List.length_cons, List.length_nil, List.getD_cons_zero,
      List.getD_cons_succ, hh, hm, hs, hcs]
    simp
    rfl

/-- The amended malformed-timestamp property at `1:00` (two fields) and at
`0:xx:01.00` (minutes that are not numeric). -/
theorem assTimeToVTT_malformed_witness :
    assTimeToVTT "1:00".toList = "1:00".toList ∧
      assTimeToVTT "0:xx:01.00".toList = "0:xx:01.00".toList :=
  ⟨(assTimeToVTT_malformed "1:00".toList).1 (by decide),
    (assTimeToVTT_malformed "0:xx:01.00".toList).2.1 "0".toList "xx".toList "01.00".toList
      (by decide) (Or.inr (Or.inl (by decide)))⟩

/-- **C11, counterexample.** The timestamp `0:00:01.x` has three
colon-separated fields and a fractional part `x` that is not numeric;
`assTimeToVTT` does not return it unchanged but reads the fraction as zero and
returns `00:00:01.000`. -/
theorem assTimeToVTT_bad_fraction :
    stringsSplit "0:00:01.x".toList ":".toList = ["0".toList, "00".toList, "01.x".toList] ∧
      isNumeric "x".toList = false ∧
      assTimeToVTT "0:00:01.x".toList = "00:00:01.000".toList ∧
      "00:00:01.000".toList ≠ "0:00:01.x".toList := by
  refine ⟨by decide, by decide, by decide, by decide⟩

/-! ## Informal style transform -/

theorem wordReplaceScan_no_match (w r : Str) :
    ∀ (s : Str) (prevWord : Bool), wordMatchScan w prevWord s = false →
      wordReplaceScan w r prevWord 0 s = s := by
  intro s
  induction s with
  | nil => intro _ _; rfl
  | cons c cs ih =>
    intro prevWord h
    simp only [wordMatchScan, Bool.or_eq_false_iff] at h
    simp only [wordReplaceScan, h.1, Bool.false_eq_true, if_false, ih _ h.2]

theorem applyRules_no_match (order : List (Str × Str)) (text : Str)
    (h : ∀ rule ∈ order, wordMatches rule.1 text = false) : applyRules order text = text := by
  induction order with
  | nil => rfl
  | cons rule rest ih =>
    have h1 : wordReplaceAll rule.1 rule.2 text = text :=
      wordReplaceScan_no_match _ _ text false (h rule (List.mem_cons_self _ _))
    simp only [applyRules, h1]
    exact ih (fun r hr => h r (List.mem_cons_of_mem _ hr))

/-- **C18.** For every text that matches none of the formal patterns of the
rule table, `FormalizeToInformal` returns the text unchanged, whatever order
the rule table is iterated in, and therefore applying it twice gives the same
result as applying it once. -/
theorem FormalizeToInformal_unchanged (order : List (Str × Str)) (text : Str)
    (horder : order.Perm replacements)
    (hno : ∀ rule ∈ replacements, wordMatches rule.1 text = false) :
    FormalizeToInformal order text = text ∧
      FormalizeToInformal order (FormalizeToInformal order text) =
        FormalizeToInformal order text := by
  have h1 : FormalizeToInformal order text = text := by
    unfold FormalizeToInformal
    split
    · rfl
    · exact applyRules_no_match order text (fun r hr => hno r (horder.subset hr))
  rw [h1]
  exact ⟨rfl, h1⟩

/-- The texts `"aku"` and `""` match no formal pattern and stay as they
are. -/
theorem FormalizeToInformal_unchanged_witness :
    (FormalizeToInformal replacements "aku".toList = "aku".toList ∧
      FormalizeToInformal replacements (FormalizeToInformal replacements "aku".toList) =
        FormalizeToInformal replacements "aku".toList) ∧
    (FormalizeToInformal replacements.reverse "".toList = "".toList ∧
      FormalizeToInformal replacements.reverse
          (FormalizeToInformal replacements.reverse "".toList) =
        FormalizeToInformal replacements.reverse "".toList) :=
  ⟨FormalizeToInformal_unchanged replacements "aku".toList (List.Perm.refl _) (by decide),
    FormalizeToInformal_unchanged replacements.reverse "".toList (List.reverse_perm _)
      (by decide)⟩

set_option maxRecDepth 100000 in
/-- **C17, the code on texts where rules overlap.** The source order of the
map literal and its reverse are two orders in which the `range` loop may visit
the entries.  On `"Anda semua"` they give `"kalian"` and `"kamu semua"`, on
`"saya tidak tahu"` they give `"aku nggak tahu"` and `"aku nggak tau"`: the
output depends on the iteration order. -/
theorem FormalizeToInformal_order_dependent :
    replacements.reverse.Perm replacements ∧
      FormalizeToInformal replacements "Anda semua".toList = "kalian".toList ∧
      FormalizeToInformal replacements.reverse "Anda semua".toList = "kamu semua".toList ∧
      FormalizeToInformal replacements "saya tidak tahu".toList = "aku nggak tahu".toList ∧
      FormalizeToInformal replacements.reverse "saya tidak tahu".toList =
        "aku nggak tau".toList := by
  refine ⟨List.reverse_perm _, by decide, by decide, by decide, by decide⟩

/-! ## Length splitting: the cuts -/

theorem scanBack_some (runes : Str) (lo : Nat) :
    ∀ i j, scanBack runes lo i = some j →
      lo < j ∧ j ≤ i ∧ isSpace (runes.getD (j - 1) ' ') = true ∧
        ∀ k, j ≤ k → k < i → isSpace (runes.getD k ' ') = false := by
  intro i
  induction i with
  | zero => intro j h; simp [scanBack] at h
  | succ i ih =>
    intro j h
    simp only [scanBack] at h
    split at h
    · rename_i hlo
      split at h
      · rename_i hsp
        have hj : i + 1 = j := by simpa using h
        subst hj
        exact ⟨hlo, le_refl _, by simpa using hsp, fun k h1 h2 => by omega⟩
      · rename_i hsp
        obtain ⟨h1, h2, h3, h4⟩ := ih j h
        refine ⟨h1, by omega, h3, ?_⟩
        intro k hk1 hk2
        by_cases hki : k = i
        · rw [hki]; simpa using hsp
        · exact h4 k hk1 (by omega)
    · simp at h

theorem scanBack_none (runes : Str) (lo : Nat) :
    ∀ i, scanBack runes lo i = none →
      ∀ k, lo ≤ k → k < i → isSpace (runes.getD k ' ') = false := by
  intro i
  induction i with
  | zero => intro _ k _ hk; omega
  | succ i ih =>
    intro h k hk1 hk2
    simp only [scanBack] at h
    split at h
    · split at h
      · simp at h
      · rename_i hsp
        by_cases hki : k = i
        · rw [hki]; simpa using hsp
        · exact ih h k hk1 (by omega)
    · omega

theorem spaceAt_iff (runes : Str) (j : Nat) (hj : j < runes.length) :
    spaceAt runes j ↔ isSpace (runes.getD j ' ') = true := by
  unfold spaceAt
  rw [List.getD_eq_getElem _ _ hj, List.getElem?_eq_getElem hj]
  simp

/-- The cut of one pass: it lies in the window, it follows the white-space
character nearest the ceiling when the back half of the window holds one, and
it is the ceiling otherwise. -/
theorem splitPoint_spec (runes : Str) (maxLen start : Nat) (hmax : 1 ≤ maxLen)
    (hwin : start + maxLen < runes.length) :
    start < splitPoint runes maxLen start ∧ splitPoint runes maxLen start ≤ start + maxLen ∧
      ((∃ j, start + maxLen / 2 ≤ j ∧ j < start + maxLen ∧ spaceAt runes j) →
        start + maxLen / 2 < splitPoint runes maxLen start ∧
        spaceAt runes (splitPoint runes maxLen start - 1) ∧
        ∀ j, splitPoint runes maxLen start ≤ j → j < start + maxLen → ¬ spaceAt runes j) ∧
      (¬ spaceAt runes (splitPoint runes maxLen start - 1) →
        splitPoint runes maxLen start = start + maxLen ∧
        ∀ j, start + maxLen / 2 ≤ j → j < start + maxLen → ¬ spaceAt runes j) := by
  unfold splitPoint
  cases h : scanBack runes (start + maxLen / 2) (start + maxLen) with
  | none =>
    have hn := scanBack_none runes _ _ h
    simp only [Option.getD_none]
    have hnone : ∀ j, start + maxLen / 2 ≤ j → j < start + maxLen → ¬ spaceAt runes j := by
      intro j h1 h2 hsp
      rw [spaceAt_iff runes j (by omega)] at hsp
      rw [hn j h1 h2] at hsp
      exact Bool.false_ne_true hsp
    refine ⟨by omega, le_refl _, ?_, fun _ => ⟨trivial, hnone⟩⟩
    rintro ⟨j, h1, h2, h3⟩
    exact absurd h3 (hnone j h1 h2)
  | some p =>
    obtain ⟨h1, h2, h3, h4⟩ := scanBack_some runes _ _ p h
    simp only [Option.getD_some]
    have hsp : spaceAt runes (p - 1) := (spaceAt_iff runes (p - 1) (by omega)).mpr h3
    refine ⟨by omega, h2, fun _ => ⟨h1, hsp, ?_⟩, fun hno => absurd hsp hno⟩
    intro j hj1 hj2 hsj
    rw [spaceAt_iff runes j (by omega)] at hsj
    rw [h4 j hj1 hj2] at hsj
    exact Bool.false_ne_true hsj

theorem splitPoint_eq (runes : Str) (maxLen start : Nat) :
    (scanBack runes (start + maxLen / 2) (start + maxLen)).getD (start + maxLen) =
      splitPoint runes maxLen start := rfl

theorem foldl_appendPart (parts : List Str) :
    ∀ acc : List Str, parts.foldl appendPart acc = acc ++ parts.filter fun p => p ≠ [] := by
  induction parts with
  | nil => intro acc; simp
  | cons p ps ih =>
    intro acc
    simp only [List.foldl_cons, ih, List.filter_cons, appendPart]
    by_cases hp : p = []
    · simp [hp]
    · simp [hp]

/-- The loop of `splitTextByLength` appends the non-empty trimmed slices of its
trace. -/
theorem splitLoop_trace (runes : Str) (maxLen : Nat) :
    ∀ (fuel start : Nat) (acc : List Str),
      splitLoop runes maxLen fuel start acc =
        (splitTrace runes maxLen fuel start).map fun tr =>
          acc ++ (tr.map (slicePart runes)).filter fun p => p ≠ [] := by
  intro fuel
  induction fuel with
  | zero => intro start acc; rfl
  | succ fuel ih =>
    intro start acc
    simp only [splitLoop, splitTrace, splitPoint_eq]
    split
    · split
      · simp only [Option.map_some', List.map_cons, List.map_nil, slicePart]
        rw [List.take_of_length_le (by simp)]
        congr 1
        unfold appendPart
        split <;> rename_i hne <;> simp [hne]
      · rw [ih]
        cases splitTrace runes maxLen fuel (splitPoint runes maxLen start) with
        | none => rfl
        | some rest =>
          simp only [Option.map_some', List.map_cons, slicePart]
          congr 1
          unfold appendPart
          split <;> rename_i hne <;> simp [hne]
    · simp

theorem TrimSpace_length_le (s : Str) : (TrimSpace s).length ≤ s.length := by
  unfold TrimSpace
  rw [List.length_reverse]
  calc ((s.dropWhile isSpace).reverse.dropWhile isSpace).length
      ≤ (s.dropWhile isSpace).reverse.length := (List.dropWhile_sublist _).length_le
    _ = (s.dropWhile isSpace).length := List.length_reverse _
    _ ≤ s.length := (List.dropWhile_sublist _).length_le

theorem splitTrace_terminates (runes : Str) (maxLen : Nat) (hmax : 1 ≤ maxLen) :
    ∃ trace, splitTrace runes maxLen (runes.length + 1) 0 = some trace := by
  obtain ⟨parts, h⟩ := splitLoop_terminates runes maxLen hmax (runes.length + 1) 0 []
    (Nat.zero_le _) (by omega)
  rw [splitLoop_trace] at h
  cases ht : splitTrace runes maxLen (runes.length + 1) 0 with
  | none => simp [ht] at h
  | some trace => exact ⟨trace, rfl⟩

/-- The slices of the trace: each is a non-empty window of at most `maxLen`
positions, a slice that ends before the end of the text ends at the cut of its
window, and together the slices cover the text from `start` on. -/
theorem splitTrace_spec (runes : Str) (maxLen : Nat) (hmax : 1 ≤ maxLen) :
    ∀ (fuel start : Nat) (trace : List (Nat × Nat)),
      splitTrace runes maxLen fuel start = some trace →
      (∀ p ∈ trace, start ≤ p.1 ∧ p.1 < p.2 ∧ p.2 ≤ p.1 + maxLen ∧ p.2 ≤ runes.length ∧
        (p.2 ≠ runes.length →
          p.2 = splitPoint runes maxLen p.1 ∧ p.1 + maxLen < runes.length)) ∧
      (∀ j, start ≤ j → j < runes.length → ∃ p ∈ trace, p.1 ≤ j ∧ j < p.2) := by
  intro fuel
  induction fuel with
  | zero => intro start trace h; simp [splitTrace] at h
  | succ fuel ih =>
    intro start trace h
    simp only [splitTrace] at h
    split at h
    · rename_i hlt
      split at h
      · rename_i hend
        have ht : trace = [(start, runes.length)] := by simpa using h.symm
        subst ht
        refine ⟨?_, ?_⟩
        · intro p hp
          have hp1 : p = (start, runes.length) := by simpa using hp
          subst hp1
          exact ⟨le_refl _, hlt, by simpa using hend, le_refl _, fun hne => absurd rfl hne⟩
        · intro j h1 h2
          exact ⟨(start, runes.length), by simp, h1, h2⟩
      · rename_i hend
        have hwin : start + maxLen < runes.length := by omega
        obtain ⟨hs1, hs2, _, _⟩ := splitPoint_spec runes maxLen start hmax hwin
        cases hrec : splitTrace runes maxLen fuel (splitPoint runes maxLen start) with
        | none => simp [hrec] at h
        | some rest =>
          simp only [hrec, Option.some.injEq] at h
          subst h
          obtain ⟨ih1, ih2⟩ := ih _ rest hrec
          refine ⟨?_, ?_⟩
          · intro p hp
            rcases List.mem_cons.mp hp with hp1 | hp1
            · subst hp1
              exact ⟨le_refl _, hs1, hs2, by simp only; omega, fun _ => ⟨rfl, hwin⟩⟩
            · obtain ⟨a1, a2, a3, a4, a5⟩ := ih1 p hp1
              exact ⟨by omega, a2, a3, a4, a5⟩
          · intro j h1 h2
            by_cases hj : j < splitPoint runes maxLen start
            · exact ⟨(start, splitPoint runes maxLen start), List.mem_cons_self _ _, h1, hj⟩
            · obtain ⟨p, hp, hp1, hp2⟩ := ih2 j (by omega) h2
              exact ⟨p, List.mem_cons_of_mem _ hp, hp1, hp2⟩
    · rename_i hge
      have ht : trace = [] := by simpa using h.symm
      subst ht
      refine ⟨fun p hp => by simp at hp, ?_⟩
      intro j h1 h2
      omega

theorem slicePart_length_le (runes : Str) (p : Nat × Nat) :
    (slicePart runes p).length ≤ p.2 - p.1 := by
  unfold slicePart
  calc (TrimSpace ((runes.drop p.1).take (p.2 - p.1))).length
      ≤ ((runes.drop p.1).take (p.2 - p.1)).length := TrimSpace_length_le _
    _ ≤ p.2 - p.1 := List.length_take_le _ _

theorem slicePart_ne_nil (runes : Str) (p : Nat × Nat) (j : Nat) (c : Char)
    (hj : runes[j]? = some c) (hc : isSpace c = false) (h1 : p.1 ≤ j) (h2 : j < p.2) :
    slicePart runes p ≠ [] := by
  unfold slicePart
  intro h0
  rw [TrimSpace_eq_nil_iff] at h0
  have hmem : c ∈ (runes.drop p.1).take (p.2 - p.1) := by
    apply List.getElem?_mem (n := j - p.1)
    rw [List.getElem?_take_of_lt (by omega), List.getElem?_drop,
      show p.1 + (j - p.1) = j by omega]
    exact hj
  rw [h0 c hmem] at hc
  exact Bool.noConfusion hc

/-- **C20 (as amended).** Length splitting: for every text longer than
`maxLen` code points (`maxLen ≥ 1`), `splitTextByLength` returns the non-empty
trimmed slices that its loop takes, or the text itself when every slice is
blank.  When the text holds a character that is not white space, every
segment returned has at most `maxLen` code points.  Every cut between two
slices lies at most `maxLen` positions after the start of its slice; when the
back half of the window (positions `start + maxLen / 2` up to
`start + maxLen - 1`) holds a white-space character, the cut falls immediately
after the one nearest the ceiling; a cut that does not follow a white-space
character occurs only when that window holds none. -/
theorem splitTextByLength_segments_and_cuts (text : Str) (maxLen : Nat) (hmax : 1 ≤ maxLen)
    (hlong : maxLen < text.length) :
    ∃ trace parts,
      splitTrace text maxLen (text.length + 1) 0 = some trace ∧
      splitTextByLength text maxLen = some parts ∧
      parts =
        (if (trace.map (slicePart text)).filter (fun p => p ≠ []) = [] then [text]
          else (trace.map (slicePart text)).filter fun p => p ≠ []) ∧
      ((∃ c ∈ text, isSpace c = false) → ∀ seg ∈ parts, seg.length ≤ maxLen) ∧
      ∀ p ∈ trace, p.2 ≠ text.length →
        p.1 < p.2 ∧ p.2 ≤ p.1 + maxLen ∧
        ((∃ j, p.1 + maxLen / 2 ≤ j ∧ j < p.1 + maxLen ∧ spaceAt text j) →
          spaceAt text (p.2 - 1) ∧ ∀ j, p.2 ≤ j → j < p.1 + maxLen → ¬ spaceAt text j) ∧
        (¬ spaceAt text (p.2 - 1) →
          ∀ j, p.1 + maxLen / 2 ≤ j → j < p.1 + maxLen → ¬ spaceAt text j) := by
  obtain ⟨trace, htrace⟩ := splitTrace_terminates text maxLen hmax
  obtain ⟨hslices, hcover⟩ := splitTrace_spec text maxLen hmax _ _ trace htrace
  have hsplit : splitTextByLength text maxLen =
      some (if (trace.map (slicePart text)).filter (fun p => p ≠ []) = [] then [text]
        else (trace.map (slicePart text)).filter fun p => p ≠ []) := by
    unfold splitTextByLength
    rw [if_neg (by omega), splitLoop_trace, htrace]
    simp only [Option.map_some', List.nil_append, List.length_eq_zero]
  refine ⟨trace, _, htrace, hsplit, rfl, ?_, ?_⟩
  · rintro ⟨c, hc, hsp⟩ seg hseg
    obtain ⟨j, hj⟩ := List.mem_iff_getElem?.mp hc
    have hjlt : j < text.length := (List.getElem?_eq_some_iff.mp hj).1
    obtain ⟨p, hp, hp1, hp2⟩ := hcover j (Nat.zero_le _) hjlt
    have hne : slicePart text p ≠ [] := slicePart_ne_nil text p j c hj hsp hp1 hp2
    have hfil : (trace.map (slicePart text)).filter (fun p => p ≠ []) ≠ [] := by
      intro h0
      have hm : slicePart text p ∈ (trace.map (slicePart text)).filter (fun p => p ≠ []) := by
        rw [List.mem_filter]
        exact ⟨List.mem_map_of_mem _ hp, by simpa using hne⟩
      rw [h0] at hm
      simp at hm
    rw [if_neg hfil, List.mem_filter, List.mem_map] at hseg
    obtain ⟨⟨q, hq, rfl⟩, _⟩ := hseg
    obtain ⟨_, _, hq3, _, _⟩ := hslices q hq
    have := slicePart_length_le text q
    omega
  · intro p hp hcut
    obtain ⟨_, hp2, hp3, _, hp5⟩ := hslices p hp
    obtain ⟨hpt, hwin⟩ := hp5 hcut
    obtain ⟨_, _, h3, h4⟩ := splitPoint_spec text maxLen p.1 hmax hwin
    rw [← hpt] at h3 h4
    exact ⟨hp2, hp3, fun hex => (h3 hex).2, fun hno => (h4 hno).2⟩

/-- Length splitting at a concrete text: four words, a ceiling of five. -/
theorem splitTextByLength_segments_and_cuts_witness :
    ∃ parts, splitTextByLength "aaa bbb ccc ddd".toList 5 = some parts ∧
      parts = ["aaa".toList, "bbb".toList, "ccc".toList, "ddd".toList] ∧
      ∀ seg ∈ parts, seg.length ≤ 5 := by
  obtain ⟨trace, parts, _, h2, _, h4, _⟩ :=
    splitTextByLength_segments_and_cuts "aaa bbb ccc ddd".toList 5 (by decide) (by decide)
  refine ⟨parts, h2, ?_, h4 ⟨'a', by decide, by decide⟩⟩
  have h5 : splitTextByLength "aaa bbb ccc ddd".toList 5 =
      some ["aaa".toList, "bbb".toList, "ccc".toList, "ddd".toList] := by decide
  rw [h5] at h2
  exact (Option.some.inj h2).symm

/-- **C20, counterexample.** A text of five spaces is longer than the ceiling
2; every slice of it is blank, so `splitTextByLength` returns the text itself
as its only segment, which has five code points. -/
theorem splitTextByLength_blank_text :
    splitTextByLength "     ".toList 2 = some ["     ".toList] ∧
      ¬ ∀ seg ∈ ["     ".toList], seg.length ≤ 2 := by
  refine ⟨by decide, ?_⟩
  intro h
  have := h "     ".toList (List.mem_singleton_self _)
  revert this
  decide

/-! ## Line-oriented dialect: the lines of the output -/

theorem vttWriteBack_spec (idxs : List Nat) :
    ∀ (translated lines : List Str), idxs.Nodup → (∀ j ∈ idxs, j < lines.length) →
      idxs.length = translated.length →
      (vttWriteBack idxs translated lines).length = lines.length ∧
      (∀ i, i ∉ idxs → (vttWriteBack idxs translated lines)[i]? = lines[i]?) ∧
      (∀ k j, idxs[k]? = some j →
        (vttWriteBack idxs translated lines)[j]? =
          some (vttRebuildLine (lines.getD j []) (translated.getD k []))) := by
  induction idxs with
  | nil =>
    intro translated lines _ _ _
    refine ⟨by simp [vttWriteBack], fun i _ => by simp [vttWriteBack], ?_⟩
    intro k j h
    simp at h
  | cons j0 js ih =>
    intro translated lines hnd hin hlen
    cases translated with
    | nil => simp at hlen
    | cons tr trs =>
      rw [List.nodup_cons] at hnd
      have hin1 : ∀ j ∈ js, j < (lines.set j0 (vttRebuildLine (lines.getD j0 []) tr)).length := by
        intro j hj
        rw [List.length_set]
        exact hin j (List.mem_cons_of_mem _ hj)
      obtain ⟨h1, h2, h3⟩ := ih trs _ hnd.2 hin1 (by simpa using hlen)
      simp only [vttWriteBack]
      refine ⟨by rw [h1, List.length_set], ?_, ?_⟩
      · intro i hi
        rw [List.mem_cons, not_or] at hi
        rw [h2 i hi.2]
        exact List.getElem?_set_ne (fun h => hi.1 h.symm)
      · intro k j hk
        cases k with
        | zero =>
          have hj : j0 = j := by simpa using hk
          subst hj
          rw [h2 j0 hnd.1, List.getElem?_set_eq_of_lt _ (hin j0 (List.mem_cons_self _ _))]
          rfl
        | succ k =>
          have hk1 : js[k]? = some j := by simpa using hk
          have hne : j0 ≠ j := by
            intro h
            rw [h] at hnd
            exact hnd.1 (List.getElem?_mem hk1)
          rw [h3 k j hk1]
          simp only [List.getD_cons_succ]
          congr 2
          simp only [List.getD_eq_getElem?_getD]
          rw [List.getElem?_set_ne hne]

theorem vttTextLines_mem (scanned : List (Str × Option Str)) :
    ∀ (k : Nat) (p : Nat × Str), p ∈ vttTextLines k scanned →
      k ≤ p.1 ∧ ∃ l, scanned[p.1 - k]? = some (l, some p.2) := by
  induction scanned with
  | nil => intro k p h; simp [vttTextLines] at h
  | cons x rest ih =>
    intro k p h
    obtain ⟨l, o⟩ := x
    have hrec : p ∈ vttTextLines (k + 1) rest →
        k ≤ p.1 ∧ ∃ l1, ((l, o) :: rest)[p.1 - k]? = some (l1, some p.2) := by
      intro h1
      obtain ⟨h2, l1, h3⟩ := ih (k + 1) p h1
      refine ⟨by omega, l1, ?_⟩
      rw [show p.1 - k = (p.1 - (k + 1)) + 1 by omega, List.getElem?_cons_succ]
      exact h3
    cases o with
    | none =>
      simp only [vttTextLines] at h
      exact hrec h
    | some clean =>
      simp only [vttTextLines] at h
      rcases List.mem_cons.mp h with h1 | h1
      · subst h1
        exact ⟨le_refl _, l, by simp⟩
      · exact hrec h1

theorem vttTextLines_sorted (scanned : List (Str × Option Str)) :
    ∀ k : Nat, ((vttTextLines k scanned).map fun p => p.1).Pairwise (· < ·) := by
  induction scanned with
  | nil => intro k; simp [vttTextLines]
  | cons x rest ih =>
    intro k
    obtain ⟨l, o⟩ := x
    cases o with
    | none =>
      simp only [vttTextLines]
      exact ih (k + 1)
    | some clean =>
      simp only [vttTextLines, List.map_cons, List.pairwise_cons]
      refine ⟨?_, ih (k + 1)⟩
      intro j hj
      obtain ⟨p, hp, rfl⟩ := List.mem_map.mp hj
      have := (vttTextLines_mem rest (k + 1) p hp).1
      omega

/-- The lines that `TranslateVTT` joins: a line that is not submitted for
translation is the stored line of the first loop, and the `k`-th submitted line
is rebuilt from its stored line and the `k`-th entry of the result of
`BatchTranslate`. -/
theorem TranslateVTT_lines (backend : Str → Except String Str) (rnd : Nat → Nat)
    (content : Str) :
    ∃ translated outLines,
      BatchTranslate backend rnd ((vttTextLines 0 (vttScannedLines content)).map fun p => p.2) =
        some (.ok translated) ∧
      translated.length = (vttTextLines 0 (vttScannedLines content)).length ∧
      TranslateVTT backend rnd content = some (.ok (stringsJoin "\n".toList outLines)) ∧
      outLines.length = (vttScannedLines content).length ∧
      (∀ (i : Nat) (l : Str),
        (vttScannedLines content)[i]? = some (l, none) → outLines[i]? = some l) ∧
      (∀ (k i : Nat) (clean l : Str), (vttTextLines 0 (vttScannedLines content))[k]? = some (i, clean) →
        (vttScannedLines content)[i]? = some (l, some clean) →
        outLines[i]? = some (vttRebuildLine l (translated.getD k []))) := by
  obtain ⟨translated, hbt, hlen, _⟩ := BatchTranslate_frame backend rnd
    ((vttTextLines 0 (vttScannedLines content)).map fun p => p.2)
  have hlen1 : translated.length = (vttTextLines 0 (vttScannedLines content)).length := by
    simpa using hlen
  have hmem := vttTextLines_mem (vttScannedLines content) 0
  have hnone : ∀ (i : Nat) (l : Str), (vttScannedLines content)[i]? = some (l, none) →
      i ∉ (vttTextLines 0 (vttScannedLines content)).map fun p => p.1 := by
    intro i l hi hin
    obtain ⟨p, hp, rfl⟩ := List.mem_map.mp hin
    obtain ⟨_, l1, h1⟩ := hmem p hp
    rw [Nat.sub_zero, hi] at h1
    simp at h1
  have hget : ∀ (i : Nat) (l : Str) (o : Option Str),
      (vttScannedLines content)[i]? = some (l, o) →
      ((vttScannedLines content).map fun p => p.1)[i]? = some l := by
    intro i l o h
    rw [List.getElem?_map, h]
    rfl
  by_cases h0 : (vttTextLines 0 (vttScannedLines content)).length = 0
  · refine ⟨translated, (vttScannedLines content).map fun p => p.1, hbt, hlen1, ?_,
      by simp, ?_, ?_⟩
    · unfold TranslateVTT
      simp only [h0, if_true]
    · intro i l hi
      exact hget i l none hi
    · intro k i clean l hk
      rw [List.length_eq_zero] at h0
      rw [h0] at hk
      simp at hk
  · have hnd : ((vttTextLines 0 (vttScannedLines content)).map fun p => p.1).Nodup :=
      (vttTextLines_sorted (vttScannedLines content) 0).imp (fun h => Nat.ne_of_lt h)
    obtain ⟨w1, w2, w3⟩ := vttWriteBack_spec
      ((vttTextLines 0 (vttScannedLines content)).map fun p => p.1) translated
      ((vttScannedLines content).map fun p => p.1) hnd
      (by
        intro j hj
        obtain ⟨p, hp, rfl⟩ := List.mem_map.mp hj
        obtain ⟨_, l1, h1⟩ := hmem p hp
        rw [Nat.sub_zero] at h1
        rw [List.length_map]
        exact (List.getElem?_eq_some_iff.mp h1).1)
      (by rw [List.length_map, hlen1])
    refine ⟨translated, _, hbt, hlen1, ?_, by rw [w1, List.length_map], ?_, ?_⟩
    · unfold TranslateVTT
      simp only [h0, if_false, hbt]
    · intro i l hi
      rw [w2 i (hnone i l hi)]
      exact hget i l none hi
    · intro k i clean l hk hi
      have hk1 : ((vttTextLines 0 (vttScannedLines content)).map fun p => p.1)[k]? = some i := by
        rw [List.getElem?_map, hk]
        rfl
      rw [w3 k i hk1]
      have := hget i l _ hi
      simp only [List.getD_eq_getElem?_getD, this, Option.getD_some]

/-! ## Font markup: texts without it are left alone -/

theorem regexReplaceScan_no_match (matchAt : Str → Option Nat) (rep : Str) :
    ∀ s : Str, (∀ t, t <:+ s → matchAt t = none) → regexReplaceScan matchAt rep 0 s = s := by
  intro s
  induction s with
  | nil => intro _; rfl
  | cons c cs ih =>
    intro h
    have h1 := h (c :: cs) (List.suffix_refl _)
    simp only [regexReplaceScan, h1]
    rw [ih (fun t ht => h t (ht.trans (List.suffix_cons c cs)))]

theorem hasFontTag_false (s : Str) (h : hasFontTag s = false) :
    ∀ t, t <:+ s → fontTagAt t = none := by
  induction s with
  | nil =>
    intro t ht
    have : t = [] := List.eq_nil_of_suffix_nil ht
    rw [this]
    rfl
  | cons c cs ih =>
    intro t ht
    simp only [hasFontTag, Bool.or_eq_false_iff] at h
    rcases List.suffix_cons_iff.mp ht with h1 | h1
    · rw [h1]
      cases hf : fontTagAt (c :: cs) with
      | none => rfl
      | some n => simp [hf] at h
    · exact ih h.2 t h1

theorem fontNameRest_head (r rest : Str) (h : fontNameRest r = some rest) :
    r.head? ≠ some '/' := by
  unfold fontNameRest at h
  split at h
  · rename_i c1 c2 c3 c4 rest1
    split at h
    · rename_i hc
      simp only [Bool.and_eq_true] at hc
      intro hh
      have hc1 : c1 = '/' := by simpa using hh
      rw [hc1] at hc
      have hne : eqFold '/' 'f' = false := by decide
      simp [hne] at hc
    · simp at h
  · simp at h

theorem emptyFontTagAt_fontTagAt (s : Str) (h : fontTagAt s = none) : emptyFontTagAt s = none := by
  unfold emptyFontTagAt
  unfold fontTagAt at h
  split
  · rfl
  · rename_i c r
    simp only at h
    split
    · rename_i hc
      rw [if_pos hc] at h
      cases hf : fontNameRest r with
      | none => rfl
      | some rest =>
        have hslash : (decide (r.head? = some '/')) = false := by
          simpa using fontNameRest_head r rest hf
        simp only [hslash, Bool.false_eq_true, if_false, hf] at h
        cases ht : throughAngle rest with
        | none => simp [ht]
        | some n => simp [ht] at h
    · rfl

theorem RemoveFontTags_of_no_font (s : Str) (h : hasFontTag s = false) :
    RemoveFontTags s = s := by
  have hf := hasFontTag_false s h
  unfold RemoveFontTags
  simp only
  rw [regexReplaceScan_no_match emptyFontTagAt [] s
    (fun t ht => emptyFontTagAt_fontTagAt t (hf t ht))]
  exact regexReplaceScan_no_match fontTagAt [] s hf

/-! ## Line-oriented dialect: structural lines -/

theorem TrimSpace_of_no_space (s : Str) (h : ∀ c ∈ s, isSpace c = false) : TrimSpace s = s := by
  have hd : ∀ t : Str, (∀ c ∈ t, isSpace c = false) → t.dropWhile isSpace = t := by
    intro t ht
    cases t with
    | nil => rfl
    | cons c cs => exact List.dropWhile_cons_of_neg (by simp [ht c (List.mem_cons_self _ _)])
  unfold TrimSpace
  rw [hd s h, hd s.reverse (fun c hc => h c (List.mem_reverse.mp hc)), List.reverse_reverse]

theorem TrimSpace_head (c : Char) (s : Str) (hc : isSpace c = false) :
    ∃ t, TrimSpace (c :: s) = c :: t := by
  unfold TrimSpace
  rw [List.dropWhile_cons_of_neg (by simp [hc])]
  have hne : ((c :: s).reverse.dropWhile isSpace) ≠ [] :=
    dropWhile_reverse_ne_nil isSpace (c :: s) c (List.mem_cons_self _ _) hc
  obtain ⟨pre, hpre⟩ : (c :: s).reverse.dropWhile isSpace <:+ (c :: s).reverse :=
    List.dropWhile_suffix _
  have hrev := congrArg List.reverse hpre
  rw [List.reverse_append, List.reverse_reverse] at hrev
  cases hr : ((c :: s).reverse.dropWhile isSpace).reverse with
  | nil =>
    rw [List.reverse_eq_nil_iff] at hr
    exact absurd hr hne
  | cons x t =>
    rw [hr, List.cons_append] at hrev
    have hx : x = c := (List.cons.inj hrev).1
    exact ⟨t, by rw [hx]⟩

theorem matchShape_digit_head (ks : List TimeClass) (c : Char) (cs : Str) (p : Str × Str)
    (h : matchShape (.digit :: ks) (c :: cs) = some p) : isReDigit c = true := by
  simp only [matchShape, TimeClass.accepts] at h
  split at h
  · assumption
  · simp at h

theorem vttTimeAt_digit (s : Str) (p : Str × Str) (h : vttTimeAt s = some p) :
    ∃ c cs, s = c :: cs ∧ isReDigit c = true := by
  cases s with
  | nil => simp [vttTimeAt, matchShape, shapeHH, shapeH, shapeMS] at h
  | cons c cs =>
    refine ⟨c, cs, rfl, ?_⟩
    unfold vttTimeAt at h
    split at h
    · rename_i r hr
      exact matchShape_digit_head _ c cs r hr
    · split at h
      · rename_i r hr
        exact matchShape_digit_head _ c cs r hr
      · exact matchShape_digit_head _ c cs p h

theorem vttTimeAt_not_all_digits (s : Str) (p : Str × Str) (h : vttTimeAt s = some p) :
    s.all isReDigit = false := by
  have hcolon : ∀ c : Char, c = ':' → isReDigit c = false := by
    intro c hc; rw [hc]; decide
  match s, h with
  | [], h => simp [vttTimeAt, matchShape, shapeHH, shapeH, shapeMS] at h
  | [_], h => simp [vttTimeAt, matchShape, shapeHH, shapeH, shapeMS] at h
  | [_, _], h =>
    simp [vttTimeAt, matchShape, shapeHH, shapeH, shapeMS, TimeClass.accepts] at h
  | a :: b :: c :: rest, h =>
    by_cases hb : b = ':'
    · simp [hcolon b hb]
    · by_cases hc : c = ':'
      · simp [hcolon c hc]
      · exfalso
        simp [vttTimeAt, shapeHH, shapeH, shapeMS, matchShape, TimeClass.accepts, hb, hc] at h

theorem vttTimestampRe_start (s : Str) (h : (vttTimestampRe s).isSome = true) :
    ∃ p, vttTimeAt s = some p := by
  unfold vttTimestampRe at h
  cases ht : vttTimeAt s with
  | none => simp [ht] at h
  | some p => exact ⟨p, rfl⟩

/-- A line that is blank, that consists of digits, or that begins with a
header keyword is not a timing line. -/
theorem structural_not_timing (line : Str)
    (h : TrimSpace line = [] ∨ isDigitOnly line = true ∨ "WEBVTT".toList <+: line ∨
      "NOTE".toList <+: line ∨ "STYLE".toList <+: line) :
    (vttTimestampRe (TrimSpace line)).isSome = false := by
  rw [Bool.eq_false_iff]
  intro hsome
  obtain ⟨p, hp⟩ := vttTimestampRe_start _ hsome
  have hkey : ∀ (c : Char) (rest : Str), isSpace c = false → isReDigit c = false →
      line = c :: rest → False := by
    intro c rest h1 h2 hl
    obtain ⟨t, ht⟩ := TrimSpace_head c rest h1
    rw [hl, ht] at hp
    obtain ⟨c1, cs1, he, hd⟩ := vttTimeAt_digit _ p hp
    rw [← (List.cons.inj he).1, h2] at hd
    exact Bool.false_ne_true hd
  rcases h with h | h | h | h | h
  · rw [h] at hp
    simp [vttTimeAt, matchShape, shapeHH, shapeH, shapeMS] at hp
  · unfold isDigitOnly at h
    simp only [Bool.and_eq_true] at h
    have hns : ∀ c ∈ line, isSpace c = false := by
      intro c hc
      have hd := isReDigit_mem c (List.all_eq_true.mp h.2 c hc)
      have key : ∀ d ∈ decimalDigits, isSpace d = false := by decide
      exact key c hd
    rw [TrimSpace_of_no_space line hns] at hp
    have := vttTimeAt_not_all_digits _ p hp
    rw [h.2] at this
    exact Bool.noConfusion this
  · obtain ⟨r, hr⟩ := h
    exact hkey 'W' ("EBVTT".toList ++ r) (by decide) (by decide) hr.symm
  · obtain ⟨r, hr⟩ := h
    exact hkey 'N' ("OTE".toList ++ r) (by decide) (by decide) hr.symm
  · obtain ⟨r, hr⟩ := h
    exact hkey 'S' ("TYLE".toList ++ r) (by decide) (by decide) hr.symm

theorem vttTextLines_complete (scanned : List (Str × Option Str)) :
    ∀ (k i : Nat) (l clean : Str), scanned[i]? = some (l, some clean) →
      (k + i, clean) ∈ vttTextLines k scanned := by
  induction scanned with
  | nil => intro k i l clean h; simp at h
  | cons x rest ih =>
    intro k i l clean h
    obtain ⟨l0, o⟩ := x
    cases i with
    | zero =>
      simp only [List.getElem?_cons_zero, Option.some.injEq, Prod.mk.injEq] at h
      obtain ⟨_, ho⟩ := h
      subst ho
      simp [vttTextLines]
    | succ j =>
      rw [List.getElem?_cons_succ] at h
      have hrec := ih (k + 1) j l clean h
      have heq : k + 1 + j = k + (j + 1) := by omega
      rw [heq] at hrec
      cases o with
      | none => simpa [vttTextLines] using hrec
      | some c => simp only [vttTextLines, List.mem_cons]; exact Or.inr hrec

theorem vttScanLine_fst (line : Str) (hfont : hasFontTag line = false)
    (htime : (vttTimestampRe (TrimSpace line)).isSome = false) :
    (vttScanLine line).1 = line := by
  unfold vttScanLine
  simp only [RemoveFontTags_of_no_font line hfont, htime, Bool.false_eq_true, if_false]
  split
  · rfl
  · split <;> rfl

theorem vttScanLine_structural (line : Str) (hfont : hasFontTag line = false)
    (h : TrimSpace line = [] ∨ isDigitOnly line = true ∨ "WEBVTT".toList <+: line ∨
      "NOTE".toList <+: line ∨ "STYLE".toList <+: line) :
    vttScanLine line = (line, none) := by
  have htime := structural_not_timing line h
  unfold vttScanLine
  simp only [RemoveFontTags_of_no_font line hfont, htime, Bool.false_eq_true, if_false]
  have hcond : ("WEBVTT".toList.isPrefixOf line || "NOTE".toList.isPrefixOf line ||
      "STYLE".toList.isPrefixOf line || decide (TrimSpace line = []) ||
      isDigitOnly (TrimSpace line)) = true := by
    rcases h with h | h | h | h | h
    · simp [h]
    · have hns : ∀ c ∈ line, isSpace c = false := by
        intro c hc
        unfold isDigitOnly at h
        simp only [Bool.and_eq_true] at h
        have hd := isReDigit_mem c (List.all_eq_true.mp h.2 c hc)
        have key : ∀ d ∈ decimalDigits, isSpace d = false := by decide
        exact key c hd
      rw [TrimSpace_of_no_space line hns, h]
      simp
    · rw [List.isPrefixOf_iff_prefix.mpr h]; simp
    · rw [List.isPrefixOf_iff_prefix.mpr h]; simp
    · rw [List.isPrefixOf_iff_prefix.mpr h]; simp
  rw [if_pos hcond]

set_option maxRecDepth 100000 in
/-- **C13, the code on nested font markup.** `RemoveFontTags` replaces the
matches of its patterns in one pass, so from `<<font>font>` it removes the inner
tag and leaves `<font>`, which is a font tag.  `TranslateVTT` returns that line
for the document `<<font>font>`, and for the document `hello` with a backend
that answers `<<<font>font>font>x` it returns `<font>x`: font markup of the
original line and font markup injected by the backend both survive. -/
theorem TranslateVTT_font_tag_survives :
    RemoveFontTags "<<font>font>".toList = "<font>".toList ∧
      hasFontTag "<font>".toList = true ∧
      TranslateVTT (fun s => .ok s) (fun _ => 0) "<<font>font>".toList =
        some (.ok "<font>".toList) ∧
      TranslateVTT (fun _ => .ok "<<<font>font>font>x".toList) (fun _ => 0) "hello".toList =
        some (.ok "<font>x".toList) ∧
      hasFontTag "<font>x".toList = true :=
  ⟨by rfl, by rfl, by rfl, by rfl, by rfl⟩

set_option maxRecDepth 100000 in
/-- **C16, the code on a translation that is markup only.** For the document
`hello` the line `hello` is submitted; with a backend that answers
`<<font>font>` the processed translation is `<font>`, which is not empty, so the
fallback to the clean text is not taken, and the last `RemoveFontTags` empties
the line: the output is the empty line.  Likewise the document `x</b>` with
the answer `<font` gives the empty line, the last `RemoveFontTags` removing
`<font</b>`. -/
theorem TranslateVTT_blank_text_line :
    vttTextLines 0 (vttScannedLines "hello".toList) = [(0, "hello".toList)] ∧
      TrimSpace (RemoveFontTags (SingleLine "<<font>font>".toList)) = "<font>".toList ∧
      TranslateVTT (fun _ => .ok "<<font>font>".toList) (fun _ => 0) "hello".toList =
        some (.ok []) ∧
      vttTextLines 0 (vttScannedLines "x</b>".toList) = [(0, "x".toList)] ∧
      TranslateVTT (fun _ => .ok "<font".toList) (fun _ => 0) "x</b>".toList = some (.ok []) :=
  ⟨by rfl, by rfl, by rfl, by rfl, by rfl⟩

/-! ## Line-oriented dialect: text lines -/

theorem vttScanLine_submitted (line clean : Str) (h : (vttScanLine line).2 = some clean) :
    (vttScanLine line).1 = RemoveFontTags line := by
  unfold vttScanLine at h ⊢
  simp only at h ⊢
  split
  · rename_i ht
    rw [if_pos ht] at h
    simp at h
  · split
    · rfl
    · split <;> rfl

theorem vttRebuildLine_reattach (l t : Str)
    (ht : TrimSpace (RemoveFontTags (SingleLine t)) ≠ [])
    (hL : hasFontTag (leadingTagsRe_FindString l) = false)
    (hR : hasFontTag (trailingTagsRe_FindString l) = false)
    (hall : hasFontTag (leadingTagsRe_FindString l ++
      TrimSpace (RemoveFontTags (SingleLine t)) ++ trailingTagsRe_FindString l) = false) :
    vttRebuildLine l t = leadingTagsRe_FindString l ++
      TrimSpace (RemoveFontTags (SingleLine t)) ++ trailingTagsRe_FindString l := by
  unfold vttRebuildLine
  simp only [if_neg ht, RemoveFontTags_of_no_font _ hL, RemoveFontTags_of_no_font _ hR]
  have h1 : (if leadingTagsRe_FindString l ≠ [] then leadingTagsRe_FindString l else []) =
      leadingTagsRe_FindString l := by
    split
    · rfl
    · rename_i h; exact (not_not.mp h).symm
  have h2 : (if trailingTagsRe_FindString l ≠ [] then trailingTagsRe_FindString l else []) =
      trailingTagsRe_FindString l := by
    split
    · rfl
    · rename_i h; exact (not_not.mp h).symm
  rw [h1, h2]
  exact RemoveFontTags_of_no_font _ hall

set_option maxRecDepth 100000 in
/-- **C15, counterexample.** The line `<i>x</i>` has the leading run `<i>` and
the trailing run `</i>`, neither with font markup, and its clean text `x` is
submitted.  With a backend that answers `<font>` the translation is not empty
but its processed form `t'` is, and the output line is `<i>x</i>`, carrying the
clean text, not `<i></i>`.  With a backend that answers `a <font` the
processed form is `a <font`, and the output line is `<i>a `, not
`<i>a <font</i>`: the last `RemoveFontTags` runs over the whole rebuilt line. -/
theorem TranslateVTT_reattach_differs :
    leadingTagsRe_FindString (RemoveFontTags "<i>x</i>".toList) = "<i>".toList ∧
      trailingTagsRe_FindString (RemoveFontTags "<i>x</i>".toList) = "</i>".toList ∧
      vttTextLines 0 (vttScannedLines "<i>x</i>".toList) = [(0, "x".toList)] ∧
      BatchTranslate (fun _ => .ok "<font>".toList) (fun _ => 0) ["x".toList] =
        some (.ok ["<font>".toList]) ∧
      TrimSpace (RemoveFontTags (SingleLine "<font>".toList)) = [] ∧
      TranslateVTT (fun _ => .ok "<font>".toList) (fun _ => 0) "<i>x</i>".toList =
        some (.ok "<i>x</i>".toList) ∧
      BatchTranslate (fun _ => .ok "a <font".toList) (fun _ => 0) ["x".toList] =
        some (.ok ["a <font".toList]) ∧
      TrimSpace (RemoveFontTags (SingleLine "a <font".toList)) = "a <font".toList ∧
      TranslateVTT (fun _ => .ok "a <font".toList) (fun _ => 0) "<i>x</i>".toList =
        some (.ok "<i>a ".toList) :=
  ⟨by rfl, by rfl, by rfl, by rfl, by rfl, by rfl, by rfl, by rfl, by rfl⟩

/-! ## Line-oriented dialect: timing lines -/

theorem matchShape_spec (shape : List TimeClass) :
    ∀ (x s r : Str), matchShape shape x = some (s, r) →
      x = s ++ r ∧ List.Forall₂ (fun k c => TimeClass.accepts k c = true) shape s := by
  induction shape with
  | nil =>
    intro x s r h
    simp only [matchShape, Option.some.injEq, Prod.mk.injEq] at h
    obtain ⟨h1, h2⟩ := h
    subst h1 h2
    exact ⟨rfl, List.Forall₂.nil⟩
  | cons k ks ih =>
    intro x s r h
    cases x with
    | nil => simp [matchShape] at h
    | cons c cs =>
      simp only [matchShape] at h
      split at h
      · rename_i hk
        cases hm : matchShape ks cs with
        | none => simp [hm] at h
        | some p =>
          obtain ⟨s1, r1⟩ := p
          simp only [hm, Option.some.injEq, Prod.mk.injEq] at h
          obtain ⟨h1, h2⟩ := h
          subst h1 h2
          obtain ⟨hx, hf⟩ := ih cs s1 r1 hm
          exact ⟨by rw [hx]; rfl, List.Forall₂.cons hk hf⟩
      · simp at h

theorem replaceScan_comma_dot (t : Str) :
    replaceScan ",".toList ".".toList 0 t = t.map fun c => if c = ',' then '.' else c := by
  induction t with
  | nil => rfl
  | cons c cs ih =>
    by_cases hc : c = ','
    · subst hc
      simp only [replaceScan, List.map_cons, if_true]
      have hp : ",".toList.isPrefixOf (',' :: cs) = true := by
        simp [List.isPrefixOf]
      rw [if_pos hp]
      show '.' :: replaceScan ",".toList ".".toList 0 cs = _
      rw [ih]
    · simp only [replaceScan, List.map_cons, if_neg hc]
      have hp : ",".toList.isPrefixOf (c :: cs) = false := by
        simp [List.isPrefixOf, Ne.symm hc]
      rw [hp]
      simp only [Bool.false_eq_true, if_false]
      rw [ih]

theorem digit_facts (c : Char) (h : isReDigit c = true) :
    c ≠ ',' ∧ c ≠ ':' ∧ c ≠ '.' ∧ isSpace c = false := by
  have key : ∀ d ∈ decimalDigits, d ≠ ',' ∧ d ≠ ':' ∧ d ≠ '.' ∧ isSpace d = false := by decide
  exact key c (isReDigit_mem c h)


theorem toVTTTime_MS (a b c d m e f g : Char) (ha : isReDigit a = true)
    (hb : isReDigit b = true) (hc : isReDigit c = true) (hd : isReDigit d = true)
    (he : isReDigit e = true) (hf : isReDigit f = true) (hg : isReDigit g = true)
    (hm : m = '.' ∨ m = ',') :
    toVTTTime [a, b, ':', c, d, m, e, f, g] = ['0', '0', ':', a, b, ':', c, d, '.', e, f, g] ∧
      canonTime [a, b, ':', c, d, m, e, f, g] =
        ['0', '0', ':', a, b, ':', c, d, '.', e, f, g] := by
  obtain ⟨a1, a2, a3, a4⟩ := digit_facts a ha
  obtain ⟨b1, b2, b3, b4⟩ := digit_facts b hb
  obtain ⟨c1, c2, c3, c4⟩ := digit_facts c hc
  obtain ⟨d1, d2, d3, d4⟩ := digit_facts d hd
  obtain ⟨e1, e2, e3, e4⟩ := digit_facts e he
  obtain ⟨f1, f2, f3, f4⟩ := digit_facts f hf
  obtain ⟨g1, g2, g3, g4⟩ := digit_facts g hg
  have hmap : ([a, b, ':', c, d, m, e, f, g].map fun x => if x = ',' then '.' else x) =
      [a, b, ':', c, d, '.', e, f, g] := by
    rcases hm with hm | hm <;> subst hm <;> simp [a1, b1, c1, d1, e1, f1, g1]
  have htrim : TrimSpace [a, b, ':', c, d, '.', e, f, g] = [a, b, ':', c, d, '.', e, f, g] := by
    apply TrimSpace_of_no_space
    intro x hx
    simp only [List.mem_cons, List.mem_singleton, List.not_mem_nil, or_false] at hx
    rcases hx with h | h | h | h | h | h | h | h | h <;> subst h <;>
      first | assumption | decide
  constructor
  · unfold toVTTTime ReplaceAll
    rw [if_neg (by decide), replaceScan_comma_dot, hmap, htrim]
    simp [fullShape, matchShape, TimeClass.accepts, ha, hb, hc, hd, he, hf, hg]
  · unfold canonTime
    simp only [hmap]
    simp [List.count_cons, a2, b2, c2, d2, e2, f2, g2]


theorem toVTTTime_H (h1 a b c d m e f g : Char) (hh1 : isReDigit h1 = true)
    (ha : isReDigit a = true)
    (hb : isReDigit b = true) (hc : isReDigit c = true) (hd : isReDigit d = true)
    (he : isReDigit e = true) (hf : isReDigit f = true) (hg : isReDigit g = true)
    (hm : m = '.' ∨ m = ',') :
    toVTTTime [h1, ':', a, b, ':', c, d, m, e, f, g] =
        ['0', h1, ':', a, b, ':', c, d, '.', e, f, g] ∧
      canonTime [h1, ':', a, b, ':', c, d, m, e, f, g] =
        ['0', h1, ':', a, b, ':', c, d, '.', e, f, g] := by
  obtain ⟨k1, k2, k3, k4⟩ := digit_facts h1 hh1
  obtain ⟨a1, a2, a3, a4⟩ := digit_facts a ha
  obtain ⟨b1, b2, b3, b4⟩ := digit_facts b hb
  obtain ⟨c1, c2, c3, c4⟩ := digit_facts c hc
  obtain ⟨d1, d2, d3, d4⟩ := digit_facts d hd
  obtain ⟨e1, e2, e3, e4⟩ := digit_facts e he
  obtain ⟨f1, f2, f3, f4⟩ := digit_facts f hf
  obtain ⟨g1, g2, g3, g4⟩ := digit_facts g hg
  have hmap : ([h1, ':', a, b, ':', c, d, m, e, f, g].map fun x => if x = ',' then '.' else x) =
      [h1, ':', a, b, ':', c, d, '.', e, f, g] := by
    rcases hm with hm | hm <;> subst hm <;> simp [k1, a1, b1, c1, d1, e1, f1, g1]
  have htrim : TrimSpace [h1, ':', a, b, ':', c, d, '.', e, f, g] =
      [h1, ':', a, b, ':', c, d, '.', e, f, g] := by
    apply TrimSpace_of_no_space
    intro x hx
    simp only [List.mem_cons, List.mem_singleton, List.not_mem_nil, or_false] at hx
    rcases hx with h | h | h | h | h | h | h | h | h | h | h <;> subst h <;>
      first | assumption | decide
  have hcolon : isReDigit ':' = false := by decide
  constructor
  · unfold toVTTTime ReplaceAll
    rw [if_neg (by decide), replaceScan_comma_dot, hmap, htrim]
    simp [fullShape, matchShape, TimeClass.accepts, hh1, ha, hb, hc, hd, he, hf, hg, hcolon]
  · unfold canonTime
    simp only [hmap]
    simp [List.count_cons, k2, a2, b2, c2, d2, e2, f2, g2]

theorem toVTTTime_HH (h1 h2 a b c d m e f g : Char) (hh1 : isReDigit h1 = true)
    (hh2 : isReDigit h2 = true) (ha : isReDigit a = true)
    (hb : isReDigit b = true) (hc : isReDigit c = true) (hd : isReDigit d = true)
    (he : isReDigit e = true) (hf : isReDigit f = true) (hg : isReDigit g = true)
    (hm : m = '.' ∨ m = ',') :
    toVTTTime [h1, h2, ':', a, b, ':', c, d, m, e, f, g] =
        [h1, h2, ':', a, b, ':', c, d, '.', e, f, g] ∧
      canonTime [h1, h2, ':', a, b, ':', c, d, m, e, f, g] =
        [h1, h2, ':', a, b, ':', c, d, '.', e, f, g] := by
  obtain ⟨k1, k2, k3, k4⟩ := digit_facts h1 hh1
  obtain ⟨l1, l2, l3, l4⟩ := digit_facts h2 hh2
  obtain ⟨a1, a2, a3, a4⟩ := digit_facts a ha
  obtain ⟨b1, b2, b3, b4⟩ := digit_facts b hb
  obtain ⟨c1, c2, c3, c4⟩ := digit_facts c hc
  obtain ⟨d1, d2, d3, d4⟩ := digit_facts d hd
  obtain ⟨e1, e2, e3, e4⟩ := digit_facts e he
  obtain ⟨f1, f2, f3, f4⟩ := digit_facts f hf
  obtain ⟨g1, g2, g3, g4⟩ := digit_facts g hg
  have hmap : ([h1, h2, ':', a, b, ':', c, d, m, e, f, g].map
      fun x => if x = ',' then '.' else x) =
      [h1, h2, ':', a, b, ':', c, d, '.', e, f, g] := by
    rcases hm with hm | hm <;> subst hm <;> simp [k1, l1, a1, b1, c1, d1, e1, f1, g1]
  have htrim : TrimSpace [h1, h2, ':', a, b, ':', c, d, '.', e, f, g] =
      [h1, h2, ':', a, b, ':', c, d, '.', e, f, g] := by
    apply TrimSpace_of_no_space
    intro x hx
    simp only [List.mem_cons, List.mem_singleton, List.not_mem_nil, or_false] at hx
    rcases hx with h | h | h | h | h | h | h | h | h | h | h | h <;> subst h <;>
      first | assumption | decide
  have hcolon : isReDigit ':' = false := by decide
  constructor
  · unfold toVTTTime ReplaceAll
    rw [if_neg (by decide), replaceScan_comma_dot, hmap, htrim]
    simp [fullShape, matchShape, TimeClass.accepts, hh1, hh2, ha, hb, hc, hd, he, hf, hg, hcolon,
      l2]
  · unfold canonTime
    simp only [hmap]
    simp [List.count_cons, k2, l2, a2, b2, c2, d2, e2, f2, g2]


theorem isCanonicalTime_digits (h1 h2 a b c d e f g : Char) (hh1 : isReDigit h1 = true)
    (hh2 : isReDigit h2 = true) (ha : isReDigit a = true)
    (hb : isReDigit b = true) (hc : isReDigit c = true) (hd : isReDigit d = true)
    (he : isReDigit e = true) (hf : isReDigit f = true) (hg : isReDigit g = true) :
    isCanonicalTime [h1, h2, ':', a, b, ':', c, d, '.', e, f, g] = true := by
  simp [isCanonicalTime, hh1, hh2, ha, hb, hc, hd, he, hf, hg]

theorem matchShape_canon (shape : List TimeClass)
    (hshape : shape = shapeHH ∨ shape = shapeH ∨ shape = shapeMS) (x s r : Str)
    (h : matchShape shape x = some (s, r)) :
    toVTTTime s = canonTime s ∧ isCanonicalTime (canonTime s) = true := by
  obtain ⟨_, hf⟩ := matchShape_spec shape x s r h
  have hzero : isReDigit '0' = true := by decide
  rcases hshape with hs | hs | hs
  · subst hs
    simp only [shapeHH, List.forall₂_cons_left_iff, List.forall₂_nil_left_iff,
      TimeClass.accepts, decide_eq_true_eq, Bool.or_eq_true] at hf
    obtain ⟨h1, _, k1, ⟨h2, _, k2, ⟨_, _, rfl, ⟨a, _, ka, ⟨b, _, kb, ⟨_, _, rfl,
      ⟨c, _, kc, ⟨d, _, kd, ⟨m, _, km, ⟨e, _, ke, ⟨f, _, kf, ⟨g, _, kg, rfl, rfl⟩, rfl⟩,
      rfl⟩, rfl⟩, rfl⟩, rfl⟩, rfl⟩, rfl⟩, rfl⟩, rfl⟩, rfl⟩, rfl⟩ := hf
    obtain ⟨e1, e2⟩ := toVTTTime_HH h1 h2 a b c d m e f g k1 k2 ka kb kc kd ke kf kg km
    rw [e1, e2]
    exact ⟨rfl, isCanonicalTime_digits h1 h2 a b c d e f g k1 k2 ka kb kc kd ke kf kg⟩
  · subst hs
    simp only [shapeH, List.forall₂_cons_left_iff, List.forall₂_nil_left_iff,
      TimeClass.accepts, decide_eq_true_eq, Bool.or_eq_true] at hf
    obtain ⟨h1, _, k1, ⟨_, _, rfl, ⟨a, _, ka, ⟨b, _, kb, ⟨_, _, rfl,
      ⟨c, _, kc, ⟨d, _, kd, ⟨m, _, km, ⟨e, _, ke, ⟨f, _, kf, ⟨g, _, kg, rfl, rfl⟩, rfl⟩,
      rfl⟩, rfl⟩, rfl⟩, rfl⟩, rfl⟩, rfl⟩, rfl⟩, rfl⟩, rfl⟩ := hf
    obtain ⟨e1, e2⟩ := toVTTTime_H h1 a b c d m e f g k1 ka kb kc kd ke kf kg km
    rw [e1, e2]
    exact ⟨rfl, isCanonicalTime_digits '0' h1 a b c d e f g hzero k1 ka kb kc kd ke kf kg⟩
  · subst hs
    simp only [shapeMS, List.forall₂_cons_left_iff, List.forall₂_nil_left_iff,
      TimeClass.accepts, decide_eq_true_eq, Bool.or_eq_true] at hf
    obtain ⟨a, _, ka, ⟨b, _, kb, ⟨_, _, rfl,
      ⟨c, _, kc, ⟨d, _, kd, ⟨m, _, km, ⟨e, _, ke, ⟨f, _, kf, ⟨g, _, kg, rfl, rfl⟩, rfl⟩,
      rfl⟩, rfl⟩, rfl⟩, rfl⟩, rfl⟩, rfl⟩, rfl⟩ := hf
    obtain ⟨e1, e2⟩ := toVTTTime_MS a b c d m e f g ka kb kc kd ke kf kg km
    rw [e1, e2]
    exact ⟨rfl, isCanonicalTime_digits '0' '0' a b c d e f g hzero hzero ka kb kc kd ke kf kg⟩

theorem vttTimeAt_canon (x s r : Str) (h : vttTimeAt x = some (s, r)) :
    toVTTTime s = canonTime s ∧ isCanonicalTime (canonTime s) = true := by
  unfold vttTimeAt at h
  split at h
  · rename_i p hp
    rw [Option.some.inj h] at hp
    exact matchShape_canon shapeHH (Or.inl rfl) x s r hp
  · split at h
    · rename_i p hp
      rw [Option.some.inj h] at hp
      exact matchShape_canon shapeH (Or.inr (Or.inl rfl)) x s r hp
    · exact matchShape_canon shapeMS (Or.inr (Or.inr rfl)) x s r h

theorem vttTimestampRe_parts (x s e rest : Str) (h : vttTimestampRe x = some (s, e, rest)) :
    ∃ r y, vttTimeAt x = some (s, r) ∧ vttTimeAt y = some (e, rest) := by
  unfold vttTimestampRe at h
  split at h
  · simp at h
  · rename_i start r1 h1
    simp only at h
    split at h
    · split at h
      · simp at h
      · rename_i stop rest1 h2
        split at h
        · simp at h
        · simp only [Option.some.injEq, Prod.mk.injEq] at h
          obtain ⟨rfl, rfl, rfl⟩ := h
          exact ⟨r1, _, h1, h2⟩
    · simp at h


/-! ## Line-oriented dialect: the lines of the output text -/

theorem stringsSplit_stringsJoin_lines :
    ∀ ls : List Str, ls ≠ [] → (∀ l ∈ ls, '\n' ∉ l) →
      stringsSplit (stringsJoin "\n".toList ls) "\n".toList = ls := by
  have hsplit : ∀ s : Str, stringsSplit s "\n".toList = splitScan ['\n'] 0 s := by
    intro s
    unfold stringsSplit
    rw [if_neg (by decide)]
    rfl
  intro ls
  induction ls with
  | nil => intro h; exact absurd rfl h
  | cons x rest ih =>
    intro _ hno
    cases rest with
    | nil =>
      rw [hsplit]
      exact splitScan_char_last '\n' x (hno x (List.mem_cons_self _ _))
    | cons y rest1 =>
      have hjoin : stringsJoin "\n".toList (x :: y :: rest1) =
          x ++ '\n' :: stringsJoin "\n".toList (y :: rest1) := by
        simp [stringsJoin]
      rw [hsplit, hjoin, splitScan_char_field '\n' _ x (hno x (List.mem_cons_self _ _)),
        ← hsplit, ih (by simp) (fun l hl => hno l (List.mem_cons_of_mem _ hl))]

theorem splitScan_char_parts (c : Char) :
    ∀ (s : Str), ∀ part ∈ splitScan [c] 0 s, c ∉ part := by
  intro s
  induction s with
  | nil =>
    intro part hp
    simp only [splitScan, List.mem_singleton] at hp
    rw [hp]
    exact List.not_mem_nil _
  | cons d cs ih =>
    intro part hp
    rw [splitScan_cons] at hp
    split at hp
    · simp only [List.length_singleton, Nat.sub_self, List.mem_cons] at hp
      rcases hp with hp | hp
      · rw [hp]
        exact List.not_mem_nil _
      · exact ih part hp
    · rename_i hpre
      have hdc : d ≠ c := by
        intro h
        apply hpre
        rw [h]
        simp [List.isPrefixOf]
      cases hsc : splitScan [c] 0 cs with
      | nil =>
        rw [hsc] at hp
        simp only [consHead, List.mem_singleton] at hp
        rw [hp]
        simp [Ne.symm hdc]
      | cons p ps =>
        rw [hsc] at hp
        simp only [consHead, List.mem_cons] at hp
        rcases hp with hp | hp
        · rw [hp]
          have := ih p (by rw [hsc]; exact List.mem_cons_self _ _)
          simp [Ne.symm hdc, this]
        · exact ih part (by rw [hsc]; exact List.mem_cons_of_mem _ hp)

theorem stringsSplit_lines_no_newline (content : Str) :
    ∀ l ∈ stringsSplit content "\n".toList, '\n' ∉ l := by
  intro l hl
  unfold stringsSplit at hl
  rw [if_neg (by decide)] at hl
  exact splitScan_char_parts '\n' content l hl

theorem regexReplaceScan_mem (matchAt : Str → Option Nat) (rep : Str) :
    ∀ (s : Str) (k : Nat), ∀ x ∈ regexReplaceScan matchAt rep k s, x ∈ rep ∨ x ∈ s := by
  intro s
  induction s with
  | nil => intro k x hx; simp [regexReplaceScan] at hx
  | cons c cs ih =>
    intro k x hx
    cases k with
    | succ n =>
      simp only [regexReplaceScan] at hx
      rcases ih n x hx with h | h
      · exact Or.inl h
      · exact Or.inr (List.mem_cons_of_mem _ h)
    | zero =>
      simp only [regexReplaceScan] at hx
      split at hx
      · rename_i n _
        rcases List.mem_append.mp hx with h | h
        · exact Or.inl h
        · rcases ih n x h with h1 | h1
          · exact Or.inl h1
          · exact Or.inr (List.mem_cons_of_mem _ h1)
      · rcases List.mem_cons.mp hx with h | h
        · exact Or.inr (by rw [h]; exact List.mem_cons_self _ _)
        · rcases ih 0 x h with h1 | h1
          · exact Or.inl h1
          · exact Or.inr (List.mem_cons_of_mem _ h1)

theorem RemoveFontTags_mem (s : Str) : ∀ x ∈ RemoveFontTags s, x ∈ s := by
  intro x hx
  unfold RemoveFontTags at hx
  rcases regexReplaceScan_mem fontTagAt [] _ 0 x hx with h | h
  · exact absurd h (List.not_mem_nil _)
  · rcases regexReplaceScan_mem emptyFontTagAt [] _ 0 x h with h1 | h1
    · exact absurd h1 (List.not_mem_nil _)
    · exact h1

theorem vttTagRe_ReplaceAll_mem (s : Str) : ∀ x ∈ vttTagRe_ReplaceAll s, x ∈ s := by
  intro x hx
  unfold vttTagRe_ReplaceAll at hx
  rcases regexReplaceScan_mem vttTagAt [] _ 0 x hx with h | h
  · exact absurd h (List.not_mem_nil _)
  · exact h

theorem TrimSpace_mem (s : Str) : ∀ x ∈ TrimSpace s, x ∈ s := by
  intro x hx
  unfold TrimSpace at hx
  rw [List.mem_reverse] at hx
  have h1 := (List.dropWhile_sublist isSpace).subset hx
  rw [List.mem_reverse] at h1
  exact (List.dropWhile_sublist isSpace).subset h1

theorem collapseScan_mem : ∀ (s : Str) (b : Bool), ∀ x ∈ collapseScan b s, x = ' ' ∨ x ∈ s := by
  intro s
  induction s with
  | nil => intro b x hx; simp [collapseScan] at hx
  | cons c cs ih =>
    intro b x hx
    simp only [collapseScan] at hx
    split at hx
    · split at hx
      · rcases ih true x hx with h | h
        · exact Or.inl h
        · exact Or.inr (List.mem_cons_of_mem _ h)
      · rcases List.mem_cons.mp hx with h | h
        · exact Or.inl h
        · rcases ih true x h with h1 | h1
          · exact Or.inl h1
          · exact Or.inr (List.mem_cons_of_mem _ h1)
    · rcases List.mem_cons.mp hx with h | h
      · exact Or.inr (by rw [h]; exact List.mem_cons_self _ _)
      · rcases ih false x h with h1 | h1
        · exact Or.inl h1
        · exact Or.inr (List.mem_cons_of_mem _ h1)

theorem lineBreakRun_no_newline :
    ∀ (s : Str) (k : Nat), '\n' ∉ regexReplaceScan lineBreakRunAt " ".toList k s := by
  intro s
  induction s with
  | nil => intro k; simp [regexReplaceScan]
  | cons c cs ih =>
    intro k
    cases k with
    | succ n =>
      simp only [regexReplaceScan]
      exact ih n
    | zero =>
      simp only [regexReplaceScan]
      split
      · rename_i n _
        intro hx
        rcases List.mem_append.mp hx with h | h
        · revert h
          decide
        · exact ih n h
      · rename_i hno
        intro hx
        rcases List.mem_cons.mp hx with h | h
        · have hm : lineBreakRunAt (c :: cs) =
              some (((c :: cs).takeWhile isReSpace).length) := by
            unfold lineBreakRunAt
            have hsp : isReSpace c = true := by rw [← h]; decide
            have hc : ((c :: cs).takeWhile isReSpace).contains '\n' = true := by
              rw [List.takeWhile_cons_of_pos hsp, ← h]
              simp
            rw [if_pos hc]
          have hlen : ((c :: cs).takeWhile isReSpace).length =
              (cs.takeWhile isReSpace).length + 1 := by
            have hsp : isReSpace c = true := by rw [← h]; decide
            rw [List.takeWhile_cons_of_pos hsp, List.length_cons]
          rw [hlen] at hm
          exact hno _ hm
        · exact ih 0 h

theorem SingleLine_no_newline (s : Str) : '\n' ∉ SingleLine s := by
  intro hx
  unfold SingleLine at hx
  have h1 := TrimSpace_mem _ _ hx
  unfold horizontalWhitespaceRe_ReplaceAll at h1
  rcases collapseScan_mem _ _ _ h1 with h | h
  · revert h
    decide
  · exact lineBreakRun_no_newline s 0 h


theorem trailingTagsRe_FindString_mem : ∀ (s : Str), ∀ x ∈ trailingTagsRe_FindString s, x ∈ s := by
  intro s
  induction s with
  | nil => intro x hx; simp [trailingTagsRe_FindString] at hx
  | cons c cs ih =>
    intro x hx
    simp only [trailingTagsRe_FindString] at hx
    split at hx
    · exact hx
    · exact List.mem_cons_of_mem _ (ih x hx)

theorem vttRebuildLine_no_newline (original t : Str) (h : '\n' ∉ original) :
    '\n' ∉ vttRebuildLine original t := by
  intro hx
  unfold vttRebuildLine at hx
  have h1 := RemoveFontTags_mem _ _ hx
  simp only [List.mem_append] at h1
  rcases h1 with (h1 | h1) | h1
  · split at h1
    · have h2 := RemoveFontTags_mem _ _ h1
      unfold leadingTagsRe_FindString at h2
      exact h (List.mem_of_mem_take h2)
    · exact absurd h1 (List.not_mem_nil _)
  · split at h1
    · exact h (vttTagRe_ReplaceAll_mem _ _ (TrimSpace_mem _ _ h1))
    · exact SingleLine_no_newline t (RemoveFontTags_mem _ _ (TrimSpace_mem _ _ h1))
  · split at h1
    · exact h (trailingTagsRe_FindString_mem _ _ (RemoveFontTags_mem _ _ h1))
    · exact absurd h1 (List.not_mem_nil _)

theorem isCanonicalTime_no_newline (t : Str) (h : isCanonicalTime t = true) : '\n' ∉ t := by
  have hd : ∀ c : Char, isReDigit c = true → '\n' ≠ c := by
    intro c hc heq
    rw [← heq] at hc
    revert hc
    decide
  unfold isCanonicalTime at h
  split at h
  · simp only [Bool.and_eq_true, decide_eq_true_eq] at h
    obtain ⟨⟨⟨⟨⟨⟨⟨⟨⟨⟨⟨h1, h2⟩, h3⟩, h4⟩, h5⟩, h6⟩, h7⟩, h8⟩, h9⟩, h10⟩, h11⟩, h12⟩ := h
    subst h3 h6 h9
    simp only [List.mem_cons, List.mem_singleton, List.not_mem_nil, or_false, not_or]
    exact ⟨hd _ h1, hd _ h2, by decide, hd _ h4, hd _ h5, by decide, hd _ h7, hd _ h8,
      by decide, hd _ h10, hd _ h11, hd _ h12⟩
  · exact absurd h Bool.false_ne_true

theorem vttTimestampRe_rest (x s e rest : Str) (h : vttTimestampRe x = some (s, e, rest)) :
    '\n' ∉ rest := by
  unfold vttTimestampRe at h
  split at h
  · simp at h
  · simp only at h
    split at h
    · split at h
      · simp at h
      · split at h
        · simp at h
        · rename_i hc
          simp only [Option.some.injEq, Prod.mk.injEq] at h
          obtain ⟨_, _, rfl⟩ := h
          simpa using hc
    · simp at h

theorem vttScanLine_no_newline (line : Str) (h : '\n' ∉ line) : '\n' ∉ (vttScanLine line).1 := by
  have hr : '\n' ∉ RemoveFontTags line := fun hx => h (RemoveFontTags_mem _ _ hx)
  unfold vttScanLine
  simp only
  split
  · unfold normalizeTimestampLine
    split
    · exact hr
    · rename_i s e rest hm
      obtain ⟨r, y, hs, he⟩ := vttTimestampRe_parts _ s e rest hm
      obtain ⟨hs1, hs2⟩ := vttTimeAt_canon _ s r hs
      obtain ⟨he1, he2⟩ := vttTimeAt_canon _ e rest he
      rw [hs1, he1]
      simp only [List.mem_append, not_or]
      exact ⟨⟨⟨isCanonicalTime_no_newline _ hs2, by decide⟩,
        isCanonicalTime_no_newline _ he2⟩, vttTimestampRe_rest _ s e rest hm⟩
  · split
    · exact hr
    · split <;> exact hr


/-- The lines of the text returned by `TranslateVTT`: the output has as many
lines as the document; a line that is not submitted for translation is the
stored line of the first loop, and the `k`-th submitted line is rebuilt from its
stored line and the `k`-th entry of the result of `BatchTranslate`. -/
theorem TranslateVTT_output_lines (backend : Str → Except String Str) (rnd : Nat → Nat)
    (content : Str) :
    ∃ translated out,
      BatchTranslate backend rnd ((vttTextLines 0 (vttScannedLines content)).map fun p => p.2) =
        some (.ok translated) ∧
      TranslateVTT backend rnd content = some (.ok out) ∧
      (stringsSplit out "\n".toList).length = (stringsSplit content "\n".toList).length ∧
      (∀ (i : Nat) (l : Str),
        (vttScannedLines content)[i]? = some (l, none) →
        (stringsSplit out "\n".toList)[i]? = some l) ∧
      (∀ (k i : Nat) (clean l : Str),
        (vttTextLines 0 (vttScannedLines content))[k]? = some (i, clean) →
        (vttScannedLines content)[i]? = some (l, some clean) →
        (stringsSplit out "\n".toList)[i]? = some (vttRebuildLine l (translated.getD k []))) := by
  obtain ⟨translated, outLines, hbt, _, hout, hlen, hnone, hsome⟩ :=
    TranslateVTT_lines backend rnd content
  have hlen1 : outLines.length = (stringsSplit content "\n".toList).length := by
    rw [hlen]
    simp [vttScannedLines]
  have hpos : 0 < (stringsSplit content "\n".toList).length := by
    unfold stringsSplit
    rw [if_neg (by decide)]
    cases content with
    | nil => simp [splitScan]
    | cons c cs =>
      rw [splitScan_cons]
      split
      · simp
      · cases splitScan "\n".toList 0 cs <;> simp [consHead]
  have hne : outLines ≠ [] := by
    intro h0
    rw [h0] at hlen1
    simp only [List.length_nil] at hlen1
    omega
  have hno : ∀ l ∈ outLines, '\n' ∉ l := by
    intro l hl
    obtain ⟨i, hi⟩ := List.mem_iff_getElem?.mp hl
    have hilt : i < (stringsSplit content "\n".toList).length := by
      rw [← hlen1]
      exact (List.getElem?_eq_some_iff.mp hi).1
    have hline : (stringsSplit content "\n".toList)[i]? =
        some ((stringsSplit content "\n".toList)[i]) := List.getElem?_eq_getElem hilt
    have hin : '\n' ∉ (stringsSplit content "\n".toList)[i] :=
      stringsSplit_lines_no_newline content _ (List.getElem_mem hilt)
    have hscan : (vttScannedLines content)[i]? =
        some (vttScanLine ((stringsSplit content "\n".toList)[i])) := by
      unfold vttScannedLines
      rw [List.getElem?_map, hline]
      rfl
    have hstored := vttScanLine_no_newline _ hin
    cases ho : (vttScanLine ((stringsSplit content "\n".toList)[i])).2 with
    | none =>
      have hpair : vttScanLine ((stringsSplit content "\n".toList)[i]) =
          ((vttScanLine ((stringsSplit content "\n".toList)[i])).1, none) := Prod.ext rfl ho
      rw [hpair] at hscan
      have := hnone i _ hscan
      rw [hi] at this
      rw [Option.some.inj this]
      exact hstored
    | some clean =>
      have hpair : vttScanLine ((stringsSplit content "\n".toList)[i]) =
          ((vttScanLine ((stringsSplit content "\n".toList)[i])).1, some clean) :=
        Prod.ext rfl ho
      rw [hpair] at hscan
      have hmem := vttTextLines_complete (vttScannedLines content) 0 i _ clean hscan
      rw [Nat.zero_add] at hmem
      obtain ⟨k, hk⟩ := List.mem_iff_getElem?.mp hmem
      have := hsome k i clean _ hk hscan
      rw [hi] at this
      rw [Option.some.inj this]
      exact vttRebuildLine_no_newline _ _ hstored
  have hsplit := stringsSplit_stringsJoin_lines outLines hne hno
  refine ⟨translated, stringsJoin "\n".toList outLines, hbt, hout, ?_, ?_, ?_⟩
  · rw [hsplit, hlen1]
  · rw [hsplit]
    exact hnone
  · rw [hsplit]
    exact hsome

/-! ## Line-oriented dialect: the claims about single lines -/

theorem vttScanLine_stored (line : Str)
    (htime : (vttTimestampRe (TrimSpace (RemoveFontTags line))).isSome = false) :
    (vttScanLine line).1 = RemoveFontTags line := by
  unfold vttScanLine
  simp only [htime, Bool.false_eq_true, if_false]
  split
  · rfl
  · split <;> rfl

/-- C14, amended. Structural lines pass through: for every document and every
backend, the text returned by `TranslateVTT` has as many lines as the document,
and an input line without font markup that is blank, consists of decimal digits
only, or begins with `WEBVTT`, `NOTE` or `STYLE` stands unchanged at its line
index.  A line that is neither a timing line nor submitted for translation
stands at its index with its font markup removed, hence unchanged when it has
none: only timing lines, submitted text lines and lines holding font markup
differ from the input. -/
theorem TranslateVTT_structural_lines (backend : Str → Except String Str) (rnd : Nat → Nat)
    (content : Str) (i : Nat) (line : Str)
    (hline : (stringsSplit content "\n".toList)[i]? = some line) :
    ∃ out : Str,
      TranslateVTT backend rnd content = some (.ok out) ∧
      (stringsSplit out "\n".toList).length = (stringsSplit content "\n".toList).length ∧
      (hasFontTag line = false →
        (TrimSpace line = [] ∨ isDigitOnly line = true ∨ "WEBVTT".toList <+: line ∨
          "NOTE".toList <+: line ∨ "STYLE".toList <+: line) →
        (stringsSplit out "\n".toList)[i]? = some line) ∧
      ((vttTimestampRe (TrimSpace (RemoveFontTags line))).isSome = false →
        i ∉ (vttTextLines 0 (vttScannedLines content)).map (fun p => p.1) →
        (stringsSplit out "\n".toList)[i]? = some (RemoveFontTags line) ∧
        (hasFontTag line = false → (stringsSplit out "\n".toList)[i]? = some line)) := by
  obtain ⟨translated, out, _, hout, hlen, hnone, _⟩ :=
    TranslateVTT_output_lines backend rnd content
  have hscan : (vttScannedLines content)[i]? = some (vttScanLine line) := by
    unfold vttScannedLines
    rw [List.getElem?_map, hline]
    rfl
  refine ⟨out, hout, hlen, ?_, ?_⟩
  · intro hfont h
    rw [vttScanLine_structural line hfont h] at hscan
    exact hnone i line hscan
  · intro htime hsub
    have hfst := vttScanLine_stored line htime
    have hstored : (stringsSplit out "\n".toList)[i]? = some (RemoveFontTags line) := by
      cases ho : (vttScanLine line).2 with
      | none =>
        have hpair : vttScanLine line = (RemoveFontTags line, none) := Prod.ext hfst ho
        rw [hpair] at hscan
        exact hnone i _ hscan
      | some clean =>
        have hpair : vttScanLine line = (RemoveFontTags line, some clean) := Prod.ext hfst ho
        rw [hpair] at hscan
        have hmem := vttTextLines_complete (vttScannedLines content) 0 i _ clean hscan
        rw [Nat.zero_add] at hmem
        exact absurd (List.mem_map.mpr ⟨(i, clean), hmem, rfl⟩) hsub
    refine ⟨hstored, ?_⟩
    intro hfont
    rw [hstored, RemoveFontTags_of_no_font line hfont]

set_option maxRecDepth 100000 in
/-- The pass-through at the scenario input: the index line `12`, a timing line
and a text line, with a backend that answers in upper case. -/
theorem TranslateVTT_structural_lines_witness :
    ∃ out : Str,
      TranslateVTT (fun s => .ok (s.map Char.toUpper)) (fun _ => 0)
          "12\n00:01:02.345 --> 00:01:03.000\nhello".toList = some (.ok out) ∧
      (stringsSplit out "\n".toList).length = 3 ∧
      (stringsSplit out "\n".toList)[0]? = some "12".toList := by
  obtain ⟨out, h1, h2, h3, _⟩ := TranslateVTT_structural_lines
    (fun s => .ok (s.map Char.toUpper)) (fun _ => 0)
    "12\n00:01:02.345 --> 00:01:03.000\nhello".toList 0 "12".toList (by rfl)
  refine ⟨out, h1, ?_, h3 (by rfl) (Or.inr (Or.inl (by rfl)))⟩
  rw [h2]
  rfl

set_option maxRecDepth 100000 in
/-- **C14, counterexample.** The line `NOTE <font color=red>hello</font>`
begins with `NOTE`; it is not a timing line and it is not submitted for
translation, yet the output line is `NOTE hello`: `TranslateVTT` removes font
markup from every line before it classifies the line.  Likewise the line
`12<font></font>` comes out as `12`. -/
theorem TranslateVTT_font_line_differs :
    "NOTE".toList <+: "NOTE <font color=red>hello</font>".toList ∧
      vttTimestampRe (TrimSpace "NOTE <font color=red>hello</font>".toList) = none ∧
      vttTextLines 0 (vttScannedLines "NOTE <font color=red>hello</font>".toList) = [] ∧
      TranslateVTT (fun s => .ok (s.map Char.toUpper)) (fun _ => 0)
          "NOTE <font color=red>hello</font>".toList = some (.ok "NOTE hello".toList) ∧
      "NOTE hello".toList ≠ "NOTE <font color=red>hello</font>".toList ∧
      vttTextLines 0 (vttScannedLines "12<font></font>".toList) = [] ∧
      TranslateVTT (fun s => .ok (s.map Char.toUpper)) (fun _ => 0)
          "12<font></font>".toList = some (.ok "12".toList) :=
  ⟨⟨" <font color=red>hello</font>".toList, rfl⟩, by rfl, by rfl, by rfl, by decide, by rfl,
    by rfl⟩

/-- C15, amended. Markup reattachment: let a line of the document be the `k`-th
line submitted for translation, `l` the line with its font markup removed, `L`
and `R` the runs of inline tags at the start and at the end of `l`, `t` the
`k`-th translation returned by `BatchTranslate`, and `t'` the text `t` forced to
a single line, with font markup removed and trimmed.  When `t'` is not empty,
neither `L` nor `R` holds font markup and `L + t' + R` holds none either, the
line of the output at that index is `L + t' + R`. -/
theorem TranslateVTT_reattaches_markup (backend : Str → Except String Str) (rnd : Nat → Nat)
    (content : Str) (k i : Nat) (line clean : Str) (translated : List Str)
    (hline : (stringsSplit content "\n".toList)[i]? = some line)
    (hk : (vttTextLines 0 (vttScannedLines content))[k]? = some (i, clean))
    (hbt : BatchTranslate backend rnd
      ((vttTextLines 0 (vttScannedLines content)).map fun p => p.2) = some (.ok translated))
    (ht : TrimSpace (RemoveFontTags (SingleLine (translated.getD k []))) ≠ [])
    (hL : hasFontTag (leadingTagsRe_FindString (RemoveFontTags line)) = false)
    (hR : hasFontTag (trailingTagsRe_FindString (RemoveFontTags line)) = false)
    (hall : hasFontTag (leadingTagsRe_FindString (RemoveFontTags line) ++
      TrimSpace (RemoveFontTags (SingleLine (translated.getD k []))) ++
      trailingTagsRe_FindString (RemoveFontTags line)) = false) :
    ∃ out : Str,
      TranslateVTT backend rnd content = some (.ok out) ∧
      (stringsSplit out "\n".toList).length = (stringsSplit content "\n".toList).length ∧
      (stringsSplit out "\n".toList)[i]? =
        some (leadingTagsRe_FindString (RemoveFontTags line) ++
          TrimSpace (RemoveFontTags (SingleLine (translated.getD k []))) ++
          trailingTagsRe_FindString (RemoveFontTags line)) := by
  obtain ⟨translated1, out, hbt1, hout, hlen, _, hsome⟩ :=
    TranslateVTT_output_lines backend rnd content
  have htr : translated1 = translated := by
    rw [hbt] at hbt1
    exact (Except.ok.inj (Option.some.inj hbt1)).symm
  subst htr
  have hscan : (vttScannedLines content)[i]? = some (vttScanLine line) := by
    unfold vttScannedLines
    rw [List.getElem?_map, hline]
    rfl
  obtain ⟨_, l, hl⟩ := vttTextLines_mem (vttScannedLines content) 0 (i, clean)
    (List.mem_iff_getElem?.mpr ⟨k, hk⟩)
  simp only [Nat.sub_zero] at hl
  have hpair : vttScanLine line = (l, some clean) := by
    rw [hscan] at hl
    exact Option.some.inj hl
  have hl1 : l = RemoveFontTags line := by
    have h1 := vttScanLine_submitted line clean (by rw [hpair])
    rw [hpair] at h1
    exact h1
  refine ⟨out, hout, hlen, ?_⟩
  rw [hsome k i clean l hk hl, hl1, vttRebuildLine_reattach _ _ ht hL hR hall]

set_option maxRecDepth 100000 in
/-- The reattachment at a concrete document: the line `<i>hello  there</i>` and
a backend that answers in upper case. -/
theorem TranslateVTT_reattaches_markup_witness :
    ∃ out : Str,
      TranslateVTT (fun s => .ok (s.map Char.toUpper)) (fun _ => 0)
          "<i>hello  there</i>".toList = some (.ok out) ∧
      (stringsSplit out "\n".toList).length = 1 ∧
      (stringsSplit out "\n".toList)[0]? = some "<i>HELLO THERE</i>".toList :=
  TranslateVTT_reattaches_markup (fun s => .ok (s.map Char.toUpper)) (fun _ => 0)
    "<i>hello  there</i>".toList 0 0 "<i>hello  there</i>".toList "hello  there".toList
    ["HELLO THERE".toList] (by rfl) (by rfl) (by rfl) (by decide) (by rfl) (by rfl) (by rfl)

/-- C21. Soft failure is atomic: for every chunk, result container, token and
backend, when the request for the joined texts fails, or when splitting the
response on the separator token gives a number of parts different from the
number of items of the chunk, `tryBatchTranslate` returns `false` and the
result container as it was.  Otherwise, the positions of the items lying in the
container as the store `result[item.index]` requires, it returns `true`, the
container keeps its length and every position that is not the position of an
item of the chunk keeps its value. -/
theorem tryBatchTranslate_atomic (backend : Str → Except String Str) (entropy : Nat)
    (chunk : List indexedText) (result : List Str) :
    ((∃ e, GoogleTranslate backend
          (stringsJoin (" ".toList ++ sepToken entropy ++ " ".toList)
            (chunk.map fun item => item.text)) = .error e) →
        tryBatchTranslate backend entropy chunk result = (result, false)) ∧
    (∀ translated : Str,
      GoogleTranslate backend
          (stringsJoin (" ".toList ++ sepToken entropy ++ " ".toList)
            (chunk.map fun item => item.text)) = .ok translated →
      ((stringsSplit translated (sepToken entropy)).length ≠ chunk.length →
        tryBatchTranslate backend entropy chunk result = (result, false)) ∧
      ((stringsSplit translated (sepToken entropy)).length = chunk.length →
        (∀ item ∈ chunk, item.index < result.length) →
        (tryBatchTranslate backend entropy chunk result).2 = true ∧
        (tryBatchTranslate backend entropy chunk result).1.length = result.length ∧
        ∀ i : Nat, (∀ item ∈ chunk, item.index ≠ i) →
          (tryBatchTranslate backend entropy chunk result).1[i]? = result[i]?)) := by
  refine ⟨?_, ?_⟩
  · rintro ⟨e, he⟩
    unfold tryBatchTranslate
    simp only [he]
  · intro translated hok
    refine ⟨?_, ?_⟩
    · intro hne
      unfold tryBatchTranslate
      simp only [hok, hne, ne_eq, not_false_eq_true, if_true]
    · intro heq _
      have hrun : tryBatchTranslate backend entropy chunk result =
          (storeParts chunk (stringsSplit translated (sepToken entropy)) result, true) := by
        unfold tryBatchTranslate
        simp only [hok, heq, ne_eq, not_true_eq_false, if_false]
      rw [hrun]
      refine ⟨rfl, storeParts_length chunk _ _, ?_⟩
      intro i hi
      exact storeParts_frame chunk i _ _ hi

set_option maxRecDepth 100000 in
/-- The three outcomes at a chunk of two items in a container of three: a
backend that rejects the request, a backend that answers `x` (one part for two
items), and a backend that answers in upper case (two parts). -/
theorem tryBatchTranslate_atomic_witness :
    tryBatchTranslate (fun _ => .error "unavailable") 0
        [⟨0, "a".toList⟩, ⟨2, "b".toList⟩] ["a".toList, "k".toList, "b".toList] =
      (["a".toList, "k".toList, "b".toList], false) ∧
    tryBatchTranslate (fun _ => .ok "x".toList) 0
        [⟨0, "a".toList⟩, ⟨2, "b".toList⟩] ["a".toList, "k".toList, "b".toList] =
      (["a".toList, "k".toList, "b".toList], false) ∧
    ((tryBatchTranslate (fun s => .ok (s.map Char.toUpper)) 0
        [⟨0, "a".toList⟩, ⟨2, "b".toList⟩] ["a".toList, "k".toList, "b".toList]).2 = true ∧
      (tryBatchTranslate (fun s => .ok (s.map Char.toUpper)) 0
        [⟨0, "a".toList⟩, ⟨2, "b".toList⟩] ["a".toList, "k".toList, "b".toList]).1[1]? =
          some "k".toList) :=
  ⟨(tryBatchTranslate_atomic (fun _ => .error "unavailable") 0
      [⟨0, "a".toList⟩, ⟨2, "b".toList⟩] ["a".toList, "k".toList, "b".toList]).1 ⟨_, rfl⟩,
    ((tryBatchTranslate_atomic (fun _ => .ok "x".toList) 0
      [⟨0, "a".toList⟩, ⟨2, "b".toList⟩] ["a".toList, "k".toList, "b".toList]).2
        "x".toList rfl).1 (by decide),
    have h := ((tryBatchTranslate_atomic (fun s => .ok (s.map Char.toUpper)) 0
      [⟨0, "a".toList⟩, ⟨2, "b".toList⟩] ["a".toList, "k".toList, "b".toList]).2
        _ rfl).2 (by rfl) (by decide)
    ⟨h.1, h.2.2 1 (by decide)⟩⟩

/-! ## Chunk construction: the chunks partition the items -/

theorem flatten_pairwise_index (chunks : List (List indexedText)) :
    ((chunks.flatten).map fun item => item.index).Nodup →
      List.Pairwise (fun c d : List indexedText => ∀ a ∈ c, ∀ b ∈ d, a.index ≠ b.index) chunks := by
  induction chunks with
  | nil => intro _; exact List.Pairwise.nil
  | cons c rest ih =>
    intro h
    rw [List.flatten_cons, List.map_append] at h
    obtain ⟨_, h2, h3⟩ := List.nodup_append.mp h
    refine List.Pairwise.cons ?_ (ih h2)
    intro d hd a ha b hb heq
    exact h3 (List.mem_map.mpr ⟨a, ha, rfl⟩)
      (List.mem_map.mpr ⟨b, List.mem_flatten.mpr ⟨d, hd, hb⟩, heq.symm⟩)

theorem flatten_count_chunks (item : indexedText) (chunks : List (List indexedText)) :
    ((chunks.flatten).map fun it => it.index).Nodup → item ∈ chunks.flatten →
      chunks.countP (fun c => decide (item ∈ c)) = 1 := by
  induction chunks with
  | nil => intro _ h; simp at h
  | cons c rest ih =>
    intro h hmem
    have hpair := flatten_pairwise_index (c :: rest) h
    rw [List.flatten_cons, List.map_append] at h
    obtain ⟨_, h2, _⟩ := List.nodup_append.mp h
    rw [List.pairwise_cons] at hpair
    by_cases hc : item ∈ c
    · have hzero : rest.countP (fun c => decide (item ∈ c)) = 0 := by
        rw [List.countP_eq_zero]
        intro d hd hin
        exact hpair.1 d hd item hc item (by simpa using hin) rfl
      rw [List.countP_cons_of_pos _ _ (by simpa using hc), hzero]
    · rw [List.countP_cons_of_neg _ _ (by simpa using hc)]
      apply ih h2
      rw [List.flatten_cons, List.mem_append] at hmem
      rcases hmem with h1 | h1
      · exact absurd h1 hc
      · exact h1

/-- C22. Chunking is a partition in order: for every list of items, the
chunks returned by `buildChunks`, concatenated in order, are the input list.
So when the items carry distinct position tags, every item occurs in exactly
one chunk and no two chunks hold the same position; this is the case for the
items that `BatchTranslate` collects from any list of texts. -/
theorem buildChunks_partition (items : List indexedText) :
    (buildChunks items).flatten = items ∧
    ((items.map fun item => item.index).Nodup →
      (∀ item ∈ items, (buildChunks items).countP (fun c => decide (item ∈ c)) = 1) ∧
      List.Pairwise (fun c d : List indexedText => ∀ a ∈ c, ∀ b ∈ d, a.index ≠ b.index)
        (buildChunks items)) ∧
    (∀ texts : List Str,
      ((collectNonEmpty 0 texts).map fun item => item.index).Nodup ∧
      List.Pairwise (fun c d : List indexedText => ∀ a ∈ c, ∀ b ∈ d, a.index ≠ b.index)
        (buildChunks (collectNonEmpty 0 texts))) := by
  have hflat := buildChunks_flatten items
  refine ⟨hflat, ?_, ?_⟩
  · intro hnd
    have hnd1 : (((buildChunks items).flatten).map fun item => item.index).Nodup := by
      rw [hflat]
      exact hnd
    refine ⟨?_, flatten_pairwise_index _ hnd1⟩
    intro item hitem
    exact flatten_count_chunks item _ hnd1 (by rw [hflat]; exact hitem)
  · intro texts
    have hnd : ((collectNonEmpty 0 texts).map fun item => item.index).Nodup :=
      (collectNonEmpty_sorted texts 0).imp (fun h => Nat.ne_of_lt h)
    refine ⟨hnd, flatten_pairwise_index _ ?_⟩
    rw [buildChunks_flatten]
    exact hnd

set_option maxRecDepth 20000 in
/-- The partition at a concrete input: two items of 1000 code points and one
short item give the chunks `[item 0]` and `[item 1, item 2]`; the item at
position 1 lies in exactly one of them. -/
theorem buildChunks_partition_witness :
    buildChunks [⟨0, List.replicate 1000 'a'⟩, ⟨1, List.replicate 1000 'b'⟩,
        ⟨2, "c".toList⟩] =
      [[⟨0, List.replicate 1000 'a'⟩], [⟨1, List.replicate 1000 'b'⟩, ⟨2, "c".toList⟩]] ∧
    (buildChunks [⟨0, List.replicate 1000 'a'⟩, ⟨1, List.replicate 1000 'b'⟩,
        ⟨2, "c".toList⟩]).countP
      (fun c => decide ((⟨1, List.replicate 1000 'b'⟩ : indexedText) ∈ c)) = 1 :=
  ⟨by rfl,
    ((buildChunks_partition [⟨0, List.replicate 1000 'a'⟩, ⟨1, List.replicate 1000 'b'⟩,
        ⟨2, "c".toList⟩]).2.1 (by decide)).1 ⟨1, List.replicate 1000 'b'⟩
      (List.mem_cons_of_mem _ (List.mem_cons_self _ _))⟩

/-! ## The fallback recursion of `processChunk` -/

theorem processChunk_calls (backend : Str → Except String Str) (rnd : Nat → Nat) :
    ∀ (fuel : Nat) (chunk : List indexedText) (r : List Str) (k : Nat), chunk.length < fuel →
      ∃ r1 k1, processChunk backend rnd fuel chunk (r, k) = some (r1, k1) ∧
        k < k1 ∧ k1 ≤ k + 1 + 2 * (chunk.length - 1) := by
  intro fuel
  induction fuel with
  | zero => intro chunk r k h; omega
  | succ fuel ih =>
    intro chunk r k hfuel
    simp only [processChunk]
    split
    · rename_i stored heq
      exact ⟨stored, k + 1, rfl, by omega, by omega⟩
    · split
      · rename_i hlen
        have hlen1 : (chunk.take (chunk.length / 2)).length = chunk.length / 2 := by
          rw [List.length_take]; omega
        have hlen2 : (chunk.drop (chunk.length / 2)).length = chunk.length - chunk.length / 2 := by
          rw [List.length_drop]
        obtain ⟨r1, k1, h1, hk1, hb1⟩ := ih (chunk.take (chunk.length / 2)) r (k + 1)
          (by rw [hlen1]; omega)
        obtain ⟨r2, k2, h2, hk2, hb2⟩ := ih (chunk.drop (chunk.length / 2)) r1 k1
          (by rw [hlen2]; omega)
        rw [h1]
        simp only
        rw [hlen1] at hb1
        rw [hlen2] at hb2
        exact ⟨r2, k2, h2, by omega, by omega⟩
      · obtain ⟨r1, h1, _, _⟩ := translateConcurrent_frame backend chunk r
        rw [h1]
        exact ⟨r1, k + 1, rfl, by omega, by omega⟩

theorem processChunk_fuel (backend : Str → Except String Str) (rnd : Nat → Nat) :
    ∀ (fuel1 fuel2 : Nat) (chunk : List indexedText) (st : List Str × Nat),
      chunk.length < fuel1 → chunk.length < fuel2 →
      processChunk backend rnd fuel1 chunk st = processChunk backend rnd fuel2 chunk st := by
  intro fuel1
  induction fuel1 with
  | zero => intro fuel2 chunk st h; omega
  | succ fuel1 ih =>
    intro fuel2 chunk st h1 h2
    cases fuel2 with
    | zero => omega
    | succ fuel2 =>
      obtain ⟨r, k⟩ := st
      simp only [processChunk]
      split
      · rfl
      · split
        · rename_i hlen
          have hlen1 : (chunk.take (chunk.length / 2)).length = chunk.length / 2 := by
            rw [List.length_take]; omega
          have hlen2 : (chunk.drop (chunk.length / 2)).length =
              chunk.length - chunk.length / 2 := by
            rw [List.length_drop]
          rw [ih fuel2 (chunk.take (chunk.length / 2)) (r, k + 1) (by rw [hlen1]; omega)
            (by rw [hlen1]; omega)]
          cases processChunk backend rnd fuel2 (chunk.take (chunk.length / 2)) (r, k + 1) with
          | none => rfl
          | some st1 =>
            exact ih fuel2 (chunk.drop (chunk.length / 2)) st1 (by rw [hlen2]; omega)
              (by rw [hlen2]; omega)
        · rfl

/-- C23. The fallback recursion terminates: for every chunk, backend, token
source and result container, `processChunk` returns once its fuel exceeds the
number of items, with the same result for every such fuel, after at least one
and at most `1 + 2 * (n - 1)` batch attempts for `n` items.  A chunk of more
than one item is split at `len / 2` into two non-empty halves, each strictly
shorter than the chunk and together the chunk; a chunk of at most one item
whose batch attempt fails is handed to `translateConcurrent`, which returns,
and no recursive call is made: one unit of fuel is enough. -/
theorem processChunk_terminates (backend : Str → Except String Str) (rnd : Nat → Nat)
    (chunk : List indexedText) (r : List Str) (k : Nat) :
    (∃ r1 k1, (∀ fuel, chunk.length < fuel →
        processChunk backend rnd fuel chunk (r, k) = some (r1, k1)) ∧
      k < k1 ∧ k1 ≤ k + 1 + 2 * (chunk.length - 1)) ∧
    (1 < chunk.length →
      0 < (chunk.take (chunk.length / 2)).length ∧
      (chunk.take (chunk.length / 2)).length < chunk.length ∧
      0 < (chunk.drop (chunk.length / 2)).length ∧
      (chunk.drop (chunk.length / 2)).length < chunk.length ∧
      chunk.take (chunk.length / 2) ++ chunk.drop (chunk.length / 2) = chunk) ∧
    (chunk.length ≤ 1 → (tryBatchTranslate backend (rnd k) chunk r).2 = false →
      ∃ written, translateConcurrent backend chunk r = some written ∧
        ∀ fuel, processChunk backend rnd (fuel + 1) chunk (r, k) = some (written, k + 1)) := by
  refine ⟨?_, ?_, ?_⟩
  · obtain ⟨r1, k1, h1, hk, hb⟩ :=
      processChunk_calls backend rnd (chunk.length + 1) chunk r k (Nat.lt_succ_self _)
    refine ⟨r1, k1, ?_, hk, hb⟩
    intro fuel hfuel
    rw [processChunk_fuel backend rnd fuel (chunk.length + 1) chunk (r, k) hfuel
      (Nat.lt_succ_self _)]
    exact h1
  · intro hlen
    rw [List.length_take, List.length_drop]
    refine ⟨by omega, by omega, by omega, by omega, List.take_append_drop _ _⟩
  · intro hlen hfail
    obtain ⟨written, hw, _, _⟩ := translateConcurrent_frame backend chunk r
    refine ⟨written, hw, ?_⟩
    intro fuel
    have htry : tryBatchTranslate backend (rnd k) chunk r =
        ((tryBatchTranslate backend (rnd k) chunk r).1, false) := Prod.ext rfl hfail
    simp only [processChunk]
    rw [htry]
    simp only [hw, if_neg (by omega : ¬ chunk.length > 1)]

set_option maxRecDepth 100000 in
/-- The recursion at a chunk of three items with a backend that rejects every
request: five batch attempts, and the container is returned as it was, with
fuel 4 as with fuel 100. -/
theorem processChunk_terminates_witness :
    processChunk (fun _ => .error "unavailable") (fun _ => 0) 4
        [⟨0, "a".toList⟩, ⟨1, "b".toList⟩, ⟨2, "c".toList⟩]
        (["a".toList, "b".toList, "c".toList], 0) =
      some (["a".toList, "b".toList, "c".toList], 5) ∧
    processChunk (fun _ => .error "unavailable") (fun _ => 0) 100
        [⟨0, "a".toList⟩, ⟨1, "b".toList⟩, ⟨2, "c".toList⟩]
        (["a".toList, "b".toList, "c".toList], 0) =
      some (["a".toList, "b".toList, "c".toList], 5) := by
  obtain ⟨r1, k1, h, _, _⟩ := (processChunk_terminates (fun _ => .error "unavailable")
    (fun _ => 0) [⟨0, "a".toList⟩, ⟨1, "b".toList⟩, ⟨2, "c".toList⟩]
    ["a".toList, "b".toList, "c".toList] 0).1
  have h4 := h 4 (by decide)
  have heval : processChunk (fun _ => .error "unavailable") (fun _ => 0) 4
      [⟨0, "a".toList⟩, ⟨1, "b".toList⟩, ⟨2, "c".toList⟩]
      (["a".toList, "b".toList, "c".toList], 0) =
      some (["a".toList, "b".toList, "c".toList], 5) := by rfl
  rw [heval] at h4
  exact ⟨heval, by rw [h 100 (by decide), ← h4]⟩

/-! ## Length splitting: no text is lost -/

theorem TrimSpace_decomp (s : Str) :
    ∃ a b : Str, s = a ++ TrimSpace s ++ b ∧ (∀ c ∈ a, isSpace c = true) ∧
      (∀ c ∈ b, isSpace c = true) := by
  refine ⟨s.takeWhile isSpace,
    (((s.dropWhile isSpace).reverse).takeWhile isSpace).reverse, ?_, ?_, ?_⟩
  · unfold TrimSpace
    rw [List.append_assoc, ← List.reverse_append, List.takeWhile_append_dropWhile,
      List.reverse_reverse, List.takeWhile_append_dropWhile]
  · intro c hc
    exact List.mem_takeWhile_imp hc
  · intro c hc
    exact List.mem_takeWhile_imp (List.mem_reverse.mp hc)

theorem deleteSpace_append (a b : Str) : deleteSpace (a ++ b) = deleteSpace a ++ deleteSpace b := by
  simp [deleteSpace]

theorem deleteSpace_blank (a : Str) (h : ∀ c ∈ a, isSpace c = true) : deleteSpace a = [] := by
  unfold deleteSpace
  rw [List.filter_eq_nil_iff]
  intro c hc
  simp [h c hc]

theorem deleteSpace_weave :
    ∀ (gaps segs : List Str), gaps.length = segs.length + 1 →
      (∀ g ∈ gaps, ∀ c ∈ g, isSpace c = true) →
      deleteSpace (weave gaps segs) = deleteSpace segs.flatten := by
  intro gaps
  induction gaps with
  | nil => intro segs h; simp at h
  | cons g gaps ih =>
    intro segs hlen hblank
    have hg := deleteSpace_blank g (hblank g (List.mem_cons_self _ _))
    cases segs with
    | nil =>
      simp only [weave, List.flatten_nil]
      rw [hg]
      rfl
    | cons s segs =>
      simp only [weave, List.flatten_cons, deleteSpace_append, hg, List.nil_append]
      rw [ih segs (by simpa using hlen) (fun g1 hg1 => hblank g1 (List.mem_cons_of_mem _ hg1))]

theorem splitLoop_weave (runes : Str) (maxLen : Nat) :
    ∀ (fuel start : Nat) (result parts : List Str),
      splitLoop runes maxLen fuel start result = some parts →
      ∃ more gaps : List Str, parts = result ++ more ∧ (∀ p ∈ more, p ≠ []) ∧
        gaps.length = more.length + 1 ∧
        (∀ g ∈ gaps, ∀ c ∈ g, isSpace c = true) ∧ weave gaps more = runes.drop start := by
  intro fuel
  induction fuel with
  | zero => intro start result parts h; simp [splitLoop] at h
  | succ fuel ih =>
    intro start result parts h
    simp only [splitLoop] at h
    split at h
    · rename_i hstart
      split at h
      · obtain ⟨a, b, hdec, ha, hb⟩ := TrimSpace_decomp (runes.drop start)
        have hparts := (Option.some.inj h).symm
        by_cases hne : TrimSpace (runes.drop start) = []
        · refine ⟨[], [runes.drop start], ?_, by simp, rfl, ?_, rfl⟩
          · rw [hparts]
            simp [appendPart, hne]
          · intro g hg c hc
            rw [List.mem_singleton] at hg
            rw [hg] at hc
            exact (TrimSpace_eq_nil_iff _).mp hne c hc
        · refine ⟨[TrimSpace (runes.drop start)], [a, b], ?_, ?_, rfl, ?_, ?_⟩
          · rw [hparts]
            simp [appendPart, hne]
          · intro p hp
            rw [List.mem_singleton] at hp
            rw [hp]
            exact hne
          · intro g hg c hc
            simp only [List.mem_cons, List.mem_singleton, List.not_mem_nil, or_false] at hg
            rcases hg with hg | hg
            · rw [hg] at hc; exact ha c hc
            · rw [hg] at hc; exact hb c hc
          · simp only [weave]
            exact hdec.symm
      · have hcut : start ≤ (scanBack runes (start + maxLen / 2) (start + maxLen)).getD
            (start + maxLen) := by
          cases hs : scanBack runes (start + maxLen / 2) (start + maxLen) with
          | none => simp
          | some j =>
            have := (scanBack_some runes _ _ j hs).1
            simp only [Option.getD_some]
            omega
        generalize (scanBack runes (start + maxLen / 2) (start + maxLen)).getD
          (start + maxLen) = cut at h hcut
        obtain ⟨more1, gaps1, hp1, hne1, hlen1, hbl1, hw1⟩ := ih cut _ parts h
        have hslice : runes.drop start =
            (runes.drop start).take (cut - start) ++ runes.drop cut := by
          have h1 : (runes.drop start).drop (cut - start) = runes.drop cut := by
            rw [List.drop_drop]
            congr 1
            omega
          rw [← h1, List.take_append_drop]
        obtain ⟨a, b, hdec, ha, hb⟩ := TrimSpace_decomp ((runes.drop start).take (cut - start))
        cases gaps1 with
        | nil => simp at hlen1
        | cons g0 gtail =>
          by_cases hne : TrimSpace ((runes.drop start).take (cut - start)) = []
          · refine ⟨more1, (((runes.drop start).take (cut - start)) ++ g0) :: gtail, ?_, hne1,
              by simpa using hlen1, ?_, ?_⟩
            · rw [hp1]
              simp [appendPart, hne]
            · intro g hg c hc
              rcases List.mem_cons.mp hg with hg | hg
              · rw [hg] at hc
                rcases List.mem_append.mp hc with hc | hc
                · exact (TrimSpace_eq_nil_iff _).mp hne c hc
                · exact hbl1 g0 (List.mem_cons_self _ _) c hc
              · exact hbl1 g (List.mem_cons_of_mem _ hg) c hc
            · refine Eq.trans ?_ hslice.symm
              rw [← hw1]
              cases more1 with
              | nil => simp [weave]
              | cons m ms => simp [weave]
          · refine ⟨TrimSpace ((runes.drop start).take (cut - start)) :: more1,
              a :: (b ++ g0) :: gtail, ?_, ?_, by simpa using hlen1, ?_, ?_⟩
            · rw [hp1]
              simp [appendPart, hne]
            · intro p hp
              rcases List.mem_cons.mp hp with hp | hp
              · rw [hp]; exact hne
              · exact hne1 p hp
            · intro g hg c hc
              rcases List.mem_cons.mp hg with hg | hg
              · rw [hg] at hc; exact ha c hc
              · rcases List.mem_cons.mp hg with hg | hg
                · rw [hg] at hc
                  rcases List.mem_append.mp hc with hc | hc
                  · exact hb c hc
                  · exact hbl1 g0 (List.mem_cons_self _ _) c hc
                · exact hbl1 g (List.mem_cons_of_mem _ (hg)) c hc
            · have hw2 : weave (a :: (b ++ g0) :: gtail)
                  (TrimSpace ((runes.drop start).take (cut - start)) :: more1) =
                  (a ++ TrimSpace ((runes.drop start).take (cut - start)) ++ b) ++
                    weave (g0 :: gtail) more1 := by
                cases more1 with
                | nil => simp [weave]
                | cons m ms => simp [weave]
              rw [hw2, ← hdec, hw1]
              exact hslice.symm
    · rename_i hstart
      have hparts := (Option.some.inj h).symm
      refine ⟨[], [[]], by simp [hparts], by simp, rfl, by simp, ?_⟩
      simp only [weave]
      rw [List.drop_eq_nil_of_le (by omega)]


/-- C24. Length splitting loses no text: for every text and every
`maxLen ≥ 1`, `splitTextByLength` returns segments whose concatenation, with all
white space deleted, is the text with all white space deleted.  More precisely
the text is the segments in order with a gap in front of each and one behind the
last, every gap consisting of white space only: nothing but white space at
segment boundaries is dropped. -/
theorem splitTextByLength_keeps_text (text : Str) (maxLen : Nat) (hmax : 1 ≤ maxLen) :
    ∃ parts : List Str, splitTextByLength text maxLen = some parts ∧
      deleteSpace parts.flatten = deleteSpace text ∧
      ∃ gaps : List Str, gaps.length = parts.length + 1 ∧
        (∀ g ∈ gaps, ∀ c ∈ g, isSpace c = true) ∧ weave gaps parts = text := by
  have hwhole : ∃ gaps : List Str, gaps.length = [text].length + 1 ∧
      (∀ g ∈ gaps, ∀ c ∈ g, isSpace c = true) ∧ weave gaps [text] = text :=
    ⟨[[], []], rfl, by simp, by simp [weave]⟩
  have hfinish : ∀ parts : List Str, splitTextByLength text maxLen = some parts →
      (∃ gaps : List Str, gaps.length = parts.length + 1 ∧
        (∀ g ∈ gaps, ∀ c ∈ g, isSpace c = true) ∧ weave gaps parts = text) →
      ∃ parts : List Str, splitTextByLength text maxLen = some parts ∧
        deleteSpace parts.flatten = deleteSpace text ∧
        ∃ gaps : List Str, gaps.length = parts.length + 1 ∧
          (∀ g ∈ gaps, ∀ c ∈ g, isSpace c = true) ∧ weave gaps parts = text := by
    rintro parts hparts ⟨gaps, hlen, hblank, hw⟩
    refine ⟨parts, hparts, ?_, gaps, hlen, hblank, hw⟩
    rw [← deleteSpace_weave gaps parts hlen hblank, hw]
  by_cases hshort : text.length ≤ maxLen
  · apply hfinish [text] _ hwhole
    unfold splitTextByLength
    rw [if_pos hshort]
  · obtain ⟨parts0, h0⟩ := splitLoop_terminates text maxLen hmax (text.length + 1) 0 []
      (Nat.zero_le _) (by omega)
    obtain ⟨more, gaps, hp, _, hlen, hblank, hw⟩ := splitLoop_weave text maxLen _ _ _ _ h0
    rw [List.nil_append] at hp
    subst hp
    rw [List.drop_zero] at hw
    by_cases hzero : parts0.length = 0
    · apply hfinish [text] _ hwhole
      unfold splitTextByLength
      rw [if_neg hshort, h0]
      simp only [Option.map_some', hzero, if_true]
    · apply hfinish parts0 _ ⟨gaps, hlen, hblank, hw⟩
      unfold splitTextByLength
      rw [if_neg hshort, h0]
      simp only [Option.map_some', hzero, if_false]

/-- Length splitting at a concrete text: four words and double spaces, a
ceiling of five; the segments are the four words. -/
theorem splitTextByLength_keeps_text_witness :
    splitTextByLength "aaa  bbb ccc  ddd".toList 5 =
        some ["aaa".toList, "bbb".toList, "ccc".toList, "ddd".toList] ∧
      deleteSpace (["aaa".toList, "bbb".toList, "ccc".toList, "ddd".toList].flatten) =
        deleteSpace "aaa  bbb ccc  ddd".toList := by
  obtain ⟨parts, h1, h2, _⟩ :=
    splitTextByLength_keeps_text "aaa  bbb ccc  ddd".toList 5 (by decide)
  have h5 : splitTextByLength "aaa  bbb ccc  ddd".toList 5 =
      some ["aaa".toList, "bbb".toList, "ccc".toList, "ddd".toList] := by decide
  rw [h5] at h1
  rw [← Option.some.inj h1] at h2
  exact ⟨h5, h2⟩

/-! ## Partial success: a text whose later segment is rejected -/

theorem scanBack_spaceless (runes : Str) (lo : Nat) (h : ∀ c ∈ runes, isSpace c = false) :
    ∀ i, i ≤ runes.length → scanBack runes lo i = none := by
  intro i
  induction i with
  | zero => intro _; rfl
  | succ i ih =>
    intro hi
    simp only [scanBack]
    split
    · have hget : runes.getD i ' ' = runes[i] := by
        rw [List.getD_eq_getElem?_getD, List.getElem?_eq_getElem (by omega)]
        rfl
      rw [hget, h _ (List.getElem_mem _)]
      simp only [Bool.false_eq_true, if_false]
      exact ih (by omega)
    · rfl

/-- A text without white space that is longer than `n` and at most twice as
long is split into its first `n` code points and the rest. -/
theorem splitTextByLength_spaceless (text : Str) (n : Nat)
    (h : ∀ c ∈ text, isSpace c = false) (hn : 1 ≤ n) (hlong : n < text.length)
    (hshort : text.length ≤ 2 * n) :
    splitTextByLength text n = some [text.take n, text.drop n] := by
  obtain ⟨m, hm⟩ : ∃ m, text.length = m + 1 := ⟨text.length - 1, by omega⟩
  have htake : TrimSpace (text.take n) = text.take n :=
    TrimSpace_of_no_space _ (fun c hc => h c (List.mem_of_mem_take hc))
  have hdrop : TrimSpace (text.drop n) = text.drop n :=
    TrimSpace_of_no_space _ (fun c hc => h c (List.mem_of_mem_drop hc))
  have htake_ne : text.take n ≠ [] := by
    intro h0
    have := congrArg List.length h0
    rw [List.length_take] at this
    simp only [List.length_nil] at this
    omega
  have hdrop_ne : text.drop n ≠ [] := by
    intro h0
    have := congrArg List.length h0
    rw [List.length_drop] at this
    simp only [List.length_nil] at this
    omega
  have hscan : scanBack text (n / 2) n = none :=
    scanBack_spaceless text _ h _ (by omega)
  unfold splitTextByLength
  rw [if_neg (by omega)]
  have hstep1 : splitLoop text n (text.length + 1) 0 [] =
      splitLoop text n text.length n [text.take n] := by
    simp only [splitLoop]
    rw [if_pos (by omega), if_neg (by omega)]
    simp only [List.drop_zero, Nat.zero_add, Nat.sub_zero, appendPart, ne_eq, List.nil_append,
      hscan, Option.getD_none, htake, htake_ne, not_false_eq_true, if_true]
  have hstep2 : splitLoop text n text.length n [text.take n] =
      some [text.take n, text.drop n] := by
    rw [hm]
    simp only [splitLoop]
    rw [if_pos (by omega), if_pos (by omega)]
    simp only [hdrop, appendPart, ne_eq, hdrop_ne, not_false_eq_true, if_true,
      List.singleton_append]
  rw [hstep1, hstep2]
  simp

/-- For a single non-blank text, the translation is missed when the batch
attempt on the text alone and the individual dispatch both fail. -/
theorem translationMissed_single (backend : Str → Except String Str) (rnd : Nat → Nat)
    (text : Str) (hne : TrimSpace text ≠ [])
    (hb : batchAttemptFails backend (rnd 0) [⟨0, text⟩] = true)
    (hd : dispatchFails backend text = true) :
    translationMissed backend rnd [text] 0 = true := by
  have hitems : collectNonEmpty 0 [text] = [⟨0, text⟩] := by
    simp [collectNonEmpty, hne]
  have hchunks : buildChunks [(⟨0, text⟩ : indexedText)] = [[⟨0, text⟩]] := by
    simp [buildChunks, buildChunksLoop]
  obtain ⟨r1, k1, h1, _, _⟩ := processChunk_frame backend rnd 2 [⟨0, text⟩] [text] 0
    (by simp)
  unfold translationMissed
  rw [hitems, hchunks]
  simp only [notObtainedIn, List.length_singleton, h1, notObtained, hb, Bool.true_and,
    Nat.lt_irrefl, gt_iff_lt, if_false, List.all_cons, List.all_nil, hd, Bool.or_true,
    Bool.and_true]

set_option maxRecDepth 100000 in
/-- Partial success at four concrete requests.  A backend that rejects only
the request `hello` leaves the text `hello` as it is.  A backend that answers a
joined request with `x` (one part for two items) and rejects `a` and `b` leaves
both texts as they are.  A backend that accepts only requests of 1400 code
points leaves a text of 1500 code points as it is: the batch attempt is
rejected, the first segment is translated and the second is rejected.  A
backend that rejects every request returns the input. -/
theorem BatchTranslate_partial_success_witness :
    (∃ out, BatchTranslate
          (fun s => if s = "hello".toList then .error "rejected" else .ok (s.map Char.toUpper))
          (fun _ => 0) ["hello".toList] = some (.ok out) ∧
        out[0]? = some "hello".toList) ∧
    (∃ out, BatchTranslate
          (fun s => if s = "a".toList ∨ s = "b".toList then .error "rejected" else .ok "x".toList)
          (fun _ => 0) ["a".toList, "b".toList] = some (.ok out) ∧
        out[0]? = some "a".toList ∧ out[1]? = some "b".toList) ∧
    (∃ out, BatchTranslate
          (fun s => if s.length = 1400 then .ok (s.map Char.toUpper) else .error "rejected")
          (fun _ => 0) [List.replicate 1500 'a'] = some (.ok out) ∧
        out[0]? = some (List.replicate 1500 'a')) ∧
    (∃ out, BatchTranslate (fun _ => .error "unavailable") (fun _ => 0)
        ["hello".toList, "world".toList] = some (.ok out) ∧
      out = ["hello".toList, "world".toList]) := by
  refine ⟨?_, ?_, ?_, ?_⟩
  · obtain ⟨out, h1, _, h3, _⟩ := BatchTranslate_partial_success
      (fun s => if s = "hello".toList then .error "rejected" else .ok (s.map Char.toUpper))
      (fun _ => 0) ["hello".toList]
    exact ⟨out, h1, h3 0 (by decide) (by rfl)⟩
  · obtain ⟨out, h1, _, h3, _⟩ := BatchTranslate_partial_success
      (fun s => if s = "a".toList ∨ s = "b".toList then .error "rejected" else .ok "x".toList)
      (fun _ => 0) ["a".toList, "b".toList]
    exact ⟨out, h1, h3 0 (by decide) (by rfl), h3 1 (by decide) (by rfl)⟩
  · obtain ⟨out, h1, _, h3, _⟩ := BatchTranslate_partial_success
      (fun s => if s.length = 1400 then .ok (s.map Char.toUpper) else .error "rejected")
      (fun _ => 0) [List.replicate 1500 'a']
    refine ⟨out, h1, h3 0 (by decide) ?_⟩
    have hsp : ∀ c ∈ List.replicate 1500 'a', isSpace c = false := by
      intro c hc
      rw [List.eq_of_mem_replicate hc]
      decide
    have hlen : (List.replicate 1500 'a').length = 1500 := List.length_replicate _ _
    have hne : List.replicate 1500 'a' ≠ [] := by
      intro h0
      rw [h0] at hlen
      simp at hlen
    have hdrop : (List.drop 1400 (List.replicate 1500 'a')).length = 100 := by
      rw [List.length_drop, hlen]
    have hdne : List.drop 1400 (List.replicate 1500 'a') ≠ [] := by
      intro h0
      rw [h0] at hdrop
      simp at hdrop
    apply translationMissed_single
    · rw [TrimSpace_of_no_space _ hsp]
      exact hne
    · unfold batchAttemptFails
      simp only [List.map_cons, List.map_nil, stringsJoin, GoogleTranslate, if_neg hne, hlen]
      rfl
    · unfold dispatchFails
      rw [if_neg (by rw [hlen]; decide),
        splitTextByLength_spaceless _ maxSingleTextChars hsp (by decide) (by rw [hlen]; decide)
          (by rw [hlen]; decide)]
      simp only [List.any_cons, GoogleTranslate, if_neg hdne, maxSingleTextChars, hdrop,
        List.any_nil, Bool.or_false]
      simp [rejected]
  · obtain ⟨out, h1, _, _, h4⟩ := BatchTranslate_partial_success
      (fun _ => .error "unavailable") (fun _ => 0) ["hello".toList, "world".toList]
    exact ⟨out, h1, h4 (fun _ => ⟨_, rfl⟩)⟩

end Translator
